import Mathlib

/-!
# Verification of the Decentralized-Data Chord simulator

Shallow embedding of `src/chord.py` (the Chord ring protocol), of the
per-node Indexed Local Store (`b_tree.py`, not present in the sources:
modelled from the spec), of the statistics helpers of
`src/GUI/experiments.py` and `src/main_chord.py`, and of the GUI run
validation of `src/gui_dht.py`, together with theorems settling the
frozen claims about the repository.

Python object references are modelled with an arena of stable integer
handles (`Ref`): every created node receives a fresh handle, and the
`successor` / `predecessor` / `finger` fields hold handles instead of
object references.  Machine integers of the key space are `Nat` with
explicit `% 2 ^ m` where the source reduces modulo the key space.
-/

namespace DData

/-- A stable handle standing for a Python object reference to a node. -/
abbrev Ref := Nat

/-- A movie record: a Python dict, modelled as a field-name/value
association list; field values are modelled opaquely as strings (no
claim computes on the value itself). -/
abbrev Record := List (String × String)

/-- `record[field] = new_value` on a Python dict: replace the binding of
`field` if present, otherwise add it. -/
def Record.setField (rec : Record) (field value : String) : Record :=
  if rec.any (fun p => p.fst == field) then
    rec.map (fun p => if p.fst == field then (p.fst, value) else p)
  else
    rec ++ [(field, value)]

/-- Modelled from the spec: `b_tree.py` (the `BPlusTree` class) is not
among the available sources; §4.3 of the spec describes it as an ordered
key → record-list associative store.  We model exactly that contract:
a list of `(key, records)` entries kept in ascending key order.  The
fanout/order parameter (`btree_size`) tunes only the tree's internal
shape, not its observable behaviour, so it is not part of the model. -/
structure BPlusTree where
  entries : List (Nat × List Record)
deriving Repr, DecidableEq

namespace BPlusTree

/-- A freshly constructed, empty store. -/
def empty : BPlusTree := ⟨[]⟩

/-- Insert a record under `key` in an entry list kept in ascending key
order: append to the existing record list, or create a new entry at the
sorted position. -/
def insertEntries : List (Nat × List Record) → Record → Nat → List (Nat × List Record)
  | [], rec, key => [(key, [rec])]
  | (k, recs) :: rest, rec, key =>
    if key < k then (key, [rec]) :: (k, recs) :: rest
    else if key = k then (k, recs ++ [rec]) :: rest
    else (k, recs) :: insertEntries rest rec key

/-- Modelled from the spec (§4.3): `insert(record, key)` — add a record
under `key`; if the key already holds record(s), append rather than
overwrite. -/
def insert (t : BPlusTree) (rec : Record) (key : Nat) : BPlusTree :=
  ⟨insertEntries t.entries rec key⟩

/-- Modelled from the spec (§4.3): `search_key(key)` — the list of
records under `key`, or an empty list if absent. -/
def search_key (t : BPlusTree) (key : Nat) : List Record :=
  match t.entries.find? (fun e => e.fst == key) with
  | some e => e.snd
  | none => []

/-- Modelled from the spec (§4.3): `delete(key)` — remove the entire
entry (all records) for `key`; no-op if absent. -/
def delete (t : BPlusTree) (key : Nat) : BPlusTree :=
  ⟨t.entries.filter (fun e => e.fst != key)⟩

/-- Modelled from the spec (§4.3): `get_all_items()` — every
`(key, record)` pair currently stored, in ascending key order. -/
def get_all_items (t : BPlusTree) : List (Nat × Record) :=
  t.entries.flatMap (fun e => e.snd.map (fun r => (e.fst, r)))

/-- Number of `(key, record)` items held by the store. -/
def itemCount (t : BPlusTree) : Nat :=
  t.get_all_items.length

/-- Representation invariant of the modelled store: entry keys strictly
ascending, and no entry with an empty record list (`insert` never
creates one and `delete` removes whole entries). -/
def WFStore (t : BPlusTree) : Prop :=
  (t.entries.map Prod.fst).Sorted (· < ·) ∧ ∀ e ∈ t.entries, e.snd ≠ []

end BPlusTree

/-- `chord_hash(value, m)` from `src/chord.py`: the SHA-1 hex digest of
the text of `value`, read as a base-16 integer, reduced modulo `2^m`.
The cryptographic digest itself is not embeddable; it is modelled as an
arbitrary function `hf : String → Nat`, so that every theorem below
holds for the real digest in particular. -/
def chord_hash (hf : String → Nat) (value : String) (m : Nat) : Nat :=
  hf value % 2 ^ m

/-- `ChordNode` from `src/chord.py`: node id, local store, successor /
predecessor links and a finger table of `m` entries (`None`-initialised
on construction).  Links and fingers hold arena handles (`Ref`) standing
for the Python object references. -/
structure ChordNode where
  ref : Ref
  node_id : Nat
  btree : BPlusTree
  successor : Option Ref
  predecessor : Option Ref
  finger : List (Option Ref)
deriving Repr, DecidableEq

/-- `ChordRing` from `src/chord.py`.  `nextRef` is the arena's fresh
handle counter (Python: object allocation). -/
structure ChordRing where
  m : Nat
  nodes : List ChordNode
  nextRef : Ref
deriving Repr, DecidableEq

/-- A ring with no nodes (`ChordRing.__init__`; the `btree_size`
parameter tunes only the store's internal fanout and has no observable
behaviour in the model). -/
def ChordRing.empty (m : Nat) : ChordRing :=
  { m := m, nodes := [], nextRef := 0 }

/-- `ChordRing._in_interval(key, start, end)`: membership of `key` in
the circular half-open interval `(start, end]`. -/
def in_interval (key start fin : Nat) : Bool :=
  if start < fin then start < key && key ≤ fin
  else key > start || key ≤ fin

/-- Resolve an arena handle to its node: the first node of the ring's
list carrying that handle (Python: the reference itself). -/
def getNode (r : ChordRing) (ref : Ref) : Option ChordNode :=
  r.nodes.find? (fun nd => nd.ref == ref)

/-- The list of node ids of the ring, in node-list order. -/
def ringIds (r : ChordRing) : List Nat :=
  r.nodes.map ChordNode.node_id

/-- The list of node handles of the ring, in node-list order. -/
def ringRefs (r : ChordRing) : List Ref :=
  r.nodes.map ChordNode.ref

/-- Failure of a ring operation: `emptyRing` is the
`RuntimeError("Chord ring has no nodes")` of `find_successor`;
`badState` stands for the attribute errors Python would raise on a
malformed object graph (an unresolvable handle or a missing link),
none of which can occur in a maintained ring. -/
inductive RingErr
  | emptyRing
  | badState
deriving Repr, DecidableEq

/-- `ChordRing.find_successor_linear(key)`: scan the node list in order
for the first node whose id is `≥ key`; fall back to the first node of
the list (`none` only on an empty ring, where Python would raise an
`IndexError`). -/
def find_successor_linear (r : ChordRing) (key : Nat) : Option ChordNode :=
  match r.nodes.find? (fun nd => key ≤ nd.node_id) with
  | some nd => some nd
  | none => r.nodes.head?

/-- The scan of `closest_preceding_finger`: walk the finger entries from
the highest index down (the list passed here is already reversed),
returning the first non-`None` finger whose node id lies in
`(base_id, key]`.  An entry whose handle does not resolve is skipped;
such an entry represents no Python state (a live reference always
resolves), so the choice is immaterial. -/
def cpf_scan (r : ChordRing) (base_id key : Nat) : List (Option Ref) → Option Ref
  | [] => none
  | none :: rest => cpf_scan r base_id key rest
  | some fref :: rest =>
    match getNode r fref with
    | some fnode =>
      if in_interval fnode.node_id base_id key then some fref
      else cpf_scan r base_id key rest
    | none => cpf_scan r base_id key rest

/-- `ChordRing.closest_preceding_finger(node, key)`: the highest finger
of `nd` whose id lies in `(nd.node_id, key]`, or `nd` itself when no
finger qualifies. -/
def closest_preceding_finger (r : ChordRing) (nd : ChordNode) (key : Nat) : Ref :=
  (cpf_scan r nd.node_id key nd.finger.reverse).getD nd.ref

/-- The `while` loop of `ChordRing.find_successor`, with an explicit
fuel argument (the loop is bounded by the `max_steps` safety cap, so
fuel `max_steps + 2` always suffices; running out of fuel yields
`badState`, which the termination theorem rules out). -/
def fs_loop (r : ChordRing) (key max_steps : Nat) :
    Nat → Ref → Nat → Except RingErr (Ref × Nat)
  | 0, _, _ => .error .badState
  | fuel + 1, curr, hops =>
    match getNode r curr with
    | none => .error .badState
    | some cnode =>
      match cnode.successor with
      | none => .error .badState
      | some sref =>
        match getNode r sref with
        | none => .error .badState
        | some snode =>
          if in_interval key cnode.node_id snode.node_id then .ok (sref, hops)
          else
            let cpf := closest_preceding_finger r cnode key
            let nxt := if cpf = curr then sref else cpf
            let hops' := hops + 1
            if max_steps < hops' then
              match find_successor_linear r key with
              | some nd => .ok (nd.ref, hops')
              | none => .error .emptyRing
            else fs_loop r key max_steps fuel nxt hops'

/-- `ChordRing.find_successor(key, start_node)`: route `key` from
`start_node` (default: the ring's first node), returning the owning
node's handle and the hop count.  Raises `emptyRing` on a ring with no
nodes; returns the start node itself with zero hops when its successor
link is unset (the pre-link single-node case). -/
def find_successor (r : ChordRing) (key : Nat) (start_node : Option Ref) :
    Except RingErr (Ref × Nat) :=
  match r.nodes.head? with
  | none => .error .emptyRing
  | some first =>
    let sref := start_node.getD first.ref
    match getNode r sref with
    | none => .error .badState
    | some snode =>
      match snode.successor with
      | none => .ok (sref, 0)
      | some _ =>
        let max_steps := max 4 (r.nodes.length * 4)
        fs_loop r key max_steps (max_steps + 2) sref 0

/-- The finger list `ChordRing.init_finger_table` computes for a node
with id `node_id`: entry `i` is the linear successor of
`(node_id + 2^i) mod 2^m`. -/
def init_finger_list (r : ChordRing) (node_id : Nat) : List (Option Ref) :=
  (List.range r.m).map
    (fun i => (find_successor_linear r ((node_id + 2 ^ i) % 2 ^ r.m)).map ChordNode.ref)

/-- `ChordRing.fix_all_fingers()`: rerun `init_finger_table` for every
node of the ring (the linear scans read only node ids, so recomputing
all tables from the entry state matches the sequential loop). -/
def fix_all_fingers (r : ChordRing) : ChordRing :=
  { r with nodes := r.nodes.map (fun nd => { nd with finger := init_finger_list r nd.node_id }) }

/-- The node list after `ChordRing._update_links()`: node `i`'s
successor is node `(i+1) mod n` and its predecessor node `(i-1) mod n`
(`(i-1) mod n` written `(i + n - 1) mod n` on `Nat`). -/
def update_links_list (ns : List ChordNode) : List ChordNode :=
  ns.mapIdx (fun i nd =>
    { nd with
      successor := (ns[(i + 1) % ns.length]?).map ChordNode.ref,
      predecessor := (ns[(i + ns.length - 1) % ns.length]?).map ChordNode.ref })

/-- `ChordRing._update_links()`. -/
def update_links (r : ChordRing) : ChordRing :=
  { r with nodes := update_links_list r.nodes }

/-- Replace the node carrying handle `ref` (Python: mutate the object
in place). -/
def modify_node (r : ChordRing) (ref : Ref) (f : ChordNode → ChordNode) : ChordRing :=
  { r with nodes := r.nodes.map (fun nd => if nd.ref = ref then f nd else nd) }

/-- `ChordRing.insert(key_int, record, start_node)`: route to the owner
of the already-hashed key and add the record to its store; the hop
count is returned and the mutated ring threaded explicitly. -/
def ChordRing.insert (r : ChordRing) (key_int : Nat) (record : Record)
    (start_node : Option Ref) : Except RingErr (Nat × ChordRing) :=
  match find_successor r key_int start_node with
  | .error e => .error e
  | .ok (nref, hops) =>
    .ok (hops, modify_node r nref (fun nd => { nd with btree := nd.btree.insert record key_int }))

/-- `ChordRing.insert_title(movie_title, record, start_node)`. -/
def ChordRing.insert_title (hf : String → Nat) (r : ChordRing) (movie_title : String)
    (record : Record) (start_node : Option Ref) : Except RingErr (Nat × ChordRing) :=
  r.insert (chord_hash hf movie_title r.m) record start_node

/-- `ChordRing.lookup(movie_title, start_node)`: hash the title, route
to the owner and return its record list for the key together with the
hop count; the ring state after the call is returned alongside. -/
def ChordRing.lookup (hf : String → Nat) (r : ChordRing) (movie_title : String)
    (start_node : Option Ref) : Except RingErr ((List Record × Nat) × ChordRing) :=
  let key_int := chord_hash hf movie_title r.m
  match find_successor r key_int start_node with
  | .error e => .error e
  | .ok (nref, hops) =>
    match getNode r nref with
    | none => .error .badState
    | some nd => .ok ((nd.btree.search_key key_int, hops), r)

/-- `ChordRing.delete_key(key_int, start_node)`. -/
def ChordRing.delete_key (r : ChordRing) (key_int : Nat)
    (start_node : Option Ref) : Except RingErr (Nat × ChordRing) :=
  match find_successor r key_int start_node with
  | .error e => .error e
  | .ok (nref, hops) =>
    .ok (hops, modify_node r nref (fun nd => { nd with btree := nd.btree.delete key_int }))

/-- `ChordRing.delete_title(movie_title, start_node)`. -/
def ChordRing.delete_title (hf : String → Nat) (r : ChordRing) (movie_title : String)
    (start_node : Option Ref) : Except RingErr (Nat × ChordRing) :=
  r.delete_key (chord_hash hf movie_title r.m) start_node

/-- Set `field` on the first record stored under `key` (Python:
`records[0][field] = new_value` mutates the dict held by the store). -/
def BPlusTree.update_first (t : BPlusTree) (key : Nat) (field value : String) : BPlusTree :=
  ⟨t.entries.map (fun e =>
    if e.fst = key then
      (e.fst, match e.snd with
        | [] => []
        | rec :: rest => rec.setField field value :: rest)
    else e)⟩

/-- `ChordRing.update_movie_field(title, field, new_value, start_node)`:
route to the owner of the hashed title; return `(False, hops)` if no
record is stored under the key, otherwise set the field on the first
stored record and return `(True, hops)`. -/
def ChordRing.update_movie_field (hf : String → Nat) (r : ChordRing) (title field new_value : String)
    (start_node : Option Ref) : Except RingErr ((Bool × Nat) × ChordRing) :=
  let key_int := chord_hash hf title r.m
  match find_successor r key_int start_node with
  | .error e => .error e
  | .ok (nref, hops) =>
    match getNode r nref with
    | none => .error .badState
    | some nd =>
      match nd.btree.search_key key_int with
      | [] => .ok ((false, hops), r)
      | _ :: _ =>
        .ok ((true, hops),
          modify_node r nref (fun nd => { nd with btree := nd.btree.update_first key_int field new_value }))

/-- A freshly constructed `ChordNode(node_id, m)`. -/
def mkChordNode (ref : Ref) (node_id m : Nat) : ChordNode :=
  { ref := ref, node_id := node_id, btree := .empty,
    successor := none, predecessor := none, finger := List.replicate m none }

/-- Ordering of nodes by id, used by `self.nodes.sort(key=...)`. -/
def nodeLE (a b : ChordNode) : Prop := a.node_id ≤ b.node_id

instance : DecidableRel nodeLE := fun a b => Nat.decLe a.node_id b.node_id

/-- `self.nodes.sort(key=lambda n: n.node_id)` (a stable sort). -/
def sort_nodes (ns : List ChordNode) : List ChordNode :=
  ns.insertionSort nodeLE

/-- The loop of `ChordRing._redistribute_keys`: walk the successor's
item snapshot; every item whose key falls in `(pred_id, new_id]` incurs
the routing cost of `find_successor` from the successor, is inserted
into the new node's store, and its key deleted from the successor's
store. -/
def redistribute_fold (pred_id new_id : Nat) (new_ref sref : Ref) :
    List (Nat × Record) → Nat → Nat → ChordRing → Except RingErr ((Nat × Nat) × ChordRing)
  | [], hops, moved, r => .ok ((hops, moved), r)
  | (key, rec) :: rest, hops, moved, r =>
    if in_interval key pred_id new_id then
      match find_successor r key (some sref) with
      | .error e => .error e
      | .ok (_, h) =>
        let r1 := modify_node r new_ref (fun nd => { nd with btree := nd.btree.insert rec key })
        let r2 := modify_node r1 sref (fun nd => { nd with btree := nd.btree.delete key })
        redistribute_fold pred_id new_id new_ref sref rest (hops + h) (moved + 1) r2
    else redistribute_fold pred_id new_id new_ref sref rest hops moved r

/-- `ChordRing._redistribute_keys(new_node)`: move every item of the
new node's successor whose key falls in `(pred.id, new.id]` into the
new node, counting simulated routing hops per moved item. -/
def redistribute_keys (r : ChordRing) (new_ref : Ref) :
    Except RingErr ((Nat × Nat) × ChordRing) :=
  match getNode r new_ref with
  | none => .error .badState
  | some new_node =>
    match new_node.predecessor, new_node.successor with
    | some pref, some sref =>
      match getNode r pref, getNode r sref with
      | some pred, some succ =>
        redistribute_fold pred.node_id new_node.node_id new_ref sref
          succ.btree.get_all_items 0 0 r
      | _, _ => .error .badState
    | _, _ => .error .badState

/-- `ChordRing.join_node(node_id, start_node)`: measure the routing
cost of locating the join point (on a non-empty ring), create the node,
insert it into the sorted list, rebuild links, redistribute keys when
more than one node exists, rebuild all finger tables; return the new
node's handle, the total hop count and the moved-record count. -/
def join_locate (r : ChordRing) (node_id : Nat) (start_node : Option Ref) :
    Except RingErr Nat :=
  if r.nodes.isEmpty then .ok 0
  else
    match find_successor r node_id start_node with
    | .error e => .error e
    | .ok (_, h) => .ok h

/-- The ring with the new node inserted into the sorted node list
(before links are rebuilt). -/
def join_inserted (r : ChordRing) (node_id : Nat) : ChordRing :=
  { m := r.m
    nodes := sort_nodes (r.nodes ++ [mkChordNode r.nextRef node_id r.m])
    nextRef := r.nextRef + 1 }

/-- The structural phase of `join_node`, after the locate cost has been
measured: insert the node, rebuild links, redistribute when more than
one node exists, rebuild fingers. -/
def join_rest (r : ChordRing) (node_id : Nat) (join_hops : Nat) :
    Except RingErr ((Ref × Nat × Nat) × ChordRing) :=
  let r2 := update_links (join_inserted r node_id)
  if r2.nodes.length ≤ 1 then
    .ok ((r.nextRef, join_hops, 0), fix_all_fingers r2)
  else
    match redistribute_keys r2 r.nextRef with
    | .error e => .error e
    | .ok ((moved_hops, moved_cnt), r3) =>
      .ok ((r.nextRef, join_hops + moved_hops, moved_cnt), fix_all_fingers r3)

def join_node (r : ChordRing) (node_id : Nat) (start_node : Option Ref) :
    Except RingErr ((Ref × Nat × Nat) × ChordRing) :=
  match join_locate r node_id start_node with
  | .error e => .error e
  | .ok join_hops => join_rest r node_id join_hops

/-- `self.nodes.remove(node)`: drop the first list element that is the
given object (here: carries its handle). -/
def remove_first_node : List ChordNode → Ref → List ChordNode
  | [], _ => []
  | nd :: rest, ref => if nd.ref = ref then rest else nd :: remove_first_node rest ref

/-- The loop of `ChordRing.leave_node`: for every item of the leaving
node's snapshot, simulate the routing cost from the leaving node and
append the record to the successor's store. -/
def leave_fold (node_ref : Ref) (succ_opt : Option Ref) :
    List (Nat × Record) → Nat → Nat → ChordRing → Except RingErr ((Nat × Nat) × ChordRing)
  | [], hops, moved, r => .ok ((hops, moved), r)
  | (key, rec) :: rest, hops, moved, r =>
    match find_successor r key (some node_ref) with
    | .error e => .error e
    | .ok (_, h) =>
      match succ_opt with
      | none => .error .badState
      | some sref =>
        let r1 := modify_node r sref (fun nd => { nd with btree := nd.btree.insert rec key })
        leave_fold node_ref succ_opt rest (hops + h) (moved + 1) r1

/-- `ChordRing.leave_node(node_id, start_node)`: soft failure
`(False, 0, 0)` when no node carries the id; a single-node ring is
emptied with no redistribution `(True, 0, 0)`; otherwise every item of
the leaving node is moved to its successor with simulated routing cost,
the node is removed, and links and fingers are rebuilt.  The
`start_node` parameter exists in the source's signature but is unused
by its body. -/
def leave_node (r : ChordRing) (node_id : Nat) (_start_node : Option Ref) :
    Except RingErr ((Bool × Nat × Nat) × ChordRing) :=
  match r.nodes.find? (fun nd => nd.node_id == node_id) with
  | none => .ok ((false, 0, 0), r)
  | some node =>
    if r.nodes.length = 1 then
      .ok ((true, 0, 0), { r with nodes := remove_first_node r.nodes node.ref })
    else
      match leave_fold node.ref node.successor node.btree.get_all_items 0 0 r with
      | .error e => .error e
      | .ok ((total_hops, moved), r1) =>
        let r2 : ChordRing := { r1 with nodes := remove_first_node r1.nodes node.ref }
        .ok ((true, total_hops, moved), fix_all_fingers (update_links r2))

/-! ## Well-formedness of ring states -/

/-- Rebuilding every link and every finger table, as done at the end of
each membership change. -/
def canonical_maintain (r : ChordRing) : ChordRing :=
  fix_all_fingers (update_links r)

/-- Every node's successor link is set and resolves (every reachable
ring state satisfies this between operations). -/
def LinksClosed (r : ChordRing) : Prop :=
  ∀ nd ∈ r.nodes, ∃ sref, nd.successor = some sref ∧ (getNode r sref).isSome

/-- A maintained ring state: node ids strictly ascending, handles
pairwise distinct and below the arena counter, and links and fingers
exactly as `_update_links` / `fix_all_fingers` leave them.  This is the
state every `join_node` / `leave_node` leaves behind when node ids have
remained distinct. -/
structure WF (r : ChordRing) : Prop where
  sorted : (ringIds r).Sorted (· < ·)
  refs_nodup : (ringRefs r).Nodup
  refs_lt : ∀ nd ∈ r.nodes, nd.ref < r.nextRef
  maintained : canonical_maintain r = r

theorem getNode_isSome_of_mem {r : ChordRing} {nd : ChordNode} (h : nd ∈ r.nodes) :
    (getNode r nd.ref).isSome := by
  rw [getNode, List.find?_isSome]
  exact ⟨nd, h, by simp⟩

theorem getNode_mem {r : ChordRing} {ref : Ref} {nd : ChordNode}
    (h : getNode r ref = some nd) : nd ∈ r.nodes ∧ nd.ref = ref := by
  refine ⟨List.mem_of_find?_eq_some h, ?_⟩
  have := List.find?_some h
  simpa using this

theorem find?_ref_nodup {ns : List ChordNode} {nd : ChordNode}
    (h : nd ∈ ns) (hn : (ns.map ChordNode.ref).Nodup) :
    ns.find? (fun x => x.ref == nd.ref) = some nd := by
  induction ns with
  | nil => cases h
  | cons hd tl ih =>
    rcases List.mem_cons.mp h with rfl | htl
    · simp [List.find?_cons_of_pos]
    · have hne : hd.ref ≠ nd.ref := by
        intro he
        have : nd.ref ∈ tl.map ChordNode.ref := List.mem_map_of_mem _ htl
        rw [List.map_cons, List.nodup_cons] at hn
        exact hn.1 (he ▸ this)
      rw [List.find?_cons_of_neg _ (by simpa using hne)]
      exact ih htl (by rw [List.map_cons, List.nodup_cons] at hn; exact hn.2)

/-- Under distinct handles, resolving a node's own handle returns that
node (handles behave like Python object identity). -/
theorem getNode_of_mem {r : ChordRing} {nd : ChordNode}
    (hn : (ringRefs r).Nodup) (h : nd ∈ r.nodes) : getNode r nd.ref = some nd :=
  find?_ref_nodup h hn

theorem cpf_scan_isSome {r : ChordRing} {b k : Nat} {fr : Ref} :
    ∀ {fs : List (Option Ref)}, cpf_scan r b k fs = some fr → (getNode r fr).isSome := by
  intro fs
  induction fs with
  | nil => intro h; simp [cpf_scan] at h
  | cons hd tl ih =>
    intro h
    match hd with
    | none => exact ih (by simpa [cpf_scan] using h)
    | some f =>
      rw [cpf_scan] at h
      cases hg : getNode r f with
      | none => rw [hg] at h; exact ih h
      | some fnode =>
        rw [hg] at h
        by_cases hi : in_interval fnode.node_id b k
        · simp only [hi, if_true] at h
          cases h
          simp [hg]
        · simp only [hi, if_false] at h
          exact ih h

theorem find_successor_linear_isSome {r : ChordRing} (key : Nat) (h : r.nodes ≠ []) :
    ∃ nd, find_successor_linear r key = some nd ∧ nd ∈ r.nodes := by
  rw [find_successor_linear]
  cases hf : r.nodes.find? (fun nd => key ≤ nd.node_id) with
  | some nd => exact ⟨nd, rfl, List.mem_of_find?_eq_some hf⟩
  | none =>
    cases hns : r.nodes with
    | nil => exact absurd hns h
    | cons a tl => exact ⟨a, by simp [hns], by simp [hns]⟩

/-! ## Termination and the safety cap -/

theorem fs_loop_total {r : ChordRing} {key ms : Nat} (hc : LinksClosed r) (hne : r.nodes ≠ []) :
    ∀ fuel curr hops, (getNode r curr).isSome → hops ≤ ms → ms + 2 ≤ fuel + hops →
    ∃ nref h, fs_loop r key ms fuel curr hops = .ok (nref, h) ∧ h ≤ ms + 1 ∧ hops ≤ h ∧
      (getNode r nref).isSome ∧
      (ms < h → (find_successor_linear r key).map ChordNode.ref = some nref) := by
  intro fuel
  induction fuel with
  | zero => intro curr hops _ h1 h2; omega
  | succ fuel ih =>
    intro curr hops hcurr hle hfuel
    obtain ⟨cnode, hcn⟩ := Option.isSome_iff_exists.mp hcurr
    obtain ⟨hmem, hrefeq⟩ := getNode_mem hcn
    obtain ⟨sref, hsucc, hsref⟩ := hc cnode hmem
    obtain ⟨snode, hsn⟩ := Option.isSome_iff_exists.mp hsref
    simp only [fs_loop, hcn, hsucc, hsn]
    by_cases hi : in_interval key cnode.node_id snode.node_id
    · exact ⟨sref, hops, by rw [if_pos hi], by omega, le_refl _, hsref, by omega⟩
    · rw [if_neg hi]
      by_cases hcap : ms < hops + 1
      · obtain ⟨nd, hnd, hndmem⟩ := find_successor_linear_isSome key hne
        rw [if_pos hcap, hnd]
        exact ⟨nd.ref, hops + 1, rfl, by omega, by omega, getNode_isSome_of_mem hndmem,
          fun _ => by simp⟩
      · rw [if_neg hcap]
        have hnxt : (getNode r (if closest_preceding_finger r cnode key = curr then sref
            else closest_preceding_finger r cnode key)).isSome := by
          by_cases he : closest_preceding_finger r cnode key = curr
          · rw [if_pos he]; exact hsref
          · rw [if_neg he]
            rw [closest_preceding_finger]
            cases hs : cpf_scan r cnode.node_id key cnode.finger.reverse with
            | some fr => simpa [hs] using cpf_scan_isSome hs
            | none => simpa [hs, hrefeq] using hcurr
        obtain ⟨nref, h, heq, hh1, hh2, hh3, hh4⟩ :=
          ih _ (hops + 1) hnxt (by omega) (by omega)
        exact ⟨nref, h, heq, hh1, by omega, hh3, hh4⟩

/-- Totality of `find_successor` on any closed non-empty ring: it
returns a resolvable node and a hop count of at most
`max 4 (4·n) + 1`, and whenever the cap was exceeded the returned node
is the one of the linear scan. -/
theorem find_successor_total {r : ChordRing} {key : Nat} {start : Option Ref}
    (hc : LinksClosed r) (hne : r.nodes ≠ [])
    (hstart : start = none ∨ ∃ nd ∈ r.nodes, start = some nd.ref) :
    ∃ nref h, find_successor r key start = .ok (nref, h) ∧
      h ≤ max 4 (r.nodes.length * 4) + 1 ∧ (getNode r nref).isSome ∧
      (max 4 (r.nodes.length * 4) < h →
        (find_successor_linear r key).map ChordNode.ref = some nref) := by
  obtain ⟨first, tl, hns⟩ := List.exists_cons_of_ne_nil hne
  have hhead : r.nodes.head? = some first := by rw [hns]; rfl
  have hfmem : first ∈ r.nodes := by rw [hns]; exact List.mem_cons_self _ _
  have hsome : (getNode r (start.getD first.ref)).isSome := by
    rcases hstart with rfl | ⟨nd, hnd, rfl⟩
    · exact getNode_isSome_of_mem hfmem
    · exact getNode_isSome_of_mem hnd
  obtain ⟨snode, hsn⟩ := Option.isSome_iff_exists.mp hsome
  obtain ⟨hsmem, _⟩ := getNode_mem hsn
  obtain ⟨sref, hsucc, _⟩ := hc snode hsmem
  rw [find_successor, hhead]
  simp only [hsn, hsucc]
  obtain ⟨nref, h, heq, h1, _, h3, h4⟩ :=
    @fs_loop_total r key (max 4 (r.nodes.length * 4)) hc hne (max 4 (r.nodes.length * 4) + 2)
      (start.getD first.ref) 0 hsome (by omega) (by omega)
  exact ⟨nref, h, heq, h1, h3, h4⟩

/-! ## The linear scan on a sorted node list -/

theorem head?_eq_get {α : Type _} (l : List α) (h : 0 < l.length) :
    l.head? = some (l.get ⟨0, h⟩) := by
  cases l with
  | nil => simp at h
  | cons a tl => rfl

theorem find?_eq_get_of_min {α : Type _} (p : α → Bool) :
    ∀ (l : List α) (j : Nat) (hj : j < l.length),
      p (l.get ⟨j, hj⟩) = true →
      (∀ k (hk : k < j), p (l.get ⟨k, Nat.lt_trans hk hj⟩) = false) →
      l.find? p = some (l.get ⟨j, hj⟩) := by
  intro l
  induction l with
  | nil => intro j hj; simp at hj
  | cons a tl ih =>
    intro j hj hpj hmin
    cases j with
    | zero =>
      exact List.find?_cons_of_pos _ hpj
    | succ j =>
      have ha : p a = false := hmin 0 (Nat.succ_pos j)
      rw [List.find?_cons_of_neg _ (by simp [ha])]
      exact ih j (by simpa using hj) hpj (fun k hk => hmin (k + 1) (by omega))

theorem sorted_get_lt {r : ChordRing} (hs : (ringIds r).Sorted (· < ·))
    {i j : Nat} (hi : i < r.nodes.length) (hj : j < r.nodes.length) (hij : i < j) :
    (r.nodes.get ⟨i, hi⟩).node_id < (r.nodes.get ⟨j, hj⟩).node_id := by
  have hlen : (ringIds r).length = r.nodes.length := by simp [ringIds]
  have := (List.pairwise_iff_get.mp hs) ⟨i, by omega⟩ ⟨j, by omega⟩ hij
  simpa [ringIds, List.getElem_map] using this

/-- Exit correctness of the routing loop: on a ring whose ids are
strictly sorted, if `key` lies in the circular interval between node
`i` and node `(i+1) mod n`, then the linear scan also selects node
`(i+1) mod n`. -/
theorem linear_of_interval {r : ChordRing} {key : Nat}
    (hs : (ringIds r).Sorted (· < ·)) {i : Nat} (hi : i < r.nodes.length)
    (hsuc : (i + 1) % r.nodes.length < r.nodes.length)
    (hkey : in_interval key (r.nodes.get ⟨i, hi⟩).node_id
      (r.nodes.get ⟨(i + 1) % r.nodes.length, hsuc⟩).node_id = true) :
    find_successor_linear r key = some (r.nodes.get ⟨(i + 1) % r.nodes.length, hsuc⟩) := by
  have hn : 0 < r.nodes.length := by omega
  by_cases hlast : i + 1 < r.nodes.length
  · -- interior step: the interval is (id_i, id_{i+1}]
    have hmod : (i + 1) % r.nodes.length = i + 1 := Nat.mod_eq_of_lt hlast
    have hlt : (r.nodes.get ⟨i, hi⟩).node_id <
        (r.nodes.get ⟨(i + 1) % r.nodes.length, hsuc⟩).node_id := by
      apply sorted_get_lt hs
      omega
    rw [in_interval, if_pos hlt, Bool.and_eq_true, decide_eq_true_eq, decide_eq_true_eq] at hkey
    rw [find_successor_linear, find?_eq_get_of_min _ _ ((i + 1) % r.nodes.length) hsuc
      (by simp only [decide_eq_true_eq]; exact hkey.2) ?_]
    intro k hk
    have hkimod : k < i + 1 := by
      have := Nat.mod_eq_of_lt hlast
      omega
    have hkid : (r.nodes.get ⟨k, Nat.lt_trans hk hsuc⟩).node_id ≤
        (r.nodes.get ⟨i, hi⟩).node_id := by
      rcases Nat.lt_or_ge k i with h | h
      · exact le_of_lt (sorted_get_lt hs _ hi h)
      · have : k = i := by omega
        subst this
        exact le_refl _
    simp only [decide_eq_false_iff_not, not_le]
    omega
  · -- wrap-around step from the last node back to the first
    have hieq : i + 1 = r.nodes.length := by omega
    have hmod : (i + 1) % r.nodes.length = 0 := by rw [hieq, Nat.mod_self]
    have hgot : r.nodes.get ⟨(i + 1) % r.nodes.length, hsuc⟩ = r.nodes.get ⟨0, hn⟩ := by
      congr 1
      exact Fin.ext hmod
    rw [hgot] at hkey ⊢
    have hmax : ∀ k (hk : k < r.nodes.length),
        (r.nodes.get ⟨k, hk⟩).node_id ≤ (r.nodes.get ⟨i, hi⟩).node_id := by
      intro k hk
      rcases Nat.lt_or_ge k i with h | h
      · exact le_of_lt (sorted_get_lt hs _ hi h)
      · have : k = i := by omega
        subst this
        exact le_refl _
    have hcond : ¬ ((r.nodes.get ⟨i, hi⟩).node_id < (r.nodes.get ⟨0, hn⟩).node_id) := by
      have := hmax 0 hn
      omega
    rw [in_interval, if_neg hcond, Bool.or_eq_true, decide_eq_true_eq, decide_eq_true_eq] at hkey
    by_cases hp : key ≤ (r.nodes.get ⟨0, hn⟩).node_id
    · rw [find_successor_linear, find?_eq_get_of_min _ _ 0 hn (by simpa using hp)
        (fun k hk => absurd hk (by omega))]
    · have hgt : (r.nodes.get ⟨i, hi⟩).node_id < key := by
        rcases hkey with h | h
        · omega
        · exact absurd h hp
      have hnone : r.nodes.find? (fun nd => key ≤ nd.node_id) = none := by
        rw [List.find?_eq_none]
        intro x hx
        obtain ⟨⟨k, hk⟩, hget⟩ := List.get_of_mem hx
        have hxle : x.node_id ≤ (r.nodes.get ⟨i, hi⟩).node_id := hget ▸ hmax k hk
        simp only [decide_eq_true_eq]
        omega
      simp only [find_successor_linear, hnone, head?_eq_get r.nodes hn]

/-! ## Structure of a maintained ring -/

theorem length_update_links_list (ns : List ChordNode) :
    (update_links_list ns).length = ns.length := by
  simp [update_links_list]

/-- In a maintained ring, node `i`'s successor link carries the handle
of node `(i+1) mod n`: exactly what `_update_links` wrote. -/
theorem successor_of_maintained {r : ChordRing} (hm : canonical_maintain r = r)
    {i : Nat} (hi : i < r.nodes.length) (hsuc : (i + 1) % r.nodes.length < r.nodes.length) :
    (r.nodes.get ⟨i, hi⟩).successor =
      some ((r.nodes.get ⟨(i + 1) % r.nodes.length, hsuc⟩).ref) := by
  have hnodes : r.nodes = (update_links_list r.nodes).map
      (fun nd => { nd with finger := init_finger_list (update_links r) nd.node_id }) := by
    conv_lhs => rw [← hm]
    rfl
  have hlen : i < ((update_links_list r.nodes).map
      (fun nd => { nd with finger := init_finger_list (update_links r) nd.node_id })).length := by
    simpa [length_update_links_list] using hi
  have h1 : r.nodes.get ⟨i, hi⟩ = ((update_links_list r.nodes).map
      (fun nd => { nd with finger := init_finger_list (update_links r) nd.node_id })).get
        ⟨i, hlen⟩ := by
    exact List.get_of_eq hnodes _
  have h2 : ((update_links_list r.nodes).map
      (fun nd => { nd with finger := init_finger_list (update_links r) nd.node_id })).get
        ⟨i, hlen⟩ =
      { (update_links_list r.nodes).get ⟨i, by simpa [length_update_links_list] using hi⟩ with
        finger := init_finger_list (update_links r)
          ((update_links_list r.nodes).get
            ⟨i, by simpa [length_update_links_list] using hi⟩).node_id } := by
    simp [List.get_map]
  have h3 : (update_links_list r.nodes).get
      ⟨i, by simpa [length_update_links_list] using hi⟩ =
      { r.nodes.get ⟨i, hi⟩ with
        successor := (r.nodes[(i + 1) % r.nodes.length]?).map ChordNode.ref,
        predecessor :=
          (r.nodes[(i + r.nodes.length - 1) % r.nodes.length]?).map ChordNode.ref } := by
    simp only [update_links_list]
    exact List.get_mapIdx r.nodes _ i hi
  have h4 : r.nodes[(i + 1) % r.nodes.length]? =
      some (r.nodes.get ⟨(i + 1) % r.nodes.length, hsuc⟩) := by
    rw [List.getElem?_eq_getElem hsuc]
    simp [List.get_eq_getElem]
  rw [h1, h2, h3]
  simp [h4]

/-- A maintained ring is closed: every node's successor link resolves. -/
theorem LinksClosed_of_WF {r : ChordRing} (hwf : WF r) : LinksClosed r := by
  intro nd hnd
  obtain ⟨⟨i, hi⟩, hget⟩ := List.mem_iff_get.mp hnd
  have hsuc : (i + 1) % r.nodes.length < r.nodes.length :=
    Nat.mod_lt _ (by omega)
  refine ⟨(r.nodes.get ⟨(i + 1) % r.nodes.length, hsuc⟩).ref, ?_, ?_⟩
  · rw [← hget]
    exact successor_of_maintained hwf.maintained hi hsuc
  · exact getNode_isSome_of_mem (List.get_mem _ _ _)

/-- Any successful outcome of the routing loop names the node selected
by the linear scan: the loop either exits on the circular-interval test
(settled by `linear_of_interval`) or falls back to the linear scan
explicitly. -/
theorem fs_loop_ok_linear {r : ChordRing} {key ms : Nat} (hwf : WF r) :
    ∀ fuel curr hops nref h,
      fs_loop r key ms fuel curr hops = .ok (nref, h) →
      (find_successor_linear r key).map ChordNode.ref = some nref := by
  intro fuel
  induction fuel with
  | zero => intro curr hops nref h heq; simp [fs_loop] at heq
  | succ fuel ih =>
    intro curr hops nref h heq
    simp only [fs_loop] at heq
    split at heq
    · simp at heq
    next cnode hcn =>
      split at heq
      · simp at heq
      next sref hsucc =>
        split at heq
        · simp at heq
        next snode hsn =>
          split at heq
          next hint =>
            simp only [Except.ok.injEq, Prod.mk.injEq] at heq
            obtain ⟨rfl, rfl⟩ := heq
            obtain ⟨hmem, hrefeq⟩ := getNode_mem hcn
            obtain ⟨⟨i, hi⟩, hget⟩ := List.mem_iff_get.mp hmem
            have hsucidx : (i + 1) % r.nodes.length < r.nodes.length :=
              Nat.mod_lt _ (by omega)
            have hstruct := successor_of_maintained hwf.maintained hi hsucidx
            rw [hget] at hstruct
            rw [hstruct] at hsucc
            have hsrefeq : (r.nodes.get ⟨(i + 1) % r.nodes.length, hsucidx⟩).ref = sref :=
              Option.some.inj hsucc
            have hres := getNode_of_mem hwf.refs_nodup
              (List.get_mem r.nodes ((i + 1) % r.nodes.length) hsucidx)
            rw [hsrefeq] at hres
            rw [hres] at hsn
            have hsnode : snode = r.nodes.get ⟨(i + 1) % r.nodes.length, hsucidx⟩ :=
              (Option.some.inj hsn).symm
            have hkey : in_interval key (r.nodes.get ⟨i, hi⟩).node_id
                (r.nodes.get ⟨(i + 1) % r.nodes.length, hsucidx⟩).node_id = true := by
              rw [hget, ← hsnode]
              exact hint
            rw [linear_of_interval hwf.sorted hi hsucidx hkey]
            simpa using hsrefeq
          next hint =>
            split at heq
            next hcap =>
              split at heq
              next nd hnd =>
                simp only [Except.ok.injEq, Prod.mk.injEq] at heq
                rw [hnd]
                simp [heq.1]
              next hnd => simp at heq
            next hcap => exact ih _ _ _ _ heq

/-- Every successful `find_successor` on a maintained non-empty ring
returns the node of the linear scan. -/
theorem find_successor_ok_linear {r : ChordRing} {key : Nat} {start : Option Ref}
    {nref : Ref} {h : Nat} (hwf : WF r)
    (heq : find_successor r key start = .ok (nref, h)) :
    (find_successor_linear r key).map ChordNode.ref = some nref := by
  rw [find_successor] at heq
  split at heq
  · simp at heq
  next first hfirst =>
    simp only at heq
    split at heq
    · simp at heq
    next snode hsn =>
      split at heq
      next hnone =>
        -- a resolvable node with an unset successor link cannot occur
        -- in a maintained ring
        obtain ⟨hmem, _⟩ := getNode_mem hsn
        obtain ⟨sref, hsucc, _⟩ := LinksClosed_of_WF hwf snode hmem
        rw [hsucc] at hnone
        simp at hnone
      next w hw =>
        exact fs_loop_ok_linear hwf _ _ _ _ _ heq

/-- Routing refines the linear scan on every maintained ring: for every
key and every start node, `find_successor` succeeds and returns exactly
the node `find_successor_linear` selects. -/
theorem find_successor_eq_linear {r : ChordRing} {key : Nat} {start : Option Ref}
    (hwf : WF r) (hne : r.nodes ≠ [])
    (hstart : start = none ∨ ∃ nd ∈ r.nodes, start = some nd.ref) :
    ∃ nd hops, find_successor r key start = .ok (nd.ref, hops) ∧
      find_successor_linear r key = some nd := by
  obtain ⟨nref, h, heq, _, _, _⟩ := find_successor_total (LinksClosed_of_WF hwf) hne hstart
  have hlin := find_successor_ok_linear hwf heq
  obtain ⟨nd, hnd, hmem⟩ := find_successor_linear_isSome key hne
  rw [hnd] at hlin
  simp only [Option.map_some', Option.some.injEq] at hlin
  exact ⟨nd, h, by rw [heq, hlin], hnd⟩

/-! ## Projections and canonicalization machinery -/

/-- The membership-relevant content of a node: its handle, id and
store.  Links and fingers are recomputed by `canonical_maintain` from
exactly this data. -/
def node_core (nd : ChordNode) : Ref × Nat × BPlusTree :=
  (nd.ref, nd.node_id, nd.btree)

theorem fix_all_fingers_nodes (r : ChordRing) :
    (fix_all_fingers r).nodes =
      r.nodes.map (fun nd => { nd with finger := init_finger_list r nd.node_id }) := rfl

theorem node_core_fix (r : ChordRing) :
    (fix_all_fingers r).nodes.map node_core = r.nodes.map node_core := by
  rw [fix_all_fingers_nodes, List.map_map]
  rfl

theorem update_links_list_get (ns : List ChordNode) (i : Nat) (hi : i < ns.length)
    (hi' : i < (update_links_list ns).length) :
    (update_links_list ns).get ⟨i, hi'⟩ =
      { ns.get ⟨i, hi⟩ with
        successor := (ns[(i + 1) % ns.length]?).map ChordNode.ref,
        predecessor := (ns[(i + ns.length - 1) % ns.length]?).map ChordNode.ref } := by
  simp only [update_links_list]
  exact List.get_mapIdx ns _ i hi

theorem node_core_update_links (ns : List ChordNode) :
    (update_links_list ns).map node_core = ns.map node_core := by
  apply List.ext_get (by simp [length_update_links_list])
  intro i h1 h2
  have hi : i < ns.length := by simpa [length_update_links_list] using h2
  rw [List.get_map, List.get_map, update_links_list_get ns i hi]
  rfl

theorem refs_update_links (ns : List ChordNode) :
    (update_links_list ns).map ChordNode.ref = ns.map ChordNode.ref := by
  apply List.ext_get (by simp [length_update_links_list])
  intro i h1 h2
  have hi : i < ns.length := by simpa [length_update_links_list] using h2
  rw [List.get_map, List.get_map, update_links_list_get ns i hi]

theorem getElem?_map_ref (ns : List ChordNode) (j : Nat) :
    (ns[j]?).map ChordNode.ref = (ns.map ChordNode.ref)[j]? := by
  rw [List.getElem?_map]

/-- Two node lists with equal handle lists have equal optional-handle
reads at every index. -/
theorem opt_ref_eq_of_refs_eq {ns ms : List ChordNode}
    (h : ns.map ChordNode.ref = ms.map ChordNode.ref) (j : Nat) :
    (ns[j]?).map ChordNode.ref = (ms[j]?).map ChordNode.ref := by
  rw [getElem?_map_ref, getElem?_map_ref, h]

/-- A node list whose links already are what `_update_links` would
write. -/
def LinksFixed (ns : List ChordNode) : Prop :=
  update_links_list ns = ns

theorem linksFixed_get {ns : List ChordNode} (h : LinksFixed ns)
    {i : Nat} (hi : i < ns.length) :
    (ns.get ⟨i, hi⟩).successor = (ns[(i + 1) % ns.length]?).map ChordNode.ref ∧
    (ns.get ⟨i, hi⟩).predecessor =
      (ns[(i + ns.length - 1) % ns.length]?).map ChordNode.ref := by
  have hi' : i < (update_links_list ns).length := by
    simpa [length_update_links_list] using hi
  have heq := update_links_list_get ns i hi hi'
  have h2 : (update_links_list ns).get ⟨i, hi'⟩ = ns.get ⟨i, hi⟩ :=
    List.get_of_eq h ⟨i, hi'⟩
  rw [h2] at heq
  exact ⟨congrArg ChordNode.successor heq, congrArg ChordNode.predecessor heq⟩

theorem linksFixed_of_pointwise {ns : List ChordNode}
    (h : ∀ i (hi : i < ns.length),
      (ns.get ⟨i, hi⟩).successor = (ns[(i + 1) % ns.length]?).map ChordNode.ref ∧
      (ns.get ⟨i, hi⟩).predecessor =
        (ns[(i + ns.length - 1) % ns.length]?).map ChordNode.ref) :
    LinksFixed ns := by
  apply List.ext_get (by simp [length_update_links_list])
  intro i h1 h2
  have hi : i < ns.length := h2
  rw [update_links_list_get ns i hi]
  obtain ⟨hs, hp⟩ := h i hi
  cases hg : ns.get ⟨i, hi⟩ with
  | mk ref node_id btree successor predecessor finger =>
    rw [hg] at hs hp
    simp only at hs hp
    simp [hs, hp]

theorem linksFixed_update_links (ns : List ChordNode) :
    LinksFixed (update_links_list ns) := by
  apply linksFixed_of_pointwise
  intro i hi
  have hin : i < ns.length := by simpa [length_update_links_list] using hi
  rw [update_links_list_get ns i hin]
  constructor
  · rw [opt_ref_eq_of_refs_eq (refs_update_links ns),
      length_update_links_list]
  · rw [opt_ref_eq_of_refs_eq (refs_update_links ns),
      length_update_links_list]

theorem refs_eq_of_core {ns ms : List ChordNode}
    (hc : ns.map node_core = ms.map node_core) :
    ns.map ChordNode.ref = ms.map ChordNode.ref := by
  have h := congrArg (List.map Prod.fst) hc
  simpa [List.map_map, Function.comp] using h

theorem find?_map_ref_eq_of_core (key : Nat) :
    ∀ {ns ms : List ChordNode}, ns.map node_core = ms.map node_core →
      (ns.find? (fun nd => key ≤ nd.node_id)).map ChordNode.ref =
      (ms.find? (fun nd => key ≤ nd.node_id)).map ChordNode.ref := by
  intro ns
  induction ns with
  | nil =>
    intro ms h
    have : ms = [] := by
      have := h.symm
      simpa using List.map_eq_nil.mp this
    subst this
    rfl
  | cons a tl ih =>
    intro ms h
    cases ms with
    | nil => simp at h
    | cons b ms' =>
      simp only [List.map_cons, List.cons.injEq] at h
      have hid : a.node_id = b.node_id := congrArg (fun c => c.2.1) h.1
      have href : a.ref = b.ref := congrArg Prod.fst h.1
      by_cases hk : key ≤ a.node_id
      · rw [List.find?_cons_of_pos _ (by simpa using hk),
          List.find?_cons_of_pos _ (by simp [← hid, hk])]
        simp [href]
      · rw [List.find?_cons_of_neg _ (by simpa using hk),
          List.find?_cons_of_neg _ (by simp [← hid, hk])]
        exact ih h.2

theorem head?_map_ref_eq_of_core {ns ms : List ChordNode}
    (hc : ns.map node_core = ms.map node_core) :
    (ns.head?).map ChordNode.ref = (ms.head?).map ChordNode.ref := by
  cases ns with
  | nil =>
    have : ms = [] := by simpa using (List.map_eq_nil.mp hc.symm)
    subst this
    rfl
  | cons a tl =>
    cases ms with
    | nil => simp at hc
    | cons b ms' =>
      simp only [List.map_cons, List.cons.injEq] at hc
      simpa using congrArg Prod.fst hc.1

theorem linear_map_ref_eq_of_core {r1 r2 : ChordRing}
    (hc : r1.nodes.map node_core = r2.nodes.map node_core) (key : Nat) :
    (find_successor_linear r1 key).map ChordNode.ref =
    (find_successor_linear r2 key).map ChordNode.ref := by
  have h1 := find?_map_ref_eq_of_core key hc
  rw [find_successor_linear, find_successor_linear]
  cases hf1 : r1.nodes.find? (fun nd => key ≤ nd.node_id) with
  | some nd1 =>
    cases hf2 : r2.nodes.find? (fun nd => key ≤ nd.node_id) with
    | some nd2 =>
      rw [hf1, hf2] at h1
      simpa using h1
    | none =>
      rw [hf1, hf2] at h1
      simp at h1
  | none =>
    cases hf2 : r2.nodes.find? (fun nd => key ≤ nd.node_id) with
    | some nd2 =>
      rw [hf1, hf2] at h1
      simp at h1
    | none => exact head?_map_ref_eq_of_core hc

theorem init_finger_eq_of_core {r1 r2 : ChordRing} (hm : r1.m = r2.m)
    (hc : r1.nodes.map node_core = r2.nodes.map node_core) (node_id : Nat) :
    init_finger_list r1 node_id = init_finger_list r2 node_id := by
  rw [init_finger_list, init_finger_list, hm]
  apply List.map_congr_left
  intro i _
  exact linear_map_ref_eq_of_core hc _

theorem node_core_canonical (r : ChordRing) :
    (canonical_maintain r).nodes.map node_core = r.nodes.map node_core := by
  show (fix_all_fingers (update_links r)).nodes.map node_core = _
  rw [node_core_fix]
  exact node_core_update_links r.nodes

theorem length_canonical (r : ChordRing) :
    (canonical_maintain r).nodes.length = r.nodes.length := by
  have := congrArg List.length (node_core_canonical r)
  simpa using this

theorem canonical_get (r : ChordRing) (i : Nat) (hi : i < r.nodes.length)
    (hi' : i < (canonical_maintain r).nodes.length) :
    (canonical_maintain r).nodes.get ⟨i, hi'⟩ =
      { ref := (r.nodes.get ⟨i, hi⟩).ref,
        node_id := (r.nodes.get ⟨i, hi⟩).node_id,
        btree := (r.nodes.get ⟨i, hi⟩).btree,
        successor := (r.nodes[(i + 1) % r.nodes.length]?).map ChordNode.ref,
        predecessor :=
          (r.nodes[(i + r.nodes.length - 1) % r.nodes.length]?).map ChordNode.ref,
        finger := init_finger_list (update_links r) (r.nodes.get ⟨i, hi⟩).node_id } := by
  have hiu : i < (update_links_list r.nodes).length := by
    simpa [length_update_links_list] using hi
  have h0 : (canonical_maintain r).nodes = (update_links_list r.nodes).map
      (fun nd => { nd with finger := init_finger_list (update_links r) nd.node_id }) := rfl
  have h1 : (canonical_maintain r).nodes.get ⟨i, hi'⟩ =
      ((update_links_list r.nodes).map
        (fun nd => { nd with finger := init_finger_list (update_links r) nd.node_id })).get
        ⟨i, by rw [← h0]; exact hi'⟩ := List.get_of_eq h0 _
  rw [h1, List.get_map, update_links_list_get r.nodes i hi]

/-- The node list a maintenance pass produces is fully determined by
the key-space width and the per-node cores (handle, id, store). -/
theorem canonical_nodes_eq_of_core {r1 r2 : ChordRing} (hm : r1.m = r2.m)
    (hc : r1.nodes.map node_core = r2.nodes.map node_core) :
    (canonical_maintain r1).nodes = (canonical_maintain r2).nodes := by
  have hlen12 : r1.nodes.length = r2.nodes.length := by
    have := congrArg List.length hc
    simpa using this
  apply List.ext_get (by simp [length_canonical, hlen12])
  intro i h1 h2
  have hi1 : i < r1.nodes.length := by simpa [length_canonical] using h1
  have hi2 : i < r2.nodes.length := by simpa [length_canonical] using h2
  rw [canonical_get r1 i hi1, canonical_get r2 i hi2]
  have hcore : node_core (r1.nodes.get ⟨i, hi1⟩) = node_core (r2.nodes.get ⟨i, hi2⟩) := by
    have hmap := List.get_of_eq hc (⟨i, by simpa using hi1⟩ : Fin (r1.nodes.map node_core).length)
    rw [List.get_map, List.get_map] at hmap
    exact hmap
  have href : (r1.nodes.get ⟨i, hi1⟩).ref = (r2.nodes.get ⟨i, hi2⟩).ref :=
    congrArg Prod.fst hcore
  have hid : (r1.nodes.get ⟨i, hi1⟩).node_id = (r2.nodes.get ⟨i, hi2⟩).node_id :=
    congrArg (fun c => c.2.1) hcore
  have hbt : (r1.nodes.get ⟨i, hi1⟩).btree = (r2.nodes.get ⟨i, hi2⟩).btree :=
    congrArg (fun c => c.2.2) hcore
  have hrefs := refs_eq_of_core hc
  have hcupd : (update_links r1).nodes.map node_core = (update_links r2).nodes.map node_core := by
    show (update_links_list r1.nodes).map node_core = (update_links_list r2.nodes).map node_core
    rw [node_core_update_links, node_core_update_links, hc]
  congr 1
  · rw [opt_ref_eq_of_refs_eq hrefs, hlen12]
  · rw [opt_ref_eq_of_refs_eq hrefs, hlen12]
  · rw [hid]
    exact @init_finger_eq_of_core (update_links r1) (update_links r2) hm hcupd _

theorem ChordRing.ext_of {a b : ChordRing} (h1 : a.m = b.m) (h2 : a.nodes = b.nodes)
    (h3 : a.nextRef = b.nextRef) : a = b := by
  cases a
  cases b
  simp only at h1 h2 h3
  subst h1
  subst h2
  subst h3
  rfl

/-- Maintenance is idempotent: links and fingers are functions of the
node cores, which maintenance preserves. -/
theorem canonical_idem (r : ChordRing) :
    canonical_maintain (canonical_maintain r) = canonical_maintain r :=
  ChordRing.ext_of rfl (canonical_nodes_eq_of_core rfl (node_core_canonical r)) rfl

theorem ids_eq_of_core {ns ms : List ChordNode}
    (hc : ns.map node_core = ms.map node_core) :
    ns.map ChordNode.node_id = ms.map ChordNode.node_id := by
  have h := congrArg (List.map (fun c => c.2.1)) hc
  simpa [List.map_map, Function.comp] using h

theorem btrees_eq_of_core {ns ms : List ChordNode}
    (hc : ns.map node_core = ms.map node_core) :
    ns.map ChordNode.btree = ms.map ChordNode.btree := by
  have h := congrArg (List.map (fun c => c.2.2)) hc
  simpa [List.map_map, Function.comp] using h

instance : IsTotal ChordNode nodeLE := ⟨fun a b => Nat.le_total a.node_id b.node_id⟩

instance : IsTrans ChordNode nodeLE := ⟨fun _ _ _ => Nat.le_trans⟩

theorem sort_nodes_perm (ns : List ChordNode) : List.Perm (sort_nodes ns) ns :=
  List.perm_insertionSort nodeLE ns

theorem sort_nodes_sorted_le (ns : List ChordNode) :
    ((sort_nodes ns).map ChordNode.node_id).Sorted (· ≤ ·) := by
  have h := List.sorted_insertionSort nodeLE ns
  rw [List.Sorted, List.pairwise_map]
  exact h

theorem sorted_lt_of_le_nodup {l : List Nat} (h1 : l.Sorted (· ≤ ·)) (h2 : l.Nodup) :
    l.Sorted (· < ·) :=
  List.Sorted.lt_of_le h1 h2

/-! ## Effects of `modify_node` -/

theorem modify_node_nodes (r : ChordRing) (ref : Ref) (f : ChordNode → ChordNode) :
    (modify_node r ref f).nodes =
      r.nodes.map (fun nd => if nd.ref = ref then f nd else nd) := rfl

theorem modify_node_m (r : ChordRing) (ref : Ref) (f : ChordNode → ChordNode) :
    (modify_node r ref f).m = r.m := rfl

theorem modify_node_nextRef (r : ChordRing) (ref : Ref) (f : ChordNode → ChordNode) :
    (modify_node r ref f).nextRef = r.nextRef := rfl

/-- `f` only rewrites the store of its argument. -/
def BtreeOnly (f : ChordNode → ChordNode) : Prop :=
  ∀ nd, (f nd).ref = nd.ref ∧ (f nd).node_id = nd.node_id ∧
    (f nd).successor = nd.successor ∧ (f nd).predecessor = nd.predecessor ∧
    (f nd).finger = nd.finger

theorem btreeOnly_setter (g : BPlusTree → BPlusTree) :
    BtreeOnly (fun nd => { nd with btree := g nd.btree }) := by
  intro nd
  exact ⟨rfl, rfl, rfl, rfl, rfl⟩

theorem modify_refs {r : ChordRing} {ref : Ref} {f : ChordNode → ChordNode}
    (hf : BtreeOnly f) :
    (modify_node r ref f).nodes.map ChordNode.ref = r.nodes.map ChordNode.ref := by
  rw [modify_node_nodes, List.map_map]
  apply List.map_congr_left
  intro nd _
  by_cases h : nd.ref = ref
  · simp [Function.comp, h, (hf nd).1]
  · simp [Function.comp, h]

theorem modify_ids {r : ChordRing} {ref : Ref} {f : ChordNode → ChordNode}
    (hf : BtreeOnly f) :
    (modify_node r ref f).nodes.map ChordNode.node_id = r.nodes.map ChordNode.node_id := by
  rw [modify_node_nodes, List.map_map]
  apply List.map_congr_left
  intro nd _
  by_cases h : nd.ref = ref
  · simp [Function.comp, h, (hf nd).2.1]
  · simp [Function.comp, h]

theorem modify_length (r : ChordRing) (ref : Ref) (f : ChordNode → ChordNode) :
    (modify_node r ref f).nodes.length = r.nodes.length := by
  rw [modify_node_nodes, List.length_map]

theorem btreeOnly_branch_succ {f : ChordNode → ChordNode} (hf : BtreeOnly f)
    (ref : Ref) (nd : ChordNode) :
    (if nd.ref = ref then f nd else nd).successor = nd.successor := by
  by_cases hb : nd.ref = ref
  · simp [hb, (hf nd).2.2.1]
  · simp [hb]

theorem btreeOnly_branch_pred {f : ChordNode → ChordNode} (hf : BtreeOnly f)
    (ref : Ref) (nd : ChordNode) :
    (if nd.ref = ref then f nd else nd).predecessor = nd.predecessor := by
  by_cases hb : nd.ref = ref
  · simp [hb, (hf nd).2.2.2.1]
  · simp [hb]

theorem linksFixed_modify {r : ChordRing} {ref : Ref} {f : ChordNode → ChordNode}
    (hf : BtreeOnly f) (h : LinksFixed r.nodes) :
    LinksFixed (modify_node r ref f).nodes := by
  apply linksFixed_of_pointwise
  intro i hi
  have hi0 : i < r.nodes.length := by simpa [modify_length] using hi
  have hget : (modify_node r ref f).nodes.get ⟨i, hi⟩ =
      (fun nd => if nd.ref = ref then f nd else nd) (r.nodes.get ⟨i, hi0⟩) := by
    have h0 := List.get_of_eq (modify_node_nodes r ref f) (⟨i, hi⟩ : Fin _)
    rw [h0, List.get_map]
  obtain ⟨hs, hp⟩ := linksFixed_get h hi0
  have hrefs := @modify_refs r ref f hf
  rw [hget, btreeOnly_branch_succ hf, btreeOnly_branch_pred hf, hs, hp, modify_length]
  constructor
  · exact (opt_ref_eq_of_refs_eq hrefs.symm _)
  · exact (opt_ref_eq_of_refs_eq hrefs.symm _)

/-! ## Closedness of freshly relinked rings -/

theorem getNode_isSome_iff (r : ChordRing) (x : Ref) :
    (getNode r x).isSome ↔ x ∈ r.nodes.map ChordNode.ref := by
  rw [getNode, List.find?_isSome]
  constructor
  · rintro ⟨nd, hnd, hbeq⟩
    exact List.mem_map.mpr ⟨nd, hnd, by simpa using hbeq⟩
  · rintro hm
    obtain ⟨nd, hnd, hrefeq⟩ := List.mem_map.mp hm
    exact ⟨nd, hnd, by simpa using hrefeq⟩

theorem mem_update_links_list {ns : List ChordNode} {nd : ChordNode}
    (h : nd ∈ update_links_list ns) :
    ∃ (i : Nat) (hi : i < ns.length), nd = { ns.get ⟨i, hi⟩ with
      successor := (ns[(i + 1) % ns.length]?).map ChordNode.ref,
      predecessor := (ns[(i + ns.length - 1) % ns.length]?).map ChordNode.ref } := by
  obtain ⟨⟨i, hi⟩, hget⟩ := List.mem_iff_get.mp h
  have hi' : i < ns.length := by simpa [length_update_links_list] using hi
  exact ⟨i, hi', by rw [← hget, update_links_list_get ns i hi']⟩

theorem linksClosed_update_links {r : ChordRing} (hne : r.nodes ≠ []) :
    LinksClosed (update_links r) := by
  intro nd hnd
  have hlen : 0 < r.nodes.length := List.length_pos.mpr hne
  obtain ⟨i, hi, hshape⟩ := mem_update_links_list hnd
  have hj : (i + 1) % r.nodes.length < r.nodes.length := Nat.mod_lt _ hlen
  refine ⟨(r.nodes.get ⟨(i + 1) % r.nodes.length, hj⟩).ref, ?_, ?_⟩
  · rw [hshape]
    simp [List.getElem?_eq_getElem hj, List.get_eq_getElem]
  · rw [getNode_isSome_iff]
    show _ ∈ (update_links_list r.nodes).map ChordNode.ref
    rw [refs_update_links]
    exact List.mem_map_of_mem _ (List.get_mem _ _ _)

theorem predClosed_update_links {r : ChordRing} (hne : r.nodes ≠ []) :
    ∀ nd ∈ (update_links r).nodes,
      ∃ p, nd.predecessor = some p ∧ (getNode (update_links r) p).isSome := by
  intro nd hnd
  have hlen : 0 < r.nodes.length := List.length_pos.mpr hne
  obtain ⟨i, hi, hshape⟩ := mem_update_links_list hnd
  have hj : (i + r.nodes.length - 1) % r.nodes.length < r.nodes.length := Nat.mod_lt _ hlen
  refine ⟨(r.nodes.get ⟨(i + r.nodes.length - 1) % r.nodes.length, hj⟩).ref, ?_, ?_⟩
  · rw [hshape]
    simp [List.getElem?_eq_getElem hj, List.get_eq_getElem]
  · rw [getNode_isSome_iff]
    show _ ∈ (update_links_list r.nodes).map ChordNode.ref
    rw [refs_update_links]
    exact List.mem_map_of_mem _ (List.get_mem _ _ _)

theorem linksClosed_modify {r : ChordRing} {ref0 : Ref} {f : ChordNode → ChordNode}
    (hf : BtreeOnly f) (h : LinksClosed r) : LinksClosed (modify_node r ref0 f) := by
  intro nd hnd
  rw [modify_node_nodes] at hnd
  obtain ⟨nd0, hnd0, hbr⟩ := List.mem_map.mp hnd
  obtain ⟨s, hs, hres⟩ := h nd0 hnd0
  refine ⟨s, ?_, ?_⟩
  · rw [← hbr, btreeOnly_branch_succ hf, hs]
  · rw [getNode_isSome_iff, modify_refs hf]
    rw [getNode_isSome_iff] at hres
    exact hres

/-- On a ring whose stores are all empty, `_redistribute_keys` moves
nothing and leaves the ring unchanged. -/
theorem redistribute_keys_empty {r2 : ChordRing}
    (hall : ∀ nd ∈ r2.nodes, nd.btree = BPlusTree.empty)
    {new_ref : Ref} (hnew : (getNode r2 new_ref).isSome)
    (hsuccs : ∀ nd ∈ r2.nodes, ∃ s, nd.successor = some s ∧ (getNode r2 s).isSome)
    (hpreds : ∀ nd ∈ r2.nodes, ∃ p, nd.predecessor = some p ∧ (getNode r2 p).isSome) :
    redistribute_keys r2 new_ref = .ok ((0, 0), r2) := by
  obtain ⟨new_node, hnn⟩ := Option.isSome_iff_exists.mp hnew
  have hmem := (getNode_mem hnn).1
  obtain ⟨s, hs, hsres⟩ := hsuccs new_node hmem
  obtain ⟨p, hp, hpres⟩ := hpreds new_node hmem
  obtain ⟨snode, hsn⟩ := Option.isSome_iff_exists.mp hsres
  obtain ⟨pnode, hpn⟩ := Option.isSome_iff_exists.mp hpres
  have hsempty : snode.btree = BPlusTree.empty := hall snode (getNode_mem hsn).1
  simp only [redistribute_keys, hnn, hp, hs, hpn, hsn, hsempty]
  rfl

/-! ## Joins on a ring with empty stores -/

theorem join_inserted_ids_perm (r : ChordRing) (id : Nat) :
    List.Perm (ringIds (join_inserted r id)) (id :: ringIds r) := by
  have h1 : List.Perm (ringIds (join_inserted r id))
      ((r.nodes ++ [mkChordNode r.nextRef id r.m]).map ChordNode.node_id) :=
    (sort_nodes_perm _).map _
  have h2 : (r.nodes ++ [mkChordNode r.nextRef id r.m]).map ChordNode.node_id =
      ringIds r ++ [id] := by simp [ringIds, mkChordNode]
  rw [h2] at h1
  exact h1.trans (List.perm_append_singleton _ _)

theorem join_inserted_refs_perm (r : ChordRing) (id : Nat) :
    List.Perm (ringRefs (join_inserted r id)) (r.nextRef :: ringRefs r) := by
  have h1 : List.Perm (ringRefs (join_inserted r id))
      ((r.nodes ++ [mkChordNode r.nextRef id r.m]).map ChordNode.ref) :=
    (sort_nodes_perm _).map _
  have h2 : (r.nodes ++ [mkChordNode r.nextRef id r.m]).map ChordNode.ref =
      ringRefs r ++ [r.nextRef] := by simp [ringRefs, mkChordNode]
  rw [h2] at h1
  exact h1.trans (List.perm_append_singleton _ _)

theorem nextRef_not_mem_refs {r : ChordRing} (hwf : WF r) :
    r.nextRef ∉ ringRefs r := by
  intro hm
  obtain ⟨nd, hnd, heq⟩ := List.mem_map.mp hm
  exact absurd heq (Nat.ne_of_lt (hwf.refs_lt nd hnd))

theorem join_inserted_sorted {r : ChordRing} (hwf : WF r) {id : Nat}
    (hfresh : id ∉ ringIds r) :
    (ringIds (join_inserted r id)).Sorted (· < ·) := by
  have hnodup : (ringIds (join_inserted r id)).Nodup := by
    rw [(join_inserted_ids_perm r id).nodup_iff]
    exact List.nodup_cons.mpr ⟨hfresh, hwf.sorted.nodup⟩
  exact sorted_lt_of_le_nodup (sort_nodes_sorted_le _) hnodup

theorem join_inserted_refs_nodup {r : ChordRing} (hwf : WF r) (id : Nat) :
    (ringRefs (join_inserted r id)).Nodup := by
  rw [(join_inserted_refs_perm r id).nodup_iff]
  exact List.nodup_cons.mpr ⟨nextRef_not_mem_refs hwf, hwf.refs_nodup⟩

theorem join_inserted_refs_lt {r : ChordRing} (hwf : WF r) (id : Nat) :
    ∀ nd ∈ (join_inserted r id).nodes, nd.ref < (join_inserted r id).nextRef := by
  intro nd hnd
  have hmem : nd ∈ r.nodes ++ [mkChordNode r.nextRef id r.m] :=
    (sort_nodes_perm _).mem_iff.mp hnd
  rcases List.mem_append.mp hmem with hold | hnew
  · exact Nat.lt_succ_of_lt (hwf.refs_lt nd hold)
  · have : nd = mkChordNode r.nextRef id r.m := by simpa using hnew
    subst this
    exact Nat.lt_succ_self _

/-- Canonical maintenance of a ring with sorted ids, distinct handles
and handles below the counter yields a maintained (`WF`) ring. -/
theorem WF_canonical {r1 : ChordRing} (hsorted : (ringIds r1).Sorted (· < ·))
    (hrefs : (ringRefs r1).Nodup)
    (hlt : ∀ nd ∈ r1.nodes, nd.ref < r1.nextRef) :
    WF (canonical_maintain r1) := by
  have hcore := node_core_canonical r1
  refine ⟨?_, ?_, ?_, canonical_idem r1⟩
  · show ((canonical_maintain r1).nodes.map ChordNode.node_id).Sorted (· < ·)
    rw [ids_eq_of_core hcore]
    exact hsorted
  · show ((canonical_maintain r1).nodes.map ChordNode.ref).Nodup
    rw [refs_eq_of_core hcore]
    exact hrefs
  · intro nd hnd
    have hm : nd.ref ∈ (canonical_maintain r1).nodes.map ChordNode.ref :=
      List.mem_map_of_mem _ hnd
    rw [refs_eq_of_core hcore] at hm
    obtain ⟨nd0, hnd0, heq⟩ := List.mem_map.mp hm
    exact heq ▸ hlt nd0 hnd0

theorem join_inserted_btrees {r : ChordRing}
    (hstores : ∀ nd ∈ r.nodes, nd.btree = BPlusTree.empty) (id : Nat) :
    ∀ nd ∈ (join_inserted r id).nodes, nd.btree = BPlusTree.empty := by
  intro nd hnd
  have hmem : nd ∈ r.nodes ++ [mkChordNode r.nextRef id r.m] :=
    (sort_nodes_perm _).mem_iff.mp hnd
  rcases List.mem_append.mp hmem with hold | hnew
  · exact hstores nd hold
  · have : nd = mkChordNode r.nextRef id r.m := by simpa using hnew
    subst this
    rfl

theorem join_rest_empty_stores {r : ChordRing} (hwf : WF r)
    (hstores : ∀ nd ∈ r.nodes, nd.btree = BPlusTree.empty) (id jh : Nat) :
    ∃ hops, join_rest r id jh =
      .ok ((r.nextRef, hops, 0), canonical_maintain (join_inserted r id)) := by
  have hlen : (update_links (join_inserted r id)).nodes.length = r.nodes.length + 1 := by
    show (update_links_list _).length = _
    rw [length_update_links_list]
    simpa using (sort_nodes_perm (r.nodes ++ [mkChordNode r.nextRef id r.m])).length_eq
  by_cases hone : (update_links (join_inserted r id)).nodes.length ≤ 1
  · refine ⟨jh, ?_⟩
    simp only [join_rest]
    rw [if_pos hone]
    rfl
  · have hlx : (join_inserted r id).nodes.length = r.nodes.length + 1 := by
      have h0 : (update_links (join_inserted r id)).nodes.length =
          (join_inserted r id).nodes.length := length_update_links_list _
      rw [h0] at hlen
      exact hlen
    have hne1 : (join_inserted r id).nodes ≠ [] :=
      List.ne_nil_of_length_pos (by rw [hlx]; exact Nat.succ_pos _)
    have hball : ∀ nd ∈ (update_links (join_inserted r id)).nodes,
        nd.btree = BPlusTree.empty := by
      intro nd hnd
      obtain ⟨i, hi, hshape⟩ := mem_update_links_list hnd
      have hmemget := List.get_mem (join_inserted r id).nodes i hi
      have := join_inserted_btrees hstores id _ hmemget
      rw [hshape]
      exact this
    have hnew : (getNode (update_links (join_inserted r id)) r.nextRef).isSome := by
      rw [getNode_isSome_iff]
      show _ ∈ (update_links_list _).map ChordNode.ref
      rw [refs_update_links]
      have : r.nextRef ∈ ringRefs (join_inserted r id) :=
        (join_inserted_refs_perm r id).mem_iff.mpr (List.mem_cons_self _ _)
      exact this
    have hred := redistribute_keys_empty hball hnew
      (linksClosed_update_links hne1) (predClosed_update_links hne1)
    refine ⟨jh + 0, ?_⟩
    simp only [join_rest]
    rw [if_neg hone, hred]
    rfl

/-- A `join_node` with a fresh id on a maintained all-empty-store ring
yields the canonical maintenance of the inserted ring: a maintained
ring again, with all stores still empty and the new id added. -/
theorem join_node_empty_stores {r : ChordRing} (hwf : WF r)
    (hstores : ∀ nd ∈ r.nodes, nd.btree = BPlusTree.empty)
    {id : Nat} (hfresh : id ∉ ringIds r)
    {start : Option Ref} (hstart : start = none ∨ ∃ nd ∈ r.nodes, start = some nd.ref) :
    ∃ hops, join_node r id start =
        .ok ((r.nextRef, hops, 0), canonical_maintain (join_inserted r id)) ∧
      WF (canonical_maintain (join_inserted r id)) ∧
      (∀ nd ∈ (canonical_maintain (join_inserted r id)).nodes, nd.btree = BPlusTree.empty) ∧
      List.Perm (ringIds (canonical_maintain (join_inserted r id))) (id :: ringIds r) := by
  have hwf' : WF (canonical_maintain (join_inserted r id)) :=
    WF_canonical (join_inserted_sorted hwf hfresh) (join_inserted_refs_nodup hwf id)
      (join_inserted_refs_lt hwf id)
  have hbt : ∀ nd ∈ (canonical_maintain (join_inserted r id)).nodes,
      nd.btree = BPlusTree.empty := by
    intro nd hnd
    have hm : nd.btree ∈ (canonical_maintain (join_inserted r id)).nodes.map ChordNode.btree :=
      List.mem_map_of_mem _ hnd
    rw [btrees_eq_of_core (node_core_canonical _)] at hm
    obtain ⟨nd0, hnd0, heq⟩ := List.mem_map.mp hm
    rw [← heq]
    exact join_inserted_btrees hstores id nd0 hnd0
  have hperm : List.Perm (ringIds (canonical_maintain (join_inserted r id)))
      (id :: ringIds r) := by
    show List.Perm ((canonical_maintain (join_inserted r id)).nodes.map ChordNode.node_id) _
    rw [ids_eq_of_core (node_core_canonical _)]
    exact join_inserted_ids_perm r id
  have hlocate : ∃ jh, join_locate r id start = .ok jh := by
    by_cases hne : r.nodes = []
    · exact ⟨0, by rw [join_locate, if_pos (by simp [hne])]⟩
    · obtain ⟨nref, h, heq, _, _, _⟩ :=
        find_successor_total (LinksClosed_of_WF hwf) hne hstart
      exact ⟨h, by rw [join_locate, if_neg (by simp [hne]), heq]⟩
  obtain ⟨jh, hloc⟩ := hlocate
  obtain ⟨hops, hrest⟩ := join_rest_empty_stores hwf hstores id jh
  exact ⟨hops, by simp only [join_node, hloc]; exact hrest, hwf', hbt, hperm⟩

/-! ## Building a ring by successive joins -/

/-- Build a ring by calling `join_node` once per id, starting from an
empty ring (the demo scripts' construction loop). -/
def build_ring (m : Nat) (ids : List Nat) : Except RingErr ChordRing :=
  ids.foldlM (fun r id => (join_node r id none).map Prod.snd) (ChordRing.empty m)

/-- The id the linear scan selects, as a function of the ring's id
list: first id `≥ key`, else the first id. -/
def linearIds (ids : List Nat) (key : Nat) : Option Nat :=
  match ids.find? (fun i => key ≤ i) with
  | some i => some i
  | none => ids.head?

theorem linear_map_node_id (r : ChordRing) (key : Nat) :
    (find_successor_linear r key).map ChordNode.node_id = linearIds (ringIds r) key := by
  rw [find_successor_linear, linearIds, ringIds]
  have hf : (r.nodes.map ChordNode.node_id).find? (fun i => key ≤ i) =
      (r.nodes.find? (fun nd => key ≤ nd.node_id)).map ChordNode.node_id := by
    rw [List.find?_map]
    rfl
  rw [hf]
  cases hx : r.nodes.find? (fun nd => key ≤ nd.node_id) with
  | some nd => rfl
  | none => exact (List.head?_map _ _).symm

theorem WF_empty (m : Nat) : WF (ChordRing.empty m) :=
  ⟨List.sorted_nil, List.nodup_nil, fun _ h => absurd h (List.not_mem_nil _), rfl⟩

theorem joins_fold {m : Nat} :
    ∀ (ids : List Nat) (r : ChordRing), WF r → r.m = m →
      (∀ nd ∈ r.nodes, nd.btree = BPlusTree.empty) →
      (ids ++ ringIds r).Nodup →
      ∃ r', ids.foldlM (fun r id => (join_node r id none).map Prod.snd) r = .ok r' ∧
        WF r' ∧ r'.m = m ∧ (∀ nd ∈ r'.nodes, nd.btree = BPlusTree.empty) ∧
        List.Perm (ringIds r') (ids ++ ringIds r) := by
  intro ids
  induction ids with
  | nil =>
    intro r hwf hm hstores hnodup
    exact ⟨r, rfl, hwf, hm, hstores, by simp⟩
  | cons id rest ih =>
    intro r hwf hm hstores hnodup
    have hfresh : id ∉ ringIds r := by
      have := hnodup
      rw [List.cons_append, List.nodup_cons] at this
      exact fun hmem => this.1 (List.mem_append.mpr (Or.inr hmem))
    obtain ⟨hops, hjoin, hwf1, hstores1, hperm1⟩ :=
      join_node_empty_stores hwf hstores hfresh (Or.inl rfl)
    have hnodup1 : (rest ++ ringIds (canonical_maintain (join_inserted r id))).Nodup := by
      have hn0 : (id :: (rest ++ ringIds r)).Nodup := by
        rw [List.cons_append] at hnodup
        exact hnodup
      have h1 : (rest ++ (id :: ringIds r)).Nodup :=
        (List.perm_middle.nodup_iff).mpr hn0
      exact ((hperm1.append_left rest).symm).nodup_iff.mp h1
    obtain ⟨r', hfold, hwf', hm', hstores', hperm'⟩ :=
      ih (canonical_maintain (join_inserted r id)) hwf1 (by simpa using hm) hstores1 hnodup1
    refine ⟨r', ?_, hwf', hm', hstores', ?_⟩
    · rw [List.foldlM_cons, hjoin]
      simpa [Except.map] using hfold
    · refine hperm'.trans ?_
      exact ((hperm1.append_left rest)).trans List.perm_middle

theorem linearIds_gt30 (k : Nat) (hk : 30 < k) : linearIds [10, 20, 30] k = some 10 := by
  have hfind : ([10, 20, 30] : List Nat).find? (fun i => k ≤ i) = none := by
    rw [List.find?_cons_of_neg _ (by simp; omega),
      List.find?_cons_of_neg _ (by simp; omega),
      List.find?_cons_of_neg _ (by simp; omega)]
    rfl
  simp [linearIds, hfind]

/-- **C1**.  For every Chord ring whose membership was built by
`join_node` (links and fingers rebuilt) with node ids `{10, 20, 30}`
joined in any order, in any key space wide enough to hold the ids,
`find_successor(15)` returns the node with id `20`, `find_successor(25)`
returns the node with id `30`, and `find_successor(k)` for any key
`30 < k < 2^m` wraps around to the node with id `10` — regardless of
the start node. -/
theorem C1_chord_successor_correctness
    (m : Nat) (hm : 30 < 2 ^ m) (order : List Nat)
    (horder : List.Perm order [10, 20, 30]) :
    ∃ r3, build_ring m order = .ok r3 ∧
      ∀ start, (start = none ∨ ∃ nd ∈ r3.nodes, start = some nd.ref) →
        (∃ nd hops, find_successor r3 15 start = .ok (nd.ref, hops) ∧
          nd ∈ r3.nodes ∧ nd.node_id = 20) ∧
        (∃ nd hops, find_successor r3 25 start = .ok (nd.ref, hops) ∧
          nd ∈ r3.nodes ∧ nd.node_id = 30) ∧
        (∀ k, 30 < k → k < 2 ^ m →
          ∃ nd hops, find_successor r3 k start = .ok (nd.ref, hops) ∧
            nd ∈ r3.nodes ∧ nd.node_id = 10) := by
  have hnodup : (order ++ ringIds (ChordRing.empty m)).Nodup := by
    have : order.Nodup := horder.nodup_iff.mpr (by decide)
    simpa [ringIds, ChordRing.empty] using this
  obtain ⟨r3, hfold, hwf3, hm3, hstores3, hperm3⟩ :=
    joins_fold order (ChordRing.empty m) (WF_empty m) rfl
      (fun _ h => absurd h (List.not_mem_nil _)) hnodup
  have hids : ringIds r3 = [10, 20, 30] := by
    haveI : IsAntisymm Nat (· < ·) := ⟨fun a b h1 h2 => absurd h2 (Nat.lt_asymm h1)⟩
    refine List.eq_of_perm_of_sorted ?_ hwf3.sorted (by decide)
    refine (hperm3.trans ?_).trans horder
    simp [ringIds, ChordRing.empty]
  have hne : r3.nodes ≠ [] := by
    intro h
    rw [ringIds, h] at hids
    simp at hids
  have main : ∀ key target, linearIds [10, 20, 30] key = some target →
      ∀ start, (start = none ∨ ∃ nd ∈ r3.nodes, start = some nd.ref) →
      ∃ nd hops, find_successor r3 key start = .ok (nd.ref, hops) ∧
        nd ∈ r3.nodes ∧ nd.node_id = target := by
    intro key target hlin start hstart
    obtain ⟨nd, hops, heq, hndlin⟩ := find_successor_eq_linear hwf3 hne hstart
    obtain ⟨nd0, h0, hm0⟩ := find_successor_linear_isSome key hne
    have hmem : nd ∈ r3.nodes := by
      rw [h0] at hndlin
      exact (Option.some.inj hndlin) ▸ hm0
    have hid : nd.node_id = target := by
      have hmap := linear_map_node_id r3 key
      rw [hndlin, hids, hlin] at hmap
      exact Option.some.inj hmap
    exact ⟨nd, hops, heq, hmem, hid⟩
  refine ⟨r3, hfold, fun start hstart => ⟨?_, ?_, ?_⟩⟩
  · exact main 15 20 (by rfl) start hstart
  · exact main 25 30 (by rfl) start hstart
  · intro k hk _
    exact main k 10 (linearIds_gt30 k hk) start hstart

/-- Witness for C1: the concrete instance `m = 6`, joining the ids in
the order `[10, 20, 30]`. -/
theorem C1_witness :
    30 < 2 ^ 6 ∧ List.Perm [10, 20, 30] [10, 20, 30] ∧
    ∃ r3, build_ring 6 [10, 20, 30] = .ok r3 ∧
      ∀ start, (start = none ∨ ∃ nd ∈ r3.nodes, start = some nd.ref) →
        (∃ nd hops, find_successor r3 15 start = .ok (nd.ref, hops) ∧
          nd ∈ r3.nodes ∧ nd.node_id = 20) ∧
        (∃ nd hops, find_successor r3 25 start = .ok (nd.ref, hops) ∧
          nd ∈ r3.nodes ∧ nd.node_id = 30) ∧
        (∀ k, 30 < k → k < 2 ^ 6 →
          ∃ nd hops, find_successor r3 k start = .ok (nd.ref, hops) ∧
            nd ∈ r3.nodes ∧ nd.node_id = 10) :=
  ⟨by decide, List.Perm.refl _,
    C1_chord_successor_correctness 6 (by decide) [10, 20, 30] (List.Perm.refl _)⟩

/-- **C8, counterexample**.  The claim quantifies over every ring whose
links and fingers have been rebuilt — the state after every `join_node`
— but `join_node` accepts an id already present.  After joining id `5`
twice (each join rebuilding links and fingers), routing the key `3`
from the first node returns the *second* node while the linear scan
returns the *first*: the two disagree, so the claimed equality fails on
such a ring.  (The two nodes share the id but are different nodes with
different stores.) -/
theorem C8_counterexample :
    ∃ r ndA ndB hops, build_ring 3 [5, 5] = .ok r ∧ r.nodes = [ndA, ndB] ∧
      ndA ≠ ndB ∧
      find_successor r 3 (some ndA.ref) = .ok (ndB.ref, hops) ∧
      find_successor_linear r 3 = some ndA := by
  refine ⟨⟨3,
    [⟨0, 5, ⟨[]⟩, some 1, some 1, [some 0, some 0, some 0]⟩,
     ⟨1, 5, ⟨[]⟩, some 0, some 0, [some 0, some 0, some 0]⟩], 2⟩,
    ⟨0, 5, ⟨[]⟩, some 1, some 1, [some 0, some 0, some 0]⟩,
    ⟨1, 5, ⟨[]⟩, some 0, some 0, [some 0, some 0, some 0]⟩, 0,
    rfl, rfl, by decide, rfl, rfl⟩

/-- **C8, amended**.  For every maintained Chord ring — links and
fingers as `_update_links` / `fix_all_fingers` leave them — whose node
ids are *pairwise distinct* (which holds whenever every joined id was
fresh), `find_successor(key, start_node)` returns exactly the node
`find_successor_linear(key)` selects, for every key and every start
node; hence the owner a data operation routes to is independent of
where routing starts. -/
theorem C8_routing_refines_linear {r : ChordRing} (hwf : WF r) (hne : r.nodes ≠ [])
    (key : Nat) (start : Option Ref)
    (hstart : start = none ∨ ∃ nd ∈ r.nodes, start = some nd.ref) :
    ∃ nd hops, find_successor r key start = .ok (nd.ref, hops) ∧
      find_successor_linear r key = some nd :=
  find_successor_eq_linear hwf hne hstart

/-- Witness for the amended C8, on a concrete maintained one-node
ring. -/
theorem C8_witness :
    ∃ nd hops,
      find_successor ⟨3, [⟨0, 2, ⟨[]⟩, some 0, some 0, [some 0, some 0, some 0]⟩], 1⟩
        5 none = .ok (nd.ref, hops) ∧
      find_successor_linear ⟨3, [⟨0, 2, ⟨[]⟩, some 0, some 0, [some 0, some 0, some 0]⟩], 1⟩
        5 = some nd :=
  C8_routing_refines_linear ⟨by decide, by decide, by decide, by decide⟩
    (by decide) 5 none (Or.inl rfl)

/-! ## The safety cap, stated as claimed -/

theorem find?_min {α : Type _} (p : α → Bool) :
    ∀ (l : List α) (x : α), l.find? p = some x →
      ∃ (i : Nat) (hi : i < l.length), l.get ⟨i, hi⟩ = x ∧
        ∀ k (hk : k < i), p (l.get ⟨k, Nat.lt_trans hk hi⟩) = false := by
  intro l
  induction l with
  | nil => intro x h; simp at h
  | cons a tl ih =>
    intro x h
    by_cases hp : p a
    · rw [List.find?_cons_of_pos _ hp] at h
      exact ⟨0, Nat.succ_pos _, Option.some.inj h, fun k hk => absurd hk (by omega)⟩
    · rw [List.find?_cons_of_neg _ (by simpa using hp)] at h
      obtain ⟨i, hi, hget, hmin⟩ := ih x h
      refine ⟨i + 1, by simpa using hi, hget, ?_⟩
      intro k hk
      cases k with
      | zero => simpa using hp
      | succ k => exact hmin k (by omega)

theorem sorted_get_le {r : ChordRing} (hs : (ringIds r).Sorted (· ≤ ·))
    {i j : Nat} (hi : i < r.nodes.length) (hj : j < r.nodes.length) (hij : i ≤ j) :
    (r.nodes.get ⟨i, hi⟩).node_id ≤ (r.nodes.get ⟨j, hj⟩).node_id := by
  rcases Nat.lt_or_ge i j with h | h
  · have hlen : (ringIds r).length = r.nodes.length := by simp [ringIds]
    have := (List.pairwise_iff_get.mp hs) ⟨i, by omega⟩ ⟨j, by omega⟩ h
    simpa [ringIds, List.getElem_map] using this
  · have : i = j := by omega
    subst this
    exact le_refl _

/-- On an id-sorted node list, the linear scan returns the least node
id at least `key`, or the lowest-id node when no id reaches `key`. -/
theorem linear_characterization {r : ChordRing} (hs : (ringIds r).Sorted (· ≤ ·))
    (hne : r.nodes ≠ []) (key : Nat) :
    ∃ nd, find_successor_linear r key = some nd ∧ nd ∈ r.nodes ∧
      ((key ≤ nd.node_id ∧
          ∀ other ∈ r.nodes, key ≤ other.node_id → nd.node_id ≤ other.node_id) ∨
        ((∀ other ∈ r.nodes, other.node_id < key) ∧ r.nodes.head? = some nd ∧
          ∀ other ∈ r.nodes, nd.node_id ≤ other.node_id)) := by
  rw [find_successor_linear]
  cases hfind : r.nodes.find? (fun nd => key ≤ nd.node_id) with
  | some nd =>
    refine ⟨nd, rfl, List.mem_of_find?_eq_some hfind, Or.inl ⟨?_, ?_⟩⟩
    · simpa using List.find?_some hfind
    · intro other hother hko
      obtain ⟨i, hi, hget, hmin⟩ := find?_min _ r.nodes nd hfind
      obtain ⟨⟨j, hj⟩, hgetj⟩ := List.mem_iff_get.mp hother
      rcases Nat.lt_or_ge j i with h | h
      · have := hmin j h
        rw [hgetj] at this
        simp at this
        omega
      · rw [← hget, ← hgetj]
        exact sorted_get_le hs hi hj h
  | none =>
    have hlen : 0 < r.nodes.length := List.length_pos.mpr hne
    have hall : ∀ other ∈ r.nodes, other.node_id < key := by
      intro other hother
      have := List.find?_eq_none.mp hfind other hother
      simpa using this
    refine ⟨r.nodes.get ⟨0, hlen⟩, head?_eq_get r.nodes hlen, List.get_mem _ _ _,
      Or.inr ⟨hall, head?_eq_get r.nodes hlen, ?_⟩⟩
    intro other hother
    obtain ⟨⟨j, hj⟩, hgetj⟩ := List.mem_iff_get.mp hother
    rw [← hgetj]
    exact sorted_get_le hs hlen hj (Nat.zero_le _)

/-- **C4**.  On every non-empty closed Chord ring with an id-sorted
node list, `find_successor` terminates for every key and start node,
consuming at most `max 4 (4·nodeCount) + 1` forwarding steps; whenever
the cap was exceeded it returns the node of `find_successor_linear` —
the first node in ascending id order whose id is `≥ key`, or the
lowest-id node when no such node exists — paired with the hop count
accumulated when the fallback triggered. -/
theorem C4_find_successor_terminates {r : ChordRing} (hc : LinksClosed r)
    (hne : r.nodes ≠ []) (hsorted : (ringIds r).Sorted (· ≤ ·))
    (key : Nat) (start : Option Ref)
    (hstart : start = none ∨ ∃ nd ∈ r.nodes, start = some nd.ref) :
    ∃ nref hops, find_successor r key start = .ok (nref, hops) ∧
      hops ≤ max 4 (r.nodes.length * 4) + 1 ∧
      (max 4 (r.nodes.length * 4) < hops →
        (find_successor_linear r key).map ChordNode.ref = some nref) ∧
      (∃ nd, find_successor_linear r key = some nd ∧ nd ∈ r.nodes ∧
        ((key ≤ nd.node_id ∧
            ∀ other ∈ r.nodes, key ≤ other.node_id → nd.node_id ≤ other.node_id) ∨
          ((∀ other ∈ r.nodes, other.node_id < key) ∧ r.nodes.head? = some nd ∧
            ∀ other ∈ r.nodes, nd.node_id ≤ other.node_id))) := by
  obtain ⟨nref, hops, heq, hcap, _, hfb⟩ := find_successor_total hc hne hstart
  exact ⟨nref, hops, heq, hcap, hfb, linear_characterization hsorted hne key⟩

/-- Witness for C4 on a concrete two-node ring (with id `5` twice, a
state `join_node` can produce). -/
theorem C4_witness :
    ∃ nref hops,
      find_successor ⟨3,
        [⟨0, 5, ⟨[]⟩, some 1, some 1, [some 0, some 0, some 0]⟩,
         ⟨1, 5, ⟨[]⟩, some 0, some 0, [some 0, some 0, some 0]⟩], 2⟩ 3 none =
        .ok (nref, hops) ∧
      hops ≤ max 4 (2 * 4) + 1 := by
  have hc : LinksClosed ⟨3,
      [⟨0, 5, ⟨[]⟩, some 1, some 1, [some 0, some 0, some 0]⟩,
       ⟨1, 5, ⟨[]⟩, some 0, some 0, [some 0, some 0, some 0]⟩], 2⟩ := by
    intro nd hnd
    rcases List.mem_cons.mp hnd with rfl | hnd'
    · exact ⟨1, rfl, by decide⟩
    · rcases List.mem_cons.mp hnd' with rfl | hnd''
      · exact ⟨0, rfl, by decide⟩
      · exact absurd hnd'' (List.not_mem_nil _)
  obtain ⟨nref, hops, heq, hcap, _, _⟩ :=
    C4_find_successor_terminates hc (by decide) (by decide) 3 none (Or.inl rfl)
  exact ⟨nref, hops, heq, hcap⟩

/-! ## Update semantics -/

theorem find?_fst_map (p : Nat × List Record → Bool)
    (g : Nat × List Record → Nat × List Record) (hg : ∀ e, p (g e) = p e) :
    ∀ es : List (Nat × List Record),
      (es.map g).find? p = (es.find? p).map g := by
  intro es
  induction es with
  | nil => rfl
  | cons e rest ih =>
    by_cases he : p e
    · rw [List.map_cons, List.find?_cons_of_pos _ (by rw [hg]; exact he),
        List.find?_cons_of_pos _ he]
      rfl
    · rw [List.map_cons, List.find?_cons_of_neg _ (by rw [hg]; simpa using he),
        List.find?_cons_of_neg _ (by simpa using he), ih]

theorem update_first_map (t : BPlusTree) (key : Nat) (f v : String) :
    (t.update_first key f v).entries = t.entries.map (fun e =>
      if e.fst = key then
        (e.fst, match e.snd with
          | [] => []
          | rec :: rest => rec.setField f v :: rest)
      else e) := rfl

theorem update_first_preserves_fst (key : Nat) (f v : String)
    (e : Nat × List Record) :
    ((fun e => if e.fst = key then
        ((e.fst, match e.snd with
          | [] => []
          | rec :: rest => rec.setField f v :: rest) : Nat × List Record)
      else e) e).fst = e.fst := by
  by_cases he : e.fst = key
  · simp [he]
  · simp [he]

theorem search_key_update_first (t : BPlusTree) (key : Nat) (f v : String) :
    (t.update_first key f v).search_key key =
      match t.search_key key with
      | [] => []
      | rec :: rest => rec.setField f v :: rest := by
  rw [BPlusTree.search_key, BPlusTree.search_key, update_first_map,
    find?_fst_map _ _ (fun e => by
      rw [show ∀ a b : Nat × List Record, a.fst = b.fst →
          (a.fst == key) = (b.fst == key) from fun a b h => by rw [h]]
      exact update_first_preserves_fst key f v e)]
  cases hfind : t.entries.find? (fun e => e.fst == key) with
  | none => rfl
  | some e =>
    have he : e.fst = key := by simpa using List.find?_some hfind
    simp only [Option.map_some']
    rw [if_pos he]

theorem search_key_update_first_ne (t : BPlusTree) {key k' : Nat} (h : k' ≠ key)
    (f v : String) :
    (t.update_first key f v).search_key k' = t.search_key k' := by
  rw [BPlusTree.search_key, BPlusTree.search_key, update_first_map,
    find?_fst_map _ _ (fun e => by
      rw [show ∀ a b : Nat × List Record, a.fst = b.fst →
          (a.fst == k') = (b.fst == k') from fun a b h => by rw [h]]
      exact update_first_preserves_fst key f v e)]
  cases hfind : t.entries.find? (fun e => e.fst == k') with
  | none => rfl
  | some e =>
    have he : e.fst = k' := by simpa using List.find?_some hfind
    have hne : ¬ (e.fst = key) := by rw [he]; exact h
    simp only [Option.map_some']
    rw [if_neg hne]

/-- **C5**.  On every maintained non-empty Chord ring,
`update_movie_field(title, field, value)` routes to the owner of
`chord_hash(title, m)` (the linear successor); when the owner's store
holds no record under that key it returns `(False, hops)` with the ring
— every store — unchanged; otherwise it returns `(True, hops)` and the
resulting state differs only in the owner's store, whose record list
under the key has the named field set on exactly its first record,
all further records untouched. -/
theorem C5_update_movie_field (hf : String → Nat) {r : ChordRing} (hwf : WF r)
    (hne : r.nodes ≠ []) (title field value : String) (start : Option Ref)
    (hstart : start = none ∨ ∃ nd ∈ r.nodes, start = some nd.ref) :
    ∃ owner hops, find_successor r (chord_hash hf title r.m) start = .ok (owner.ref, hops) ∧
      find_successor_linear r (chord_hash hf title r.m) = some owner ∧ owner ∈ r.nodes ∧
      ((owner.btree.search_key (chord_hash hf title r.m) = [] ∧
        ChordRing.update_movie_field hf r title field value start = .ok ((false, hops), r)) ∨
       (∃ rec rest, owner.btree.search_key (chord_hash hf title r.m) = rec :: rest ∧
        ∃ r', ChordRing.update_movie_field hf r title field value start =
            .ok ((true, hops), r') ∧
          r' = modify_node r owner.ref
            (fun nd => { nd with
              btree := nd.btree.update_first (chord_hash hf title r.m) field value }) ∧
          (∀ nd' ∈ r'.nodes, nd'.ref = owner.ref →
            nd'.btree.search_key (chord_hash hf title r.m) =
              rec.setField field value :: rest ∧
            (∀ k', k' ≠ chord_hash hf title r.m →
              nd'.btree.search_key k' = owner.btree.search_key k')) ∧
          (∀ nd' ∈ r'.nodes, nd'.ref ≠ owner.ref → nd' ∈ r.nodes))) := by
  obtain ⟨owner, hops, heq, hlin⟩ := find_successor_eq_linear hwf hne hstart
  obtain ⟨nd0, h0, hm0⟩ := find_successor_linear_isSome (chord_hash hf title r.m) hne
  have hmem : owner ∈ r.nodes := by
    rw [h0] at hlin
    exact (Option.some.inj hlin) ▸ hm0
  have hget : getNode r owner.ref = some owner := getNode_of_mem hwf.refs_nodup hmem
  refine ⟨owner, hops, heq, hlin, hmem, ?_⟩
  cases hsearch : owner.btree.search_key (chord_hash hf title r.m) with
  | nil =>
    left
    refine ⟨rfl, ?_⟩
    simp only [ChordRing.update_movie_field, heq, hget, hsearch]
  | cons rec rest =>
    right
    refine ⟨rec, rest, rfl, _, ?_, rfl, ?_, ?_⟩
    · simp only [ChordRing.update_movie_field, heq, hget, hsearch]
    · intro nd' hnd' hrefeq
      rw [modify_node_nodes] at hnd'
      obtain ⟨nd0', hnd0', hbr⟩ := List.mem_map.mp hnd'
      by_cases hb : nd0'.ref = owner.ref
      · rw [if_pos hb] at hbr
        have hnd0eq : nd0' = owner := by
          have := getNode_of_mem hwf.refs_nodup hnd0'
          rw [hb, hget] at this
          exact (Option.some.inj this).symm
        subst hnd0eq
        have hbt : nd'.btree =
            nd0'.btree.update_first (chord_hash hf title r.m) field value := by
          rw [← hbr]
        constructor
        · rw [hbt, search_key_update_first, hsearch]
        · intro k' hk'
          rw [hbt, search_key_update_first_ne _ hk']
      · rw [if_neg hb] at hbr
        rw [← hbr] at hrefeq
        exact absurd hrefeq hb
    · intro nd' hnd' hrefne
      rw [modify_node_nodes] at hnd'
      obtain ⟨nd0', hnd0', hbr⟩ := List.mem_map.mp hnd'
      by_cases hb : nd0'.ref = owner.ref
      · rw [if_pos hb] at hbr
        have hnd0eq : nd0' = owner := by
          have := getNode_of_mem hwf.refs_nodup hnd0'
          rw [hb, hget] at this
          exact (Option.some.inj this).symm
        subst hnd0eq
        rw [← hbr] at hrefne
        simp at hrefne
      · rw [if_neg hb] at hbr
        rw [← hbr]
        exact hnd0'

/-- Witness for C5 on a concrete maintained one-node ring holding one
record under the hashed key (success case) and, for a different title,
no record (failure case). -/
theorem C5_witness :
    ∃ owner hops,
      find_successor ⟨3, [⟨0, 2,
          ⟨[(1, [[("popularity", "1")]])]⟩, some 0, some 0,
          [some 0, some 0, some 0]⟩], 1⟩
        (chord_hash String.length "x" 3) none = .ok (owner.ref, hops) ∧
      find_successor_linear ⟨3, [⟨0, 2,
          ⟨[(1, [[("popularity", "1")]])]⟩, some 0, some 0,
          [some 0, some 0, some 0]⟩], 1⟩
        (chord_hash String.length "x" 3) = some owner ∧
      owner ∈ (⟨3, [⟨0, 2, ⟨[(1, [[("popularity", "1")]])]⟩, some 0, some 0,
          [some 0, some 0, some 0]⟩], 1⟩ : ChordRing).nodes ∧
      ((owner.btree.search_key (chord_hash String.length "x" 3) = [] ∧
        ChordRing.update_movie_field String.length
          ⟨3, [⟨0, 2, ⟨[(1, [[("popularity", "1")]])]⟩, some 0, some 0,
            [some 0, some 0, some 0]⟩], 1⟩ "x" "popularity" "9.5" none =
          .ok ((false, hops), ⟨3, [⟨0, 2, ⟨[(1, [[("popularity", "1")]])]⟩, some 0, some 0,
            [some 0, some 0, some 0]⟩], 1⟩)) ∨
       (∃ rec rest, owner.btree.search_key (chord_hash String.length "x" 3) = rec :: rest ∧
        ∃ r', ChordRing.update_movie_field String.length
            ⟨3, [⟨0, 2, ⟨[(1, [[("popularity", "1")]])]⟩, some 0, some 0,
              [some 0, some 0, some 0]⟩], 1⟩ "x" "popularity" "9.5" none =
            .ok ((true, hops), r') ∧
          r' = modify_node ⟨3, [⟨0, 2, ⟨[(1, [[("popularity", "1")]])]⟩, some 0, some 0,
              [some 0, some 0, some 0]⟩], 1⟩ owner.ref
            (fun nd => { nd with
              btree := nd.btree.update_first (chord_hash String.length "x" 3)
                "popularity" "9.5" }) ∧
          (∀ nd' ∈ r'.nodes, nd'.ref = owner.ref →
            nd'.btree.search_key (chord_hash String.length "x" 3) =
              rec.setField "popularity" "9.5" :: rest ∧
            (∀ k', k' ≠ chord_hash String.length "x" 3 →
              nd'.btree.search_key k' = owner.btree.search_key k')) ∧
          (∀ nd' ∈ r'.nodes, nd'.ref ≠ owner.ref → nd' ∈
            (⟨3, [⟨0, 2, ⟨[(1, [[("popularity", "1")]])]⟩, some 0, some 0,
              [some 0, some 0, some 0]⟩], 1⟩ : ChordRing).nodes))) :=
  C5_update_movie_field String.length ⟨by decide, by decide, by decide, by decide⟩
    (by decide) "x" "popularity" "9.5" none (Or.inl rfl)

/-! ## Leave edge cases and read-only lookup -/

/-- **C6**.  On every ring state, `leave_node` of an id matching no
node returns `(False, 0, 0)` and leaves the ring — node list, links and
stores — exactly unchanged, raising nothing; and on a ring with exactly
one node, `leave_node` of that node's id returns `(True, 0, 0)` after
removing the node, with no records moved. -/
theorem C6_leave_node_edge_cases (r : ChordRing) (id : Nat) (start : Option Ref) :
    (id ∉ ringIds r → leave_node r id start = .ok ((false, 0, 0), r)) ∧
    (∀ nd, r.nodes = [nd] → nd.node_id = id →
      leave_node r id start = .ok ((true, 0, 0), { r with nodes := ([] : List ChordNode) })) := by
  constructor
  · intro hnone
    have hfind : r.nodes.find? (fun nd => nd.node_id == id) = none := by
      rw [List.find?_eq_none]
      intro nd hnd
      simp only [beq_eq_false_iff_ne, ne_eq, beq_iff_eq]
      intro hc
      exact hnone (List.mem_map.mpr ⟨nd, hnd, hc⟩)
    simp only [leave_node, hfind]
  · intro nd hone hid
    have hfind : r.nodes.find? (fun nd => nd.node_id == id) = some nd := by
      rw [hone]
      exact List.find?_cons_of_pos _ (by simpa using hid)
    have hlen : r.nodes.length = 1 := by rw [hone]; rfl
    have hrm : remove_first_node r.nodes nd.ref = [] := by
      rw [hone, remove_first_node, if_pos rfl]
    simp only [leave_node, hfind, hlen, hrm, if_pos trivial]

/-- Witness for C6: both edge cases on a concrete one-node ring. -/
theorem C6_witness :
    leave_node ⟨3, [⟨0, 2, ⟨[]⟩, some 0, some 0, [some 0, some 0, some 0]⟩], 1⟩ 7 none =
      .ok ((false, 0, 0), ⟨3, [⟨0, 2, ⟨[]⟩, some 0, some 0, [some 0, some 0, some 0]⟩], 1⟩) ∧
    leave_node ⟨3, [⟨0, 2, ⟨[]⟩, some 0, some 0, [some 0, some 0, some 0]⟩], 1⟩ 2 none =
      .ok ((true, 0, 0), ⟨3, [], 1⟩) :=
  ⟨(C6_leave_node_edge_cases _ 7 none).1 (by decide),
    (C6_leave_node_edge_cases _ 2 none).2
      ⟨0, 2, ⟨[]⟩, some 0, some 0, [some 0, some 0, some 0]⟩ rfl rfl⟩

/-- **C9**.  On every non-empty closed Chord ring, `lookup` is
read-only: the ring state it returns is the very state it was given —
node list, every node's links and fingers, and every store unchanged —
and it returns the owning node's record list for the hashed title with
the hop count; consequently two consecutive calls with the same title
and start node return equal `(records, hops)` results. -/
theorem C9_lookup_read_only (hf : String → Nat) {r : ChordRing} (hc : LinksClosed r)
    (hne : r.nodes ≠ []) (title : String) (start : Option Ref)
    (hstart : start = none ∨ ∃ nd ∈ r.nodes, start = some nd.ref) :
    ∃ records hops,
      ChordRing.lookup hf r title start = .ok ((records, hops), r) ∧
      (∀ res' r', ChordRing.lookup hf r title start = .ok (res', r') →
        res' = (records, hops) ∧ r' = r) := by
  obtain ⟨nref, hops, heq, _, hres, _⟩ :=
    @find_successor_total r (chord_hash hf title r.m) start hc hne hstart
  obtain ⟨nd, hnd⟩ := Option.isSome_iff_exists.mp hres
  refine ⟨nd.btree.search_key (chord_hash hf title r.m), hops, ?_, ?_⟩
  · simp only [ChordRing.lookup, heq, hnd]
  · intro res' r' h
    simp only [ChordRing.lookup, heq, hnd, Except.ok.injEq, Prod.mk.injEq] at h
    exact ⟨h.1.symm, h.2.symm⟩

/-- Witness for C9 on a concrete one-node ring holding a record. -/
theorem C9_witness :
    ∃ records hops,
      ChordRing.lookup String.length
        ⟨3, [⟨0, 6, ⟨[(1, [[("title", "x")]])]⟩, some 0, some 0,
          [some 0, some 0, some 0]⟩], 1⟩ "x" none =
        .ok ((records, hops),
          ⟨3, [⟨0, 6, ⟨[(1, [[("title", "x")]])]⟩, some 0, some 0,
            [some 0, some 0, some 0]⟩], 1⟩) ∧
      (∀ res' r', ChordRing.lookup String.length
          ⟨3, [⟨0, 6, ⟨[(1, [[("title", "x")]])]⟩, some 0, some 0,
            [some 0, some 0, some 0]⟩], 1⟩ "x" none = .ok (res', r') →
        res' = (records, hops) ∧
        r' = ⟨3, [⟨0, 6, ⟨[(1, [[("title", "x")]])]⟩, some 0, some 0,
          [some 0, some 0, some 0]⟩], 1⟩) :=
  C9_lookup_read_only String.length
    (fun nd hnd => by
      rcases List.mem_cons.mp hnd with rfl | h
      · exact ⟨0, rfl, by decide⟩
      · exact absurd h (List.not_mem_nil _))
    (by decide) "x" none (Or.inl rfl)

/-! ## The p95 statistic -/

/-- Python's built-in `round` (round half to even) on an exact
rational; the float products `0.95 * (n - 1)` computed by the sources
agree with the exact rational at every half-way point arising there. -/
def pyRound (q : ℚ) : ℤ :=
  let f := ⌊q⌋
  let r := q - f
  if r < 1/2 then f
  else if 1/2 < r then f + 1
  else if f % 2 = 0 then f else f + 1

/-- `_p95` from `src/GUI/experiments.py`: sort ascending and select the
element at index `int(round(0.95 * (len(s) - 1)))` — nearest-index
selection (the `_p95` of `src/main_chord.py` is the same selection with
a redundant `max(0, ·)` guard). -/
def p95Pipeline (vals : List ℚ) : Option ℚ :=
  if vals = [] then none
  else
    some ((vals.insertionSort (· ≤ ·)).getD
      (pyRound (19/20 * (((vals.insertionSort (· ≤ ·)).length : ℚ) - 1))).toNat 0)

/-- Modelled from the external library: the `p95=lambda x: x.quantile(0.95)`
aggregation of `src/main_chord.py` calls pandas' `Series.quantile`,
whose default interpolation is *linear*: with `h = p·(n-1)`,
`lo = ⌊h⌋`, the result is `s[lo] + (h - lo)·(s[lo+1] - s[lo])`. -/
def quantileLinear (p : ℚ) (vals : List ℚ) : Option ℚ :=
  if vals = [] then none
  else
    let s := vals.insertionSort (· ≤ ·)
    let h := p * ((s.length : ℚ) - 1)
    let lo := (⌊h⌋).toNat
    let x0 := s.getD lo 0
    some (x0 + (h - ⌊h⌋) * (s.getD (lo + 1) x0 - x0))

/-- **C3, counterexample**.  The claim says every reported p95 —
including the `p95` column of `summary_stats.csv` — is nearest-index
selection `s[round(0.95*(n-1))]`, never interpolated.  But
`summary_stats.csv` is produced with pandas `quantile(0.95)` (linear
interpolation): on the two-element hop sample `[0, 1]` it reports
`0.95`, a value not in the sample, while nearest-index selection gives
`1`. -/
theorem C3_counterexample :
    quantileLinear (19/20) [0, 1] = some (19/20) ∧
    p95Pipeline [0, 1] = some 1 ∧
    (19 : ℚ)/20 ∉ ([0, 1] : List ℚ) ∧
    quantileLinear (19/20) [0, 1] ≠ p95Pipeline [0, 1] := by
  have hs : List.insertionSort (fun x1 x2 => x1 ≤ x2) ([0, 1] : List ℚ) = [0, 1] := by
    norm_num [List.insertionSort, List.orderedInsert]
  have hfl : ⌊(19 : ℚ)/20 * ((2 : ℚ) - 1)⌋ = 0 := by
    rw [show (19 : ℚ)/20 * ((2 : ℚ) - 1) = 19/20 by norm_num]
    rw [Int.floor_eq_zero_iff]
    constructor <;> norm_num
  have hfl19 : ⌊(19 : ℚ)/20⌋ = 0 := by
    rw [Int.floor_eq_zero_iff]
    constructor <;> norm_num
  have h1 : quantileLinear (19/20) [0, 1] = some (19/20) := by
    rw [quantileLinear, if_neg (by simp)]
    simp only [hs, List.length_cons, List.length_nil]
    norm_num [hfl, hfl19, List.getD]
  have hpr : pyRound ((19 : ℚ)/20 * ((2 : ℚ) - 1)) = 1 := by
    rw [pyRound]
    simp only [hfl]
    rw [if_neg (by norm_num), if_pos (by norm_num)]
    norm_num
  have hpr19 : pyRound ((19 : ℚ)/20) = 1 := by
    rw [pyRound]
    simp only [hfl19]
    rw [if_neg (by norm_num), if_pos (by norm_num)]
    norm_num
  have h2 : p95Pipeline [0, 1] = some 1 := by
    rw [p95Pipeline, if_neg (by simp)]
    simp only [hs, List.length_cons, List.length_nil]
    norm_num [hpr, hpr19, List.getD]
  refine ⟨h1, h2, by norm_num, ?_⟩
  rw [h1, h2]
  norm_num

theorem pyRound_nonneg {q : ℚ} (h : 0 ≤ q) : 0 ≤ pyRound q := by
  have hf : (0 : ℤ) ≤ ⌊q⌋ := Int.floor_nonneg.mpr h
  rw [pyRound]
  split
  · exact hf
  · split
    · omega
    · split
      · exact hf
      · omega

theorem pyRound_le {q : ℚ} {B : ℤ} (h : q ≤ (B : ℚ)) : pyRound q ≤ B := by
  have hf : ⌊q⌋ ≤ B := by
    have := Int.floor_le_floor h
    simpa using this
  have hstep : ¬ (q - ⌊q⌋ < 1/2) → ⌊q⌋ + 1 ≤ B := by
    intro hr
    have h1 : (0 : ℚ) < q - ⌊q⌋ := by
      have : (1 : ℚ)/2 ≤ q - ⌊q⌋ := le_of_not_lt hr
      linarith
    have h2 : (⌊q⌋ : ℚ) < (B : ℚ) := by linarith [Int.floor_le q]
    have h3 : ⌊q⌋ < B := by exact_mod_cast h2
    omega
  rw [pyRound]
  split
  · exact hf
  next hr =>
    split
    · exact hstep hr
    · split
      · exact hf
      · exact hstep hr

/-- **C3, amended**.  The p95 of the interactive pipeline's summaries
(`_p95` of `src/GUI/experiments.py`, likewise the console statistics of
`src/main_chord.py`) is nearest-index selection: it returns the element
of the ascending-sorted sample at index `round(0.95*(n-1))` — always a
member of the sample, never an interpolated value.  The `p95` column of
`summary_stats.csv`, however, is computed with pandas
`quantile(0.95)`, which interpolates linearly (see the
counterexample). -/
theorem C3_pipeline_p95_nearest_index (vals : List ℚ) (h : vals ≠ []) :
    ∃ x, x ∈ vals ∧ p95Pipeline vals = some x ∧
      ∃ (idx : ℕ) (hidx : idx < (vals.insertionSort (· ≤ ·)).length),
        (idx : ℤ) = pyRound (19/20 * (((vals.insertionSort (· ≤ ·)).length : ℚ) - 1)) ∧
        x = (vals.insertionSort (· ≤ ·)).get ⟨idx, hidx⟩ := by
  have hperm : List.Perm (vals.insertionSort (· ≤ ·)) vals :=
    List.perm_insertionSort _ vals
  have hlen : vals.insertionSort (· ≤ ·) ≠ [] := by
    intro hc
    rw [hc] at hperm
    exact h ((List.Perm.nil_eq hperm).symm)
  have hn : 0 < (vals.insertionSort (· ≤ ·)).length := List.length_pos.mpr hlen
  have hq0 : (0 : ℚ) ≤ 19/20 * (((vals.insertionSort (· ≤ ·)).length : ℚ) - 1) := by
    have h1 : (1 : ℚ) ≤ ((vals.insertionSort (· ≤ ·)).length : ℚ) := by exact_mod_cast hn
    nlinarith
  have hqB : 19/20 * (((vals.insertionSort (· ≤ ·)).length : ℚ) - 1) ≤
      (((vals.insertionSort (· ≤ ·)).length - 1 : ℤ) : ℚ) := by
    have h1 : (1 : ℚ) ≤ ((vals.insertionSort (· ≤ ·)).length : ℚ) := by exact_mod_cast hn
    have h2 : (((vals.insertionSort (· ≤ ·)).length - 1 : ℤ) : ℚ) =
        ((vals.insertionSort (· ≤ ·)).length : ℚ) - 1 := by
      push_cast
      ring
    rw [h2]
    nlinarith
  have hlow := pyRound_nonneg hq0
  have hhigh := pyRound_le hqB
  have hidx : (pyRound (19/20 * (((vals.insertionSort (· ≤ ·)).length : ℚ) - 1))).toNat <
      (vals.insertionSort (· ≤ ·)).length := by omega
  refine ⟨(vals.insertionSort (· ≤ ·)).get
      ⟨(pyRound (19/20 * (((vals.insertionSort (· ≤ ·)).length : ℚ) - 1))).toNat, hidx⟩,
    ?_, ?_, ?_⟩
  · exact hperm.mem_iff.mp (List.get_mem _ _ _)
  · rw [p95Pipeline, if_neg h]
    congr 1
    rw [List.getD_eq_get?, List.get?_eq_get hidx]
    rfl
  · exact ⟨_, hidx, by omega, rfl⟩

/-- Witness for the amended C3 on the sample `[3, 1, 2]`. -/
theorem C3_witness :
    ∃ x, x ∈ ([3, 1, 2] : List ℚ) ∧ p95Pipeline [3, 1, 2] = some x ∧
      ∃ (idx : ℕ) (hidx : idx < (([3, 1, 2] : List ℚ).insertionSort (· ≤ ·)).length),
        (idx : ℤ) =
          pyRound (19/20 * (((([3, 1, 2] : List ℚ).insertionSort (· ≤ ·)).length : ℚ) - 1)) ∧
        x = (([3, 1, 2] : List ℚ).insertionSort (· ≤ ·)).get ⟨idx, hidx⟩ :=
  C3_pipeline_p95_nearest_index [3, 1, 2] (by decide)

/-! ## GUI run validation (`App.on_run` of `src/gui_dht.py`) -/

/-- The externally observable effects of one `on_run` invocation:
which dialog message was shown (error or info), whether the result
tables and the log were cleared, and whether a background worker thread
was started. -/
structure RunAttempt where
  error_msg : Option String
  info_msg : Option String
  cleared : Bool
  worker_started : Bool
deriving Repr, DecidableEq

/-- `App.on_run` of `src/gui_dht.py`.  The three `int(...)` parses of
the stripped `Nodes` / `K` / `Seed` fields are modelled by their
results (`none` = `ValueError`); `csv_exists` models
`Path(...).exists()`.  Validation failures return before anything is
cleared and before the worker thread is created. -/
def on_run (worker_alive : Bool) (nodes_i k_i seed_i : Option Int)
    (csv_path : String) (csv_exists : Bool) : RunAttempt :=
  if worker_alive then
    { error_msg := none, info_msg := some "A run is already in progress.",
      cleared := false, worker_started := false }
  else
    match nodes_i, k_i, seed_i with
    | some n, some k, some _ =>
      if n < 2 then
        { error_msg := some "Nodes must be >= 2.", info_msg := none,
          cleared := false, worker_started := false }
      else if k < 1 then
        { error_msg := some "K must be >= 1.", info_msg := none,
          cleared := false, worker_started := false }
      else if csv_exists = false then
        { error_msg := some ("CSV not found:\n" ++ csv_path), info_msg := none,
          cleared := false, worker_started := false }
      else
        { error_msg := none, info_msg := none, cleared := true, worker_started := true }
    | _, _, _ =>
      { error_msg := some "Nodes, K, and Seed must be integers.", info_msg := none,
        cleared := false, worker_started := false }

/-- **C10**.  With no worker already running: a node count below 2 is
rejected with exactly `"Nodes must be >= 2."`; a parsed K below 1 (with
a valid node count) with exactly `"K must be >= 1."`; and any
non-integer node count, K or seed with exactly
`"Nodes, K, and Seed must be integers."`.  In every rejected case
`on_run` returns without starting a background worker and without
clearing the result tables or the log. -/
theorem C10_on_run_validation (nodes_i k_i seed_i : Option Int)
    (csv_path : String) (csv_exists : Bool) :
    (∀ n, nodes_i = some n → n < 2 → k_i.isSome → seed_i.isSome →
      on_run false nodes_i k_i seed_i csv_path csv_exists =
        { error_msg := some "Nodes must be >= 2.", info_msg := none,
          cleared := false, worker_started := false }) ∧
    (∀ n k, nodes_i = some n → 2 ≤ n → k_i = some k → k < 1 → seed_i.isSome →
      on_run false nodes_i k_i seed_i csv_path csv_exists =
        { error_msg := some "K must be >= 1.", info_msg := none,
          cleared := false, worker_started := false }) ∧
    (nodes_i = none ∨ k_i = none ∨ seed_i = none →
      on_run false nodes_i k_i seed_i csv_path csv_exists =
        { error_msg := some "Nodes, K, and Seed must be integers.", info_msg := none,
          cleared := false, worker_started := false }) ∧
    (∀ res, res = on_run false nodes_i k_i seed_i csv_path csv_exists →
      res.error_msg ≠ none → res.worker_started = false ∧ res.cleared = false) := by
  refine ⟨?_, ?_, ?_, ?_⟩
  · rintro n rfl hn hk hs
    obtain ⟨k, rfl⟩ := Option.isSome_iff_exists.mp hk
    obtain ⟨sd, rfl⟩ := Option.isSome_iff_exists.mp hs
    simp [on_run, hn]
  · rintro n k rfl hn rfl hk hs
    obtain ⟨sd, rfl⟩ := Option.isSome_iff_exists.mp hs
    simp [on_run, hk, show ¬ (n < 2) by omega]
  · rintro (rfl | rfl | rfl)
    · rfl
    · cases nodes_i <;> rfl
    · cases nodes_i <;> cases k_i <;> rfl
  · rintro res rfl hmsg
    cases nodes_i with
    | none => exact ⟨rfl, rfl⟩
    | some n =>
      cases k_i with
      | none => exact ⟨rfl, rfl⟩
      | some k =>
        cases seed_i with
        | none => exact ⟨rfl, rfl⟩
        | some sd =>
          by_cases h2 : n < 2
          · simp [on_run, h2]
          · by_cases h1 : k < 1
            · simp [on_run, h2, h1]
            · by_cases hcsv : csv_exists = false
              · simp [on_run, h2, h1, hcsv]
              · exfalso
                apply hmsg
                simp [on_run, h2, h1, hcsv]

/-- Witness for C10: node count `1`, K `0` (behind a valid node
count), and an unparseable seed, each at concrete inputs. -/
theorem C10_witness :
    on_run false (some 1) (some 3) (some 42) "data.csv" true =
      { error_msg := some "Nodes must be >= 2.", info_msg := none,
        cleared := false, worker_started := false } ∧
    on_run false (some 32) (some 0) (some 42) "data.csv" true =
      { error_msg := some "K must be >= 1.", info_msg := none,
        cleared := false, worker_started := false } ∧
    on_run false (some 32) (some 3) none "data.csv" true =
      { error_msg := some "Nodes, K, and Seed must be integers.", info_msg := none,
        cleared := false, worker_started := false } :=
  ⟨(C10_on_run_validation (some 1) (some 3) (some 42) "data.csv" true).1 1 rfl
      (by decide) (by decide) (by decide),
    (C10_on_run_validation (some 32) (some 0) (some 42) "data.csv" true).2.1 32 0 rfl
      (by decide) rfl (by decide) (by decide),
    (C10_on_run_validation (some 32) (some 3) none "data.csv" true).2.2.1
      (Or.inr (Or.inr rfl))⟩

/-! ## Id lists through membership operations -/

theorem ids_fix (r : ChordRing) :
    (fix_all_fingers r).nodes.map ChordNode.node_id = r.nodes.map ChordNode.node_id :=
  ids_eq_of_core (node_core_fix r)

theorem ids_update (r : ChordRing) :
    (update_links r).nodes.map ChordNode.node_id = r.nodes.map ChordNode.node_id :=
  ids_eq_of_core (node_core_update_links r.nodes)

theorem modify_insert_ids (r : ChordRing) (x : Ref) (rec : Record) (key : Nat) :
    (modify_node r x (fun nd => { nd with btree := nd.btree.insert rec key })).nodes.map
      ChordNode.node_id = r.nodes.map ChordNode.node_id :=
  modify_ids (fun _ => ⟨rfl, rfl, rfl, rfl, rfl⟩)

theorem modify_insert_refs (r : ChordRing) (x : Ref) (rec : Record) (key : Nat) :
    (modify_node r x (fun nd => { nd with btree := nd.btree.insert rec key })).nodes.map
      ChordNode.ref = r.nodes.map ChordNode.ref :=
  modify_refs (fun _ => ⟨rfl, rfl, rfl, rfl, rfl⟩)

theorem modify_delete_ids (r : ChordRing) (x : Ref) (key : Nat) :
    (modify_node r x (fun nd => { nd with btree := nd.btree.delete key })).nodes.map
      ChordNode.node_id = r.nodes.map ChordNode.node_id :=
  modify_ids (fun _ => ⟨rfl, rfl, rfl, rfl, rfl⟩)

theorem modify_delete_refs (r : ChordRing) (x : Ref) (key : Nat) :
    (modify_node r x (fun nd => { nd with btree := nd.btree.delete key })).nodes.map
      ChordNode.ref = r.nodes.map ChordNode.ref :=
  modify_refs (fun _ => ⟨rfl, rfl, rfl, rfl, rfl⟩)

theorem redistribute_fold_shape {pid nid : Nat} {nref sref : Ref} :
    ∀ (items : List (Nat × Record)) (hops moved : Nat) (r : ChordRing)
      (res : Nat × Nat) (r' : ChordRing),
      redistribute_fold pid nid nref sref items hops moved r = .ok (res, r') →
      r'.m = r.m ∧ r'.nextRef = r.nextRef ∧
      r'.nodes.map ChordNode.node_id = r.nodes.map ChordNode.node_id ∧
      r'.nodes.map ChordNode.ref = r.nodes.map ChordNode.ref := by
  intro items
  induction items with
  | nil =>
    intro hops moved r res r' h
    rw [redistribute_fold] at h
    simp only [Except.ok.injEq, Prod.mk.injEq] at h
    rw [← h.2]
    exact ⟨rfl, rfl, rfl, rfl⟩
  | cons item rest ih =>
    intro hops moved r res r' h
    obtain ⟨key, rec⟩ := item
    rw [redistribute_fold] at h
    split at h
    · split at h
      · simp at h
      next w hw =>
        obtain ⟨h1, h2, h3, h4⟩ := ih _ _ _ _ _ h
        refine ⟨?_, ?_, ?_, ?_⟩
        · rw [h1, modify_node_m, modify_node_m]
        · rw [h2, modify_node_nextRef, modify_node_nextRef]
        · rw [h3, modify_delete_ids, modify_insert_ids]
        · rw [h4, modify_delete_refs, modify_insert_refs]
    · exact ih _ _ _ _ _ h

theorem redistribute_keys_shape {r2 : ChordRing} {new_ref : Ref}
    {res : Nat × Nat} {r3 : ChordRing}
    (h : redistribute_keys r2 new_ref = .ok (res, r3)) :
    r3.m = r2.m ∧ r3.nextRef = r2.nextRef ∧
    r3.nodes.map ChordNode.node_id = r2.nodes.map ChordNode.node_id ∧
    r3.nodes.map ChordNode.ref = r2.nodes.map ChordNode.ref := by
  rw [redistribute_keys] at h
  split at h
  · simp at h
  · split at h
    · split at h
      · exact redistribute_fold_shape _ _ _ _ _ _ h
      · simp at h
    · simp at h

theorem leave_fold_shape {node_ref : Ref} {succ_opt : Option Ref} :
    ∀ (items : List (Nat × Record)) (hops moved : Nat) (r : ChordRing)
      (res : Nat × Nat) (r' : ChordRing),
      leave_fold node_ref succ_opt items hops moved r = .ok (res, r') →
      r'.m = r.m ∧ r'.nextRef = r.nextRef ∧
      r'.nodes.map ChordNode.node_id = r.nodes.map ChordNode.node_id ∧
      r'.nodes.map ChordNode.ref = r.nodes.map ChordNode.ref := by
  intro items
  induction items with
  | nil =>
    intro hops moved r res r' h
    rw [leave_fold] at h
    simp only [Except.ok.injEq, Prod.mk.injEq] at h
    rw [← h.2]
    exact ⟨rfl, rfl, rfl, rfl⟩
  | cons item rest ih =>
    intro hops moved r res r' h
    obtain ⟨key, rec⟩ := item
    rw [leave_fold] at h
    split at h
    · simp at h
    · split at h
      · simp at h
      next sref hs =>
        obtain ⟨h1, h2, h3, h4⟩ := ih _ _ _ _ _ h
        refine ⟨?_, ?_, ?_, ?_⟩
        · rw [h1, modify_node_m]
        · rw [h2, modify_node_nextRef]
        · rw [h3, modify_insert_ids]
        · rw [h4, modify_insert_refs]

/-- Any successful `join_node` adds exactly the joined id to the ring's
id list (up to the sorted reordering). -/
theorem join_node_ids {r : ChordRing} {id : Nat} {start : Option Ref}
    {res : Ref × Nat × Nat} {r' : ChordRing}
    (h : join_node r id start = .ok (res, r')) :
    List.Perm (ringIds r') (id :: ringIds r) := by
  rw [join_node] at h
  split at h
  · simp at h
  next jh hloc =>
    simp only [join_rest] at h
    split at h
    · simp only [Except.ok.injEq, Prod.mk.injEq] at h
      rw [← h.2]
      show List.Perm ((fix_all_fingers (update_links (join_inserted r id))).nodes.map
        ChordNode.node_id) _
      rw [ids_fix, ids_update]
      exact join_inserted_ids_perm r id
    · split at h
      · simp at h
      next mh mc r3 hred =>
        simp only [Except.ok.injEq, Prod.mk.injEq] at h
        rw [← h.2]
        show List.Perm ((fix_all_fingers r3).nodes.map ChordNode.node_id) _
        rw [ids_fix, (redistribute_keys_shape hred).2.2.1]
        show List.Perm ((update_links_list (join_inserted r id).nodes).map ChordNode.node_id) _
        rw [show (update_links_list (join_inserted r id).nodes).map ChordNode.node_id =
          (join_inserted r id).nodes.map ChordNode.node_id from ids_update (join_inserted r id)]
        exact join_inserted_ids_perm r id

theorem remove_first_node_sublist : ∀ (ns : List ChordNode) (ref : Ref),
    (remove_first_node ns ref).Sublist ns := by
  intro ns ref
  induction ns with
  | nil => exact List.Sublist.refl _
  | cons nd rest ih =>
    rw [remove_first_node]
    by_cases hb : nd.ref = ref
    · rw [if_pos hb]
      exact List.sublist_cons_self nd rest
    · rw [if_neg hb]
      exact List.Sublist.cons₂ nd ih

/-- Any successful `leave_node` leaves an id list that is a sublist of
the previous one (unchanged on the soft-failure path). -/
theorem leave_node_ids {r : ChordRing} {id : Nat} {start : Option Ref}
    {res : Bool × Nat × Nat} {r' : ChordRing}
    (h : leave_node r id start = .ok (res, r')) :
    (ringIds r').Sublist (ringIds r) := by
  rw [leave_node] at h
  split at h
  · simp only [Except.ok.injEq, Prod.mk.injEq] at h
    rw [← h.2]
  next node hfind =>
    split at h
    · simp only [Except.ok.injEq, Prod.mk.injEq] at h
      rw [← h.2]
      exact (remove_first_node_sublist r.nodes node.ref).map _
    · split at h
      · simp at h
      next th mv r1 hfold =>
        simp only [Except.ok.injEq, Prod.mk.injEq] at h
        rw [← h.2]
        show ((fix_all_fingers (update_links _)).nodes.map ChordNode.node_id).Sublist _
        rw [ids_fix, ids_update]
        have h1 : ((remove_first_node r1.nodes node.ref).map ChordNode.node_id).Sublist
            (r1.nodes.map ChordNode.node_id) :=
          (remove_first_node_sublist r1.nodes node.ref).map _
        rw [(leave_fold_shape _ _ _ _ _ _ hfold).2.2.1] at h1
        exact h1

/-- One membership call of the kind the interactive pipeline's
dynamic phases issue. -/
inductive ReachesFresh : ChordRing → ChordRing → Prop
  | refl (r : ChordRing) : ReachesFresh r r
  | join {r0 r r' : ChordRing} (id : Nat) (start : Option Ref) :
      ReachesFresh r0 r → id ∉ ringIds r →
      (join_node r id start).map Prod.snd = .ok r' → ReachesFresh r0 r'
  | leave {r0 r r' : ChordRing} (id : Nat) (start : Option Ref) :
      ReachesFresh r0 r → (leave_node r id start).map Prod.snd = .ok r' → ReachesFresh r0 r'

/-- **C7, counterexample**.  `join_node` never rejects an id already in
the ring, and the pipeline's dynamic-join phase draws unchecked random
ids, so joining id `5` twice produces a ring whose node ids are `[5, 5]`
— not pairwise distinct.  The claimed invariant fails. -/
theorem C7_counterexample :
    ∃ r, build_ring 3 [5, 5] = .ok r ∧
      ringIds r = [5, 5] ∧ ¬ (ringIds r).Nodup := by
  refine ⟨⟨3,
    [⟨0, 5, ⟨[]⟩, some 1, some 1, [some 0, some 0, some 0]⟩,
     ⟨1, 5, ⟨[]⟩, some 0, some 0, [some 0, some 0, some 0]⟩], 2⟩, rfl, rfl, by decide⟩

/-- **C7, amended**.  In every ring state reachable from the empty ring
by `join_node` and `leave_node` calls in which every joined id is fresh
(not currently held by any node), the node ids are pairwise distinct.
Without the freshness proviso the invariant fails, since `join_node`
accepts duplicated ids (see the counterexample). -/
theorem C7_unique_ids_of_fresh_joins {m : Nat} {r' : ChordRing}
    (h : ReachesFresh (ChordRing.empty m) r') : (ringIds r').Nodup := by
  have main : ∀ {a b : ChordRing}, ReachesFresh a b → (ringIds a).Nodup → (ringIds b).Nodup := by
    intro a b hr
    induction hr with
    | refl => exact id
    | join id start hr hfresh hjoin ih =>
      intro ha
      cases hj : join_node _ id start with
      | error e => rw [hj] at hjoin; simp [Except.map] at hjoin
      | ok p =>
        obtain ⟨res, r2⟩ := p
        rw [hj] at hjoin
        simp only [Except.map, Except.ok.injEq] at hjoin
        subst hjoin
        have hperm := join_node_ids hj
        rw [hperm.nodup_iff]
        exact List.nodup_cons.mpr ⟨hfresh, ih ha⟩
    | leave id start hr hleave ih =>
      intro ha
      cases hl : leave_node _ id start with
      | error e => rw [hl] at hleave; simp [Except.map] at hleave
      | ok p =>
        obtain ⟨res, r2⟩ := p
        rw [hl] at hleave
        simp only [Except.map, Except.ok.injEq] at hleave
        subst hleave
        have hsub := leave_node_ids hl
        exact (ih ha).sublist hsub
  exact main h (by simp [ringIds, ChordRing.empty])

/-- Witness for C7: joining the fresh ids 1 and 2 into the empty ring
(m = 3) reaches a concrete state, and the theorem yields distinct ids. -/
theorem C7_witness :
    ReachesFresh (ChordRing.empty 3)
      ⟨3, [⟨0, 1, ⟨[]⟩, some 1, some 1, [some 1, some 0, some 0]⟩,
           ⟨1, 2, ⟨[]⟩, some 0, some 0, [some 0, some 0, some 0]⟩], 2⟩ ∧
    ringIds (⟨3, [⟨0, 1, ⟨[]⟩, some 1, some 1, [some 1, some 0, some 0]⟩,
           ⟨1, 2, ⟨[]⟩, some 0, some 0, [some 0, some 0, some 0]⟩], 2⟩ : ChordRing)
      = [1, 2] ∧
    (ringIds (⟨3, [⟨0, 1, ⟨[]⟩, some 1, some 1, [some 1, some 0, some 0]⟩,
           ⟨1, 2, ⟨[]⟩, some 0, some 0, [some 0, some 0, some 0]⟩], 2⟩ : ChordRing)).Nodup := by
  have h1 : ReachesFresh (ChordRing.empty 3)
      ⟨3, [⟨0, 1, ⟨[]⟩, some 0, some 0, [some 0, some 0, some 0]⟩], 1⟩ :=
    ReachesFresh.join 1 none (ReachesFresh.refl _) (by decide) rfl
  have h2 : ReachesFresh (ChordRing.empty 3)
      ⟨3, [⟨0, 1, ⟨[]⟩, some 1, some 1, [some 1, some 0, some 0]⟩,
           ⟨1, 2, ⟨[]⟩, some 0, some 0, [some 0, some 0, some 0]⟩], 2⟩ :=
    ReachesFresh.join 2 none h1 (by decide) rfl
  exact ⟨h2, rfl, C7_unique_ids_of_fresh_joins h2⟩

/-! ## Store-level composition of the redistribute / leave loops

`_redistribute_keys` and `leave_node` iterate `insert` and `delete`
over an item snapshot; the iterated operations are named here so the
loops' net effect on each store can be stated. -/

/-- Iterated `insert`, in snapshot order (the store operation each loop
applies once per `(key, record)` item). -/
def BPlusTree.insertAll (t : BPlusTree) (its : List (Nat × Record)) : BPlusTree :=
  its.foldl (fun acc it => acc.insert it.2 it.1) t

/-- Iterated `delete`, once per key of the snapshot. -/
def BPlusTree.deleteAll (t : BPlusTree) (ks : List Nat) : BPlusTree :=
  ks.foldl (fun acc k => acc.delete k) t

/-- The `(key, record)` items a single entry contributes to
`get_all_items`. -/
def entryItems (e : Nat × List Record) : List (Nat × Record) :=
  e.2.map (fun rc => (e.1, rc))

theorem get_all_items_eq (t : BPlusTree) :
    t.get_all_items = t.entries.flatMap entryItems := rfl

theorem insertAll_nil (t : BPlusTree) : t.insertAll [] = t := rfl

theorem insertAll_cons (t : BPlusTree) (key : Nat) (rec : Record)
    (its : List (Nat × Record)) :
    t.insertAll ((key, rec) :: its) = (t.insert rec key).insertAll its := rfl

theorem deleteAll_nil (t : BPlusTree) : t.deleteAll [] = t := rfl

theorem deleteAll_cons (t : BPlusTree) (key : Nat) (ks : List Nat) :
    t.deleteAll (key :: ks) = (t.delete key).deleteAll ks := rfl

theorem insertEntries_append_of_lt (rec : Record) (key : Nat) :
    ∀ (A B : List (Nat × List Record)), (∀ e ∈ A, e.1 < key) →
      BPlusTree.insertEntries (A ++ B) rec key = A ++ BPlusTree.insertEntries B rec key := by
  intro A
  induction A with
  | nil => intro B _; rfl
  | cons e A' ih =>
    intro B hA
    obtain ⟨k, recs⟩ := e
    have hk : k < key := hA (k, recs) (List.mem_cons_self _ _)
    rw [List.cons_append, BPlusTree.insertEntries,
      if_neg (by omega), if_neg (by omega), ih B (fun e he => hA e (List.mem_cons_of_mem _ he))]
    rfl

theorem insertEntries_new (rec : Record) (key : Nat) :
    ∀ (B : List (Nat × List Record)), (∀ e ∈ B, key < e.1) →
      BPlusTree.insertEntries B rec key = (key, [rec]) :: B := by
  intro B hB
  cases B with
  | nil => rfl
  | cons e B' =>
    obtain ⟨k, recs⟩ := e
    have hk : key < k := hB (k, recs) (List.mem_cons_self _ _)
    rw [BPlusTree.insertEntries, if_pos hk]

theorem insertEntries_hit (rec : Record) (key : Nat) (cur : List Record)
    (B : List (Nat × List Record)) :
    BPlusTree.insertEntries ((key, cur) :: B) rec key = (key, cur ++ [rec]) :: B := by
  rw [BPlusTree.insertEntries, if_neg (by omega), if_pos rfl]

theorem insertAll_records (key : Nat) :
    ∀ (recs cur : List Record) (A B : List (Nat × List Record)),
      (∀ e ∈ A, e.1 < key) →
      BPlusTree.insertAll ⟨A ++ (key, cur) :: B⟩ (recs.map (fun rc => (key, rc))) =
        ⟨A ++ (key, cur ++ recs) :: B⟩ := by
  intro recs
  induction recs with
  | nil => intro cur A B _; simp [BPlusTree.insertAll]
  | cons rc recs' ih =>
    intro cur A B hA
    rw [List.map_cons, insertAll_cons]
    have h1 : (BPlusTree.mk (A ++ (key, cur) :: B)).insert rc key =
        ⟨A ++ (key, cur ++ [rc]) :: B⟩ := by
      show BPlusTree.mk (BPlusTree.insertEntries (A ++ (key, cur) :: B) rc key) = _
      rw [insertEntries_append_of_lt rc key A _ hA, insertEntries_hit]
    rw [h1, ih (cur ++ [rc]) A B hA, List.append_assoc, List.singleton_append]

theorem insertAll_entry (key : Nat) :
    ∀ (recs : List Record) (A B : List (Nat × List Record)),
      recs ≠ [] → (∀ e ∈ A, e.1 < key) → (∀ e ∈ B, key < e.1) →
      BPlusTree.insertAll ⟨A ++ B⟩ (recs.map (fun rc => (key, rc))) =
        ⟨A ++ (key, recs) :: B⟩ := by
  intro recs A B hne hA hB
  cases recs with
  | nil => exact absurd rfl hne
  | cons rc recs' =>
    rw [List.map_cons, insertAll_cons]
    have h1 : (BPlusTree.mk (A ++ B)).insert rc key = ⟨A ++ (key, [rc]) :: B⟩ := by
      show BPlusTree.mk (BPlusTree.insertEntries (A ++ B) rc key) = _
      rw [insertEntries_append_of_lt rc key A _ hA, insertEntries_new rc key B hB]
    rw [h1, insertAll_records key recs' [rc] A B hA, List.singleton_append]

theorem insertAll_append (t : BPlusTree) (xs ys : List (Nat × Record)) :
    t.insertAll (xs ++ ys) = (t.insertAll xs).insertAll ys := by
  rw [BPlusTree.insertAll, BPlusTree.insertAll, BPlusTree.insertAll, List.foldl_append]

/-- Re-inserting, in snapshot order, every item of the entries selected
by `p` into the store holding exactly the unselected entries restores
the original store (stated with an arbitrary already-processed prefix
`pre` for the induction). -/
theorem insertAll_merge (p : Nat → Bool) :
    ∀ (es pre : List (Nat × List Record)),
      (((pre ++ es).map Prod.fst).Sorted (· < ·)) →
      (∀ e ∈ es, e.2 ≠ []) →
      BPlusTree.insertAll ⟨pre ++ es.filter (fun e => ! p e.1)⟩
        ((es.filter (fun e => p e.1)).flatMap entryItems) = ⟨pre ++ es⟩ := by
  intro es
  induction es with
  | nil => intro pre _ _; simp [BPlusTree.insertAll]
  | cons e rest ih =>
    intro pre hsorted hrecs
    obtain ⟨k, recs⟩ := e
    have hsorted' : (((pre ++ [(k, recs)]) ++ rest).map Prod.fst).Sorted (· < ·) := by
      rw [List.append_assoc, List.singleton_append]
      exact hsorted
    have hrecs' : ∀ e ∈ rest, e.2 ≠ [] := fun e he => hrecs e (List.mem_cons_of_mem _ he)
    have hpre_lt : ∀ e ∈ pre, e.1 < k := by
      intro e he
      rw [List.map_append, List.Sorted, List.pairwise_append] at hsorted
      exact hsorted.2.2 e.1 (List.mem_map_of_mem _ he) k
        (List.mem_map.mpr ⟨(k, recs), List.mem_cons_self _ _, rfl⟩)
    have hrest_gt : ∀ e ∈ rest, k < e.1 := by
      intro e he
      rw [List.map_append, List.Sorted, List.pairwise_append] at hsorted
      have := hsorted.2.1
      rw [List.map_cons, List.pairwise_cons] at this
      exact this.1 e.1 (List.mem_map_of_mem _ he)
    have hmid : ∀ X : List (Nat × List Record), pre ++ (k, recs) :: X =
        (pre ++ [(k, recs)]) ++ X := by
      intro X
      rw [List.append_assoc, List.singleton_append]
    by_cases hk : p k = true
    · have hf1 : List.filter (fun e => ! p e.1) ((k, recs) :: rest) =
          List.filter (fun e => ! p e.1) rest :=
        List.filter_cons_of_neg (by simp [hk])
      have hf2 : List.filter (fun e => p e.1) ((k, recs) :: rest) =
          (k, recs) :: List.filter (fun e => p e.1) rest :=
        List.filter_cons_of_pos (by simpa using hk)
      rw [hf1, hf2, List.flatMap_cons, insertAll_append]
      have hstep : BPlusTree.insertAll ⟨pre ++ rest.filter (fun e => ! p e.1)⟩
          (entryItems (k, recs)) = ⟨pre ++ (k, recs) :: rest.filter (fun e => ! p e.1)⟩ := by
        show BPlusTree.insertAll _ (recs.map (fun rc => (k, rc))) = _
        exact insertAll_entry k recs pre _ (hrecs (k, recs) (List.mem_cons_self _ _))
          hpre_lt (fun e he => hrest_gt e (List.mem_of_mem_filter he))
      rw [hstep, hmid, ih (pre ++ [(k, recs)]) hsorted' hrecs', List.append_assoc,
        List.singleton_append]
    · have hk' : p k = false := by simpa using hk
      have hf1 : List.filter (fun e => ! p e.1) ((k, recs) :: rest) =
          (k, recs) :: List.filter (fun e => ! p e.1) rest :=
        List.filter_cons_of_pos (by simp [hk'])
      have hf2 : List.filter (fun e => p e.1) ((k, recs) :: rest) =
          List.filter (fun e => p e.1) rest :=
        List.filter_cons_of_neg (by simp [hk'])
      rw [hf1, hf2, hmid, ih (pre ++ [(k, recs)]) hsorted' hrecs', List.append_assoc,
        List.singleton_append]

/-- Special case `pre = []`: the restore identity for a well-formed
store split by a key predicate. -/
theorem insertAll_restore (p : Nat → Bool) {es : List (Nat × List Record)}
    (hsorted : (es.map Prod.fst).Sorted (· < ·))
    (hrecs : ∀ e ∈ es, e.2 ≠ []) :
    BPlusTree.insertAll ⟨es.filter (fun e => ! p e.1)⟩
      ((es.filter (fun e => p e.1)).flatMap entryItems) = ⟨es⟩ := by
  have h := insertAll_merge p es [] (by simpa using hsorted) hrecs
  simpa using h

/-- Special case `p = true` on the empty store: inserting a sorted
snapshot into a fresh store materialises exactly its entries. -/
theorem insertAll_fresh {es : List (Nat × List Record)}
    (hsorted : (es.map Prod.fst).Sorted (· < ·))
    (hrecs : ∀ e ∈ es, e.2 ≠ []) :
    BPlusTree.insertAll BPlusTree.empty (es.flatMap entryItems) = ⟨es⟩ := by
  have h := insertAll_merge (fun _ => true) es [] (by simpa using hsorted) hrecs
  simpa [BPlusTree.empty] using h

/-- Filtering the snapshot by a key predicate is filtering the entries
by the same predicate. -/
theorem items_filter (q : Nat → Bool) :
    ∀ (es : List (Nat × List Record)),
      (es.flatMap entryItems).filter (fun it => q it.1) =
        (es.filter (fun e => q e.1)).flatMap entryItems := by
  intro es
  induction es with
  | nil => rfl
  | cons e rest ih =>
    obtain ⟨k, recs⟩ := e
    rw [List.flatMap_cons, List.filter_append, ih]
    by_cases hk : q k = true
    · rw [List.filter_cons_of_pos (by simpa using hk), List.flatMap_cons]
      congr 1
      show (recs.map (fun rc => (k, rc))).filter (fun it => q it.1) = _
      rw [List.filter_map]
      have hconst : ((fun it : Nat × Record => q it.1) ∘ fun rc : Record => (k, rc)) =
          fun _ => true := by
        funext rc
        simp [Function.comp, hk]
      rw [hconst, List.filter_true]
      rfl
    · have hk' : q k = false := by simpa using hk
      rw [List.filter_cons_of_neg (by simp [hk'])]
      have : (entryItems (k, recs)).filter (fun it => q it.1) = [] := by
        rw [List.filter_eq_nil]
        intro it hit
        obtain ⟨rc, _, hrc⟩ := List.mem_map.mp hit
        rw [← hrc]
        simp [hk']
      rw [this, List.nil_append]

/-- Iterated deletion keeps exactly the entries whose key is not in the
deleted list. -/
theorem deleteAll_filter :
    ∀ (ks : List Nat) (t : BPlusTree),
      t.deleteAll ks = ⟨t.entries.filter (fun e => decide (e.1 ∉ ks))⟩ := by
  intro ks
  induction ks with
  | nil => intro t; simp [deleteAll_nil]
  | cons k ks' ih =>
    intro t
    rw [deleteAll_cons, ih]
    show BPlusTree.mk ((t.entries.filter (fun e => e.1 != k)).filter
      (fun e => decide (e.1 ∉ ks'))) = _
    rw [List.filter_filter]
    congr 1
    apply List.filter_congr
    intro e _
    by_cases h1 : e.1 = k
    · simp [h1]
    · by_cases h2 : e.1 ∈ ks' <;> simp [h1, h2]

/-- For a store with no empty record lists, the keys occurring in the
selected part of the snapshot are exactly the keys selected by the
predicate. -/
theorem filter_not_mem_keys (p : Nat → Bool) {es : List (Nat × List Record)}
    (hrecs : ∀ e ∈ es, e.2 ≠ []) :
    es.filter (fun e => decide
        (e.1 ∉ ((es.filter (fun e => p e.1)).flatMap entryItems).map Prod.fst)) =
      es.filter (fun e => ! p e.1) := by
  apply List.filter_congr
  intro e he
  have hiff : e.1 ∈ ((es.filter (fun e => p e.1)).flatMap entryItems).map Prod.fst ↔
      p e.1 = true := by
    constructor
    · intro hm
      obtain ⟨it, hit, hkey⟩ := List.mem_map.mp hm
      obtain ⟨e', he', hit'⟩ := List.mem_flatMap.mp hit
      obtain ⟨rc, _, hrc⟩ := List.mem_map.mp hit'
      have hk' : it.1 = e'.1 := by rw [← hrc]
      have hpe' : p e'.1 = true := by
        have h0 := List.of_mem_filter he'
        simpa using h0
      rw [← hkey, hk']
      exact hpe'
    · intro hp
      obtain ⟨rc, hrc⟩ := List.exists_mem_of_ne_nil _ (hrecs e he)
      refine List.mem_map.mpr ⟨(e.1, rc), ?_, rfl⟩
      exact List.mem_flatMap.mpr ⟨e, List.mem_filter.mpr ⟨he, hp⟩,
        List.mem_map.mpr ⟨rc, hrc, rfl⟩⟩
  by_cases hp : p e.1 = true
  · simp [hp, hiff.mpr hp]
  · have : e.1 ∉ ((es.filter (fun e => p e.1)).flatMap entryItems).map Prod.fst :=
      fun hm => hp (hiff.mp hm)
    simp [this, hp]

/-- Two store-only in-place mutations of distinct nodes, as one map
over the node list. -/
theorem modify_modify_nodes {a b : Ref} (hab : a ≠ b) (r : ChordRing)
    (f g : ChordNode → ChordNode) (hf : ∀ nd, (f nd).ref = nd.ref) :
    (modify_node (modify_node r a f) b g).nodes =
      r.nodes.map (fun nd =>
        if nd.ref = a then f nd else if nd.ref = b then g nd else nd) := by
  rw [modify_node_nodes, modify_node_nodes, List.map_map]
  apply List.map_congr_left
  intro nd _
  by_cases h1 : nd.ref = a
  · have h2 : (f nd).ref ≠ b := by rw [hf nd, h1]; exact hab
    simp [Function.comp, h1, h2]
  · by_cases h2 : nd.ref = b <;> simp [Function.comp, h1, h2, Ne.symm hab]

/-- Net effect of the `_redistribute_keys` loop on the ring: the items
of the snapshot selected by the interval are inserted, in order, into
the new node's store, and their keys are deleted from the successor's
store; no other node changes. -/
theorem redistribute_fold_effect {pid nid : Nat} {nref sref : Ref} (hns : nref ≠ sref) :
    ∀ (items : List (Nat × Record)) (hops moved : Nat) (r : ChordRing)
      (res : Nat × Nat) (r' : ChordRing),
      redistribute_fold pid nid nref sref items hops moved r = .ok (res, r') →
      r'.nodes = r.nodes.map (fun nd =>
        if nd.ref = nref then
          { nd with btree := (nd.btree.insertAll
              (items.filter (fun it => in_interval it.1 pid nid))) }
        else if nd.ref = sref then
          { nd with btree := (nd.btree.deleteAll
              ((items.filter (fun it => in_interval it.1 pid nid)).map Prod.fst)) }
        else nd) := by
  intro items
  induction items with
  | nil =>
    intro hops moved r res r' h
    rw [redistribute_fold] at h
    simp only [Except.ok.injEq, Prod.mk.injEq] at h
    rw [← h.2]
    symm
    have hid : ∀ nd ∈ r.nodes,
        (if nd.ref = nref then
          { nd with btree := (nd.btree.insertAll
              (List.filter (fun it => in_interval it.1 pid nid) ([] : List (Nat × Record)))) }
        else if nd.ref = sref then
          { nd with btree := (nd.btree.deleteAll
              ((List.filter (fun it => in_interval it.1 pid nid)
                ([] : List (Nat × Record))).map Prod.fst)) }
        else nd) = nd := by
      intro nd _
      by_cases h1 : nd.ref = nref
      · rw [if_pos h1]
        rfl
      · rw [if_neg h1]
        by_cases h2 : nd.ref = sref
        · rw [if_pos h2]
          rfl
        · rw [if_neg h2]
    exact (List.map_congr_left hid).trans (List.map_id' _)
  | cons item rest ih =>
    intro hops moved r res r' h
    obtain ⟨key, rec⟩ := item
    rw [redistribute_fold] at h
    split at h
    next hin =>
      split at h
      · simp at h
      next w hw =>
        have hrec := ih _ _ _ _ _ h
        rw [hrec, modify_modify_nodes hns r
          (fun nd => { nd with btree := nd.btree.insert rec key })
          (fun nd => { nd with btree := nd.btree.delete key })
          (fun nd => rfl), List.map_map]
        rw [List.filter_cons_of_pos (by simpa using hin)]
        apply List.map_congr_left
        intro nd _
        by_cases h1 : nd.ref = nref
        · have h1b : nd.ref ≠ sref := by rw [h1]; exact hns
          simp [Function.comp, h1, h1b, hns, insertAll_cons]
        · by_cases h2 : nd.ref = sref
          · simp [Function.comp, h1, h2, Ne.symm hns, List.map_cons, deleteAll_cons]
          · simp [Function.comp, h1, h2]
    next hin =>
      rw [List.filter_cons_of_neg (by simpa using hin)]
      exact ih _ _ _ _ _ h

/-- Net effect of the `leave_node` loop on the ring: every item of the
leaving node's snapshot is inserted, in order, into the store of the
node its successor link names; no other node changes. -/
theorem leave_fold_effect {nref0 sref : Ref} :
    ∀ (items : List (Nat × Record)) (hops moved : Nat) (r : ChordRing)
      (res : Nat × Nat) (r' : ChordRing),
      leave_fold nref0 (some sref) items hops moved r = .ok (res, r') →
      r'.nodes = r.nodes.map (fun nd =>
        if nd.ref = sref then { nd with btree := nd.btree.insertAll items } else nd) := by
  intro items
  induction items with
  | nil =>
    intro hops moved r res r' h
    rw [leave_fold] at h
    simp only [Except.ok.injEq, Prod.mk.injEq] at h
    rw [← h.2]
    symm
    have hid : ∀ nd ∈ r.nodes,
        (if nd.ref = sref then { nd with btree := nd.btree.insertAll [] } else nd) = nd := by
      intro nd _
      by_cases h1 : nd.ref = sref
      · rw [if_pos h1]
        rfl
      · rw [if_neg h1]
    exact (List.map_congr_left hid).trans (List.map_id' _)
  | cons item rest ih =>
    intro hops moved r res r' h
    obtain ⟨key, rec⟩ := item
    rw [leave_fold] at h
    split at h
    · simp at h
    · have hrec := ih _ _ _ _ _ h
      rw [hrec, modify_node_nodes, List.map_map]
      apply List.map_congr_left
      intro nd _
      by_cases h1 : nd.ref = sref
      · simp only [Function.comp, h1, if_pos]
        rw [insertAll_cons]
      · simp [Function.comp, h1]

/-! ## The position of a freshly joined node in the sorted list -/

/-- Strict ordering of nodes by id. -/
def nodeLT (a b : ChordNode) : Prop := a.node_id < b.node_id

instance : IsAntisymm ChordNode nodeLT :=
  ⟨fun _ _ h1 h2 => absurd h2 (Nat.lt_asymm h1)⟩

/-- Node lists with pairwise distinct, strictly ascending ids are equal
once they are permutations of each other. -/
theorem sorted_nodes_eq_of_perm {ns ms : List ChordNode} (hp : List.Perm ns ms)
    (h1 : (ns.map ChordNode.node_id).Sorted (· < ·))
    (h2 : (ms.map ChordNode.node_id).Sorted (· < ·)) : ns = ms := by
  have s1 : ns.Sorted nodeLT := by
    rw [List.Sorted, List.pairwise_map] at h1
    exact h1
  have s2 : ms.Sorted nodeLT := by
    rw [List.Sorted, List.pairwise_map] at h2
    exact h2
  exact List.eq_of_perm_of_sorted hp s1 s2

/-- A strictly sorted node list avoiding the id `id` splits at the
position where `id` would sit. -/
theorem sorted_split_at_id (id : Nat) :
    ∀ (ns : List ChordNode), ((ns.map ChordNode.node_id).Sorted (· < ·)) →
      (∀ nd ∈ ns, nd.node_id ≠ id) →
      ∃ A B, ns = A ++ B ∧ (∀ nd ∈ A, nd.node_id < id) ∧
        (∀ nd ∈ B, id < nd.node_id) := by
  intro ns
  induction ns with
  | nil => intro _ _; exact ⟨[], [], rfl, by simp, by simp⟩
  | cons a tl ih =>
    intro hs hne
    have hs' : ((tl.map ChordNode.node_id).Sorted (· < ·)) := by
      rw [List.map_cons] at hs
      exact hs.of_cons
    by_cases ha : a.node_id < id
    · obtain ⟨A, B, hab, hA, hB⟩ := ih hs' (fun nd h => hne nd (List.mem_cons_of_mem _ h))
      refine ⟨a :: A, B, by rw [List.cons_append, hab], ?_, hB⟩
      intro nd h
      rcases List.mem_cons.mp h with rfl | h
      · exact ha
      · exact hA nd h
    · have ha2 : id < a.node_id := by
        have := hne a (List.mem_cons_self _ _)
        omega
      refine ⟨[], a :: tl, rfl, by simp, ?_⟩
      intro nd h
      rcases List.mem_cons.mp h with rfl | h
      · exact ha2
      · have hlt : a.node_id < nd.node_id := by
          rw [List.map_cons] at hs
          exact List.rel_of_sorted_cons hs nd.node_id (List.mem_map_of_mem _ h)
        omega

/-- Where the sorted insert of `join_node` puts the fresh node: the
node list splits as `A ++ B` around the new id, and the inserted list
is exactly `A ++ new :: B`. -/
theorem join_inserted_decomp {r : ChordRing} (hwf : WF r) {id : Nat}
    (hfresh : id ∉ ringIds r) :
    ∃ A B, r.nodes = A ++ B ∧
      (join_inserted r id).nodes = A ++ mkChordNode r.nextRef id r.m :: B ∧
      (∀ nd ∈ A, nd.node_id < id) ∧ (∀ nd ∈ B, id < nd.node_id) := by
  have hne : ∀ nd ∈ r.nodes, nd.node_id ≠ id := by
    intro nd h heq
    exact hfresh (heq ▸ List.mem_map_of_mem _ h)
  obtain ⟨A, B, hab, hA, hB⟩ := sorted_split_at_id id r.nodes hwf.sorted hne
  refine ⟨A, B, hab, ?_, hA, hB⟩
  have hperm : List.Perm (join_inserted r id).nodes
      (A ++ mkChordNode r.nextRef id r.m :: B) := by
    have h1 : List.Perm (join_inserted r id).nodes
        (r.nodes ++ [mkChordNode r.nextRef id r.m]) := sort_nodes_perm _
    rw [hab, List.append_assoc] at h1
    exact h1.trans (List.Perm.append_left A (List.perm_append_singleton _ _))
  apply sorted_nodes_eq_of_perm hperm (join_inserted_sorted hwf hfresh)
  have hsortedAB : ((A ++ B).map ChordNode.node_id).Sorted (· < ·) := by
    rw [← hab]
    exact hwf.sorted
  rw [List.map_append, List.Sorted, List.pairwise_append] at hsortedAB
  rw [List.map_append, List.Sorted, List.pairwise_append]
  refine ⟨hsortedAB.1, ?_, ?_⟩
  · rw [List.map_cons, List.pairwise_cons]
    exact ⟨fun b hb => by
      obtain ⟨nd, hnd, hndeq⟩ := List.mem_map.mp hb
      exact hndeq ▸ hB nd hnd, hsortedAB.2.1⟩
  · intro x hx y hy
    obtain ⟨nd, hnd, hndeq⟩ := List.mem_map.mp hx
    rw [List.map_cons, List.mem_cons] at hy
    rcases hy with rfl | hy
    · exact hndeq ▸ hA nd hnd
    · exact hsortedAB.2.2 x hx y hy

/-- Removing the first node carrying `ref` from a list whose earlier
nodes do not carry it drops exactly that node. -/
theorem remove_first_node_append {X : List ChordNode} {nd : ChordNode} {ref : Ref}
    (hX : ∀ x ∈ X, x.ref ≠ ref) (hnd : nd.ref = ref) :
    ∀ Y, remove_first_node (X ++ nd :: Y) ref = X ++ Y := by
  induction X with
  | nil => intro Y; rw [List.nil_append, remove_first_node, if_pos hnd, List.nil_append]
  | cons x X' ih =>
    intro Y
    rw [List.cons_append, remove_first_node,
      if_neg (hX x (List.mem_cons_self _ _)),
      ih (fun y hy => hX y (List.mem_cons_of_mem _ hy)) Y, List.cons_append]

theorem length_middle {α : Type _} (A : List α) (mk : α) (B : List α) :
    (A ++ mk :: B).length = A.length + B.length + 1 := by
  rw [List.length_append, List.length_cons]
  omega

theorem getElem_middle_mk {α : Type _} (A : List α) (mk : α) (B : List α)
    (h : A.length < (A ++ mk :: B).length) :
    (A ++ mk :: B)[A.length] = mk := by
  rw [List.getElem_append_right (Nat.le_refl _)]
  simp

theorem getElem_middle_right {α : Type _} {A : List α} (mk : α) {B : List α}
    {i : Nat} (hgt : A.length < i) (h : i < (A ++ mk :: B).length)
    (hj : i - A.length - 1 < B.length) :
    (A ++ mk :: B)[i] = B[i - A.length - 1] := by
  rw [List.getElem_append_right (Nat.le_of_lt hgt)]
  obtain ⟨k, hk⟩ : ∃ k, i - A.length = k + 1 := ⟨i - A.length - 1, by omega⟩
  have hk2 : i - A.length - 1 = k := by omega
  simp only [hk, hk2, List.getElem_cons_succ]
  simp

theorem middle_get_mem {α : Type _} {A : List α} {mk : α} {B : List α} {i : Nat}
    (hi : i < (A ++ mk :: B).length) (hne : i ≠ A.length) :
    (A ++ mk :: B)[i] ∈ A ++ B := by
  by_cases hlt : i < A.length
  · rw [List.getElem_append_left hlt]
    exact List.mem_append.mpr (Or.inl (List.getElem_mem _))
  · have hgt : A.length < i := by omega
    have hj : i - A.length - 1 < B.length := by
      rw [length_middle] at hi
      omega
    rw [getElem_middle_right mk hgt hi hj]
    exact List.mem_append.mpr (Or.inr (List.getElem_mem _))

theorem remove_first_node_take_drop :
    ∀ (l : List ChordNode) (k : Nat) (ref : Ref) (hk : k < l.length),
      (∀ i (hi : i < k), (l.get ⟨i, Nat.lt_trans hi hk⟩).ref ≠ ref) →
      (l.get ⟨k, hk⟩).ref = ref →
      remove_first_node l ref = l.take k ++ l.drop (k + 1) := by
  intro l
  induction l with
  | nil =>
    intro k ref hk
    exact absurd hk (Nat.not_lt_zero k)
  | cons nd rest ih =>
    intro k ref hk hbefore hat
    cases k with
    | zero =>
      have hat0 : nd.ref = ref := hat
      rw [remove_first_node, if_pos hat0]
      simp
    | succ q =>
      have hnd : nd.ref ≠ ref := hbefore 0 (Nat.succ_pos q)
      have hq : q < rest.length := by simpa using hk
      rw [remove_first_node, if_neg hnd,
        ih q ref hq (fun i hi => hbefore (i + 1) (by omega)) hat]
      rfl

theorem find?_id_at_middle (id : Nat) :
    ∀ (I1 : List Nat) (ns : List ChordNode) (I2 : List Nat) (leav : ChordNode),
      ns.map ChordNode.node_id = I1 ++ id :: I2 →
      (∀ x ∈ I1, x ≠ id) →
      ns[I1.length]? = some leav →
      ns.find? (fun nd => nd.node_id == id) = some leav := by
  intro I1
  induction I1 with
  | nil =>
    intro ns I2 leav hids hI1 hget
    cases ns with
    | nil => simp at hget
    | cons a tl =>
      rw [List.map_cons, List.nil_append] at hids
      have ha : a.node_id = id := (List.cons.injEq _ _ _ _).mp hids |>.1
      have hleav : a = leav := by simpa using hget
      rw [List.find?_cons_of_pos _ (by simp [ha]), hleav]
  | cons x I1' ih =>
    intro ns I2 leav hids hI1 hget
    cases ns with
    | nil => simp at hids
    | cons a tl =>
      rw [List.map_cons, List.cons_append] at hids
      obtain ⟨hax, htl⟩ := (List.cons.injEq _ _ _ _).mp hids
      have hane : a.node_id ≠ id := hax ▸ hI1 x (List.mem_cons_self _ _)
      rw [List.find?_cons_of_neg _ (by simp [hane])]
      exact ih tl I2 leav htl (fun y hy => hI1 y (List.mem_cons_of_mem _ hy))
        (by simpa using hget)

theorem get_index_congr {α : Type _} (l : List α) {i j : Nat} (h : i = j)
    (hi : i < l.length) (hj : j < l.length) :
    l.get ⟨i, hi⟩ = l.get ⟨j, hj⟩ := by
  subst h
  rfl

/-- What a successful `join_node` with a fresh id leaves behind, on a
maintained ring with at least two nodes and well-formed stores: the old
node list splits as `A ++ B` around the new id; the resulting ring has
the old nodes (the successor's store with the redistributed entries
removed) around a new node at position `|A|` holding exactly those
entries, with its successor link naming the node the entries came from —
so re-inserting the new node's whole snapshot into that successor
restores all original node cores. -/
theorem join_phase {r : ChordRing} (hwf : WF r) (hlen2 : 2 ≤ r.nodes.length)
    {id : Nat} (hfresh : id ∉ ringIds r)
    (hstores : ∀ nd ∈ r.nodes, BPlusTree.WFStore nd.btree)
    {start : Option Ref} {res1 : Ref × Nat × Nat} {r1 : ChordRing}
    (h1 : join_node r id start = .ok (res1, r1)) :
    ∃ (A B : List ChordNode) (leav : ChordNode) (sref : Ref),
      r.nodes = A ++ B ∧
      r1.m = r.m ∧
      r1.nodes.map ChordNode.node_id =
        A.map ChordNode.node_id ++ id :: B.map ChordNode.node_id ∧
      r1.nodes.map ChordNode.ref =
        A.map ChordNode.ref ++ r.nextRef :: B.map ChordNode.ref ∧
      r1.nodes[A.length]? = some leav ∧
      leav.ref = r.nextRef ∧ leav.node_id = id ∧ leav.successor = some sref ∧
      (∀ nd ∈ A, nd.node_id < id) ∧
      (∀ nd ∈ A, nd.ref ≠ r.nextRef) ∧
      r.nextRef ≠ sref ∧
      ((r1.nodes.map (fun nd =>
          if nd.ref = sref then
            { nd with btree := (nd.btree.insertAll leav.btree.get_all_items) }
          else nd)).map node_core) =
        A.map node_core ++ (r.nextRef, id, leav.btree) :: B.map node_core := by
  obtain ⟨A, B, hab, hJ, hA, hB⟩ := join_inserted_decomp hwf hfresh
  have hJlen : (join_inserted r id).nodes.length = A.length + B.length + 1 := by
    rw [hJ]
    exact length_middle A _ B
  have hABlen : A.length + B.length = r.nodes.length := by
    have h0 := congrArg List.length hab
    simp at h0
    omega
  have hilt : A.length < (join_inserted r id).nodes.length := by omega
  have hilt' : A.length < (update_links_list (join_inserted r id).nodes).length := by
    rw [length_update_links_list]
    exact hilt
  have hmkget : (join_inserted r id).nodes.get ⟨A.length, hilt⟩ =
      mkChordNode r.nextRef id r.m := by
    have h0 := List.get_of_eq hJ (⟨A.length, hilt⟩ : Fin _)
    rw [h0]
    exact getElem_middle_mk A _ B (by rw [← hJ]; exact hilt)
  have hnewnd := update_links_list_get (join_inserted r id).nodes A.length hilt hilt'
  -- successor and predecessor indices of the new node
  have hspos : (A.length + 1) % (join_inserted r id).nodes.length <
      (join_inserted r id).nodes.length := Nat.mod_lt _ (by omega)
  have hppos : (A.length + (join_inserted r id).nodes.length - 1) %
      (join_inserted r id).nodes.length < (join_inserted r id).nodes.length :=
    Nat.mod_lt _ (by omega)
  have hspos' : (A.length + 1) % (join_inserted r id).nodes.length <
      (update_links_list (join_inserted r id).nodes).length := by
    rw [length_update_links_list]
    exact hspos
  have hppos' : (A.length + (join_inserted r id).nodes.length - 1) %
      (join_inserted r id).nodes.length <
      (update_links_list (join_inserted r id).nodes).length := by
    rw [length_update_links_list]
    exact hppos
  have hsnd := update_links_list_get (join_inserted r id).nodes _ hspos hspos'
  have hpnd := update_links_list_get (join_inserted r id).nodes _ hppos hppos'
  have hsucc_eq : ((update_links_list (join_inserted r id).nodes).get
      ⟨A.length, hilt'⟩).successor =
      some (((join_inserted r id).nodes.get ⟨_, hspos⟩).ref) := by
    rw [hnewnd]
    show ((join_inserted r id).nodes[(A.length + 1) %
      (join_inserted r id).nodes.length]?).map ChordNode.ref = _
    rw [List.getElem?_eq_getElem hspos]
    rfl
  have hpred_eq : ((update_links_list (join_inserted r id).nodes).get
      ⟨A.length, hilt'⟩).predecessor =
      some (((join_inserted r id).nodes.get ⟨_, hppos⟩).ref) := by
    rw [hnewnd]
    show ((join_inserted r id).nodes[(A.length + (join_inserted r id).nodes.length - 1) %
      (join_inserted r id).nodes.length]?).map ChordNode.ref = _
    rw [List.getElem?_eq_getElem hppos]
    rfl
  have hnodupJ : (ringRefs (join_inserted r id)).Nodup := join_inserted_refs_nodup hwf id
  have hnodupU : (ringRefs (update_links (join_inserted r id))).Nodup := by
    show ((update_links_list (join_inserted r id).nodes).map ChordNode.ref).Nodup
    rw [refs_update_links]
    exact hnodupJ
  have hrefinj : ∀ (i j : Nat) (hi : i < (join_inserted r id).nodes.length)
      (hj : j < (join_inserted r id).nodes.length),
      ((join_inserted r id).nodes.get ⟨i, hi⟩).ref =
        ((join_inserted r id).nodes.get ⟨j, hj⟩).ref → i = j := by
    intro i j hi hj heq
    have h1 : ((join_inserted r id).nodes.map ChordNode.ref).get ⟨i, by simpa using hi⟩ =
        ((join_inserted r id).nodes.map ChordNode.ref).get ⟨j, by simpa using hj⟩ := by
      rw [List.get_map, List.get_map]
      exact heq
    have h2 := (hnodupJ.get_inj_iff).mp h1
    simpa using h2
  have hisne : (A.length + 1) % (join_inserted r id).nodes.length ≠ A.length := by
    rw [hJlen]
    rcases Nat.lt_or_ge (A.length + 1) (A.length + B.length + 1) with hlt | hge
    · rw [Nat.mod_eq_of_lt hlt]
      omega
    · have hBz : A.length + 1 = A.length + B.length + 1 := by omega
      rw [hBz, Nat.mod_self]
      omega
  -- the node handles resolved during redistribute
  have hrefnew : ((update_links_list (join_inserted r id).nodes).get
      ⟨A.length, hilt'⟩).ref = r.nextRef := by
    rw [hnewnd]
    show ((join_inserted r id).nodes.get ⟨A.length, hilt⟩).ref = r.nextRef
    rw [hmkget]
    rfl
  have hgetnew : getNode (update_links (join_inserted r id)) r.nextRef =
      some ((update_links_list (join_inserted r id).nodes).get ⟨A.length, hilt'⟩) := by
    have h0 := getNode_of_mem hnodupU
      (List.get_mem (update_links_list (join_inserted r id).nodes) A.length hilt')
    rw [hrefnew] at h0
    exact h0
  have hrefsnd : ((update_links_list (join_inserted r id).nodes).get ⟨_, hspos'⟩).ref =
      ((join_inserted r id).nodes.get ⟨_, hspos⟩).ref := by
    rw [hsnd]
  have hgets : getNode (update_links (join_inserted r id))
      (((join_inserted r id).nodes.get ⟨_, hspos⟩).ref) =
      some ((update_links_list (join_inserted r id).nodes).get ⟨_, hspos'⟩) := by
    have h0 := getNode_of_mem hnodupU
      (List.get_mem (update_links_list (join_inserted r id).nodes) _ hspos')
    rw [hrefsnd] at h0
    exact h0
  have hrefpnd : ((update_links_list (join_inserted r id).nodes).get ⟨_, hppos'⟩).ref =
      ((join_inserted r id).nodes.get ⟨_, hppos⟩).ref := by
    rw [hpnd]
  have hgetp : getNode (update_links (join_inserted r id))
      (((join_inserted r id).nodes.get ⟨_, hppos⟩).ref) =
      some ((update_links_list (join_inserted r id).nodes).get ⟨_, hppos'⟩) := by
    have h0 := getNode_of_mem hnodupU
      (List.get_mem (update_links_list (join_inserted r id).nodes) _ hppos')
    rw [hrefpnd] at h0
    exact h0
  have hrefne : ((join_inserted r id).nodes.get ⟨_, hspos⟩).ref ≠ r.nextRef := by
    intro heq
    apply hisne
    apply hrefinj _ _ hspos hilt
    rw [heq]
    show _ = ((join_inserted r id).nodes.get ⟨A.length, hilt⟩).ref
    rw [hmkget]
    rfl
  have hns : r.nextRef ≠ ((join_inserted r id).nodes.get ⟨_, hspos⟩).ref :=
    fun h0 => hrefne h0.symm
  -- invert the join
  rw [join_node] at h1
  split at h1
  · simp at h1
  next jh hloc =>
    simp only [join_rest] at h1
    split at h1
    next hle =>
      have hl0 : (update_links_list (join_inserted r id).nodes).length ≤ 1 := hle
      rw [length_update_links_list, hJlen] at hl0
      omega
    next hle =>
      split at h1
      · simp at h1
      next mh mc r3 hred =>
        simp only [Except.ok.injEq, Prod.mk.injEq] at h1
        have hr1 : r1 = fix_all_fingers r3 := h1.2.symm
        -- reduce redistribute_keys to the fold
        rw [redistribute_keys] at hred
        rw [hgetnew] at hred
        simp only [hsucc_eq, hpred_eq, hgets, hgetp] at hred
        have hnid : ((update_links_list (join_inserted r id).nodes).get
            ⟨A.length, hilt'⟩).node_id = id := by
          rw [hnewnd]
          show ((join_inserted r id).nodes.get ⟨A.length, hilt⟩).node_id = id
          rw [hmkget]
          rfl
        rw [hnid] at hred
        have hsbt : ((update_links_list (join_inserted r id).nodes).get ⟨_, hspos'⟩).btree =
            ((join_inserted r id).nodes.get ⟨_, hspos⟩).btree := by
          rw [hsnd]
        rw [hsbt] at hred
        have hr3nodes := redistribute_fold_effect hns _ _ _ _ _ _ hred
        have hr3shape := redistribute_fold_shape _ _ _ _ _ _ hred
        have hr1nodes : r1.nodes = r3.nodes.map
            (fun nd => { nd with finger := init_finger_list r3 nd.node_id }) := by
          rw [hr1]
          rfl
        have hm : r1.m = r.m := by
          rw [hr1]
          show r3.m = r.m
          rw [hr3shape.1]
          rfl
        have hids : r1.nodes.map ChordNode.node_id =
            A.map ChordNode.node_id ++ id :: B.map ChordNode.node_id := by
          have h0 : r1.nodes.map ChordNode.node_id = r3.nodes.map ChordNode.node_id := by
            rw [hr1]
            exact ids_fix r3
          rw [h0, hr3shape.2.2.1]
          exact (ids_update (join_inserted r id)).trans (by rw [hJ]; simp [mkChordNode])
        have hrefs : r1.nodes.map ChordNode.ref =
            A.map ChordNode.ref ++ r.nextRef :: B.map ChordNode.ref := by
          have h0 : r1.nodes.map ChordNode.ref = r3.nodes.map ChordNode.ref := by
            rw [hr1]
            exact refs_eq_of_core (node_core_fix r3)
          rw [h0, hr3shape.2.2.2]
          exact (refs_update_links (join_inserted r id).nodes).trans
            (by rw [hJ]; simp [mkChordNode])
        have hArefs : ∀ nd ∈ A, nd.ref ≠ r.nextRef := by
          intro nd hnd
          have hmem : nd ∈ r.nodes := by
            rw [hab]
            exact List.mem_append.mpr (Or.inl hnd)
          exact Nat.ne_of_lt (hwf.refs_lt nd hmem)
        have hUlenbt : ((update_links_list (join_inserted r id).nodes).get
            ⟨A.length, hilt'⟩).btree = BPlusTree.empty := by
          rw [hnewnd]
          show ((join_inserted r id).nodes.get ⟨A.length, hilt⟩).btree = _
          rw [hmkget]
          rfl
        have hmem_is : (join_inserted r id).nodes.get ⟨_, hspos⟩ ∈ r.nodes := by
          have h0 := List.get_of_eq hJ (⟨_, hspos⟩ : Fin _)
          rw [h0, hab]
          exact middle_get_mem (by rw [← hJ]; exact hspos) hisne
        have hwfsb := hstores _ hmem_is
        have hsorted_ins : ((((join_inserted r id).nodes.get ⟨_, hspos⟩).btree.entries.filter
            (fun e => in_interval e.1 (((update_links_list (join_inserted r id).nodes).get
              ⟨_, hppos'⟩).node_id) id)).map Prod.fst).Sorted (· < ·) :=
          List.Pairwise.sublist ((List.filter_sublist _).map _) hwfsb.1
        have hrecs_ins : ∀ e ∈ (((join_inserted r id).nodes.get ⟨_, hspos⟩).btree.entries.filter
            (fun e => in_interval e.1 (((update_links_list (join_inserted r id).nodes).get
              ⟨_, hppos'⟩).node_id) id)), e.2 ≠ [] :=
          fun e he => hwfsb.2 e (List.mem_of_mem_filter he)
        have hmoved : (((join_inserted r id).nodes.get ⟨_, hspos⟩).btree.get_all_items.filter
            (fun it => in_interval it.1 (((update_links_list (join_inserted r id).nodes).get
              ⟨_, hppos'⟩).node_id) id)) =
            (((join_inserted r id).nodes.get ⟨_, hspos⟩).btree.entries.filter
              (fun e => in_interval e.1 (((update_links_list (join_inserted r id).nodes).get
                ⟨_, hppos'⟩).node_id) id)).flatMap entryItems := by
          rw [get_all_items_eq]
          exact items_filter (fun k => in_interval k
            (((update_links_list (join_inserted r id).nodes).get
              ⟨_, hppos'⟩).node_id) id) _
        have hnewstore : BPlusTree.empty.insertAll
            (((join_inserted r id).nodes.get ⟨_, hspos⟩).btree.get_all_items.filter
              (fun it => in_interval it.1 (((update_links_list (join_inserted r id).nodes).get
                ⟨_, hppos'⟩).node_id) id)) =
            BPlusTree.mk (((join_inserted r id).nodes.get ⟨_, hspos⟩).btree.entries.filter
              (fun e => in_interval e.1 (((update_links_list (join_inserted r id).nodes).get
                ⟨_, hppos'⟩).node_id) id)) := by
          rw [hmoved]
          exact insertAll_fresh hsorted_ins hrecs_ins
        have hrestore : ((((join_inserted r id).nodes.get ⟨_, hspos⟩).btree.deleteAll
            ((((join_inserted r id).nodes.get ⟨_, hspos⟩).btree.get_all_items.filter
              (fun it => in_interval it.1 (((update_links_list (join_inserted r id).nodes).get
                ⟨_, hppos'⟩).node_id) id)).map Prod.fst)).insertAll
            ((((join_inserted r id).nodes.get ⟨_, hspos⟩).btree.entries.filter
              (fun e => in_interval e.1 (((update_links_list (join_inserted r id).nodes).get
                ⟨_, hppos'⟩).node_id) id)).flatMap entryItems)) =
            ((join_inserted r id).nodes.get ⟨_, hspos⟩).btree := by
          rw [deleteAll_filter, hmoved,
            filter_not_mem_keys (fun k => in_interval k
              (((update_links_list (join_inserted r id).nodes).get
                ⟨_, hppos'⟩).node_id) id) hwfsb.2]
          exact insertAll_restore (fun k => in_interval k
            (((update_links_list (join_inserted r id).nodes).get
              ⟨_, hppos'⟩).node_id) id) hwfsb.1 hwfsb.2
        have hUget : (update_links (join_inserted r id)).nodes[A.length]? =
            some ((update_links_list (join_inserted r id).nodes).get ⟨A.length, hilt'⟩) :=
          List.getElem?_eq_getElem hilt'
        have hr3get : r3.nodes[A.length]? = some
            { ((update_links_list (join_inserted r id).nodes).get ⟨A.length, hilt'⟩) with
              btree := ((((update_links_list (join_inserted r id).nodes).get
                  ⟨A.length, hilt'⟩).btree.insertAll
                ((((join_inserted r id).nodes.get ⟨_, hspos⟩).btree.get_all_items).filter
                  (fun it => in_interval it.1 (((update_links_list
                    (join_inserted r id).nodes).get ⟨_, hppos'⟩).node_id) id)))) } := by
          rw [hr3nodes, List.getElem?_map, hUget, Option.map_some']
          rw [if_pos hrefnew]
        obtain ⟨leav, hleav, hlref, hlid, hlsucc, hlbt⟩ :
            ∃ leav, r1.nodes[A.length]? = some leav ∧ leav.ref = r.nextRef ∧
              leav.node_id = id ∧
              leav.successor = some (((join_inserted r id).nodes.get ⟨_, hspos⟩).ref) ∧
              leav.btree = BPlusTree.mk
                (((join_inserted r id).nodes.get ⟨_, hspos⟩).btree.entries.filter
                  (fun e => in_interval e.1 (((update_links_list
                    (join_inserted r id).nodes).get ⟨_, hppos'⟩).node_id) id)) := by
          refine ⟨{ ({ ((update_links_list (join_inserted r id).nodes).get
                ⟨A.length, hilt'⟩) with
              btree := ((((update_links_list (join_inserted r id).nodes).get
                  ⟨A.length, hilt'⟩).btree.insertAll
                ((((join_inserted r id).nodes.get ⟨_, hspos⟩).btree.get_all_items).filter
                  (fun it => in_interval it.1 (((update_links_list
                    (join_inserted r id).nodes).get ⟨_, hppos'⟩).node_id) id)))) } :
              ChordNode) with
            finger := init_finger_list r3 (((update_links_list
              (join_inserted r id).nodes).get ⟨A.length, hilt'⟩).node_id) },
            ?_, ?_, ?_, ?_, ?_⟩
          · rw [hr1nodes, List.getElem?_map, hr3get, Option.map_some']
          · exact hrefnew
          · exact hnid
          · exact hsucc_eq
          · show ((update_links_list (join_inserted r id).nodes).get
                ⟨A.length, hilt'⟩).btree.insertAll _ = _
            rw [hUlenbt]
            exact hnewstore
        refine ⟨A, B, leav, _, hab, hm, hids, hrefs, hleav, hlref, hlid, hlsucc,
          hA, hArefs, hns, ?_⟩
        rw [hr1nodes, hr3nodes,
          show (update_links (join_inserted r id)).nodes =
            update_links_list (join_inserted r id).nodes from rfl,
          List.map_map, List.map_map, List.map_map]
        apply List.ext_get
        · rw [List.length_map, length_update_links_list, hJlen, List.length_append,
            List.length_map, List.length_cons, List.length_map]
          omega
        intro i h1i h2i
        have hiU : i < (update_links_list (join_inserted r id).nodes).length := by
          simpa using h1i
        have hiJ : i < (join_inserted r id).nodes.length := by
          rw [← length_update_links_list (join_inserted r id).nodes]
          exact hiU
        rw [List.get_map]
        simp only [Function.comp]
        rw [update_links_list_get (join_inserted r id).nodes i hiJ hiU]
        have hJi := List.get_of_eq hJ (⟨i, hiJ⟩ : Fin _)
        have hmid : i < (A ++ mkChordNode r.nextRef id r.m :: B).length := by
          rw [← hJ]
          exact hiJ
        have hRgen : i ≠ A.length →
            (A.map node_core ++ (r.nextRef, id, leav.btree) :: B.map node_core).get
              ⟨i, h2i⟩ = node_core ((join_inserted r id).nodes.get ⟨i, hiJ⟩) := by
          intro hine
          rw [hJi]
          by_cases hlt : i < A.length
          · have hL : (A.map node_core ++ (r.nextRef, id, leav.btree) ::
                B.map node_core).get ⟨i, h2i⟩ = node_core (A.get ⟨i, hlt⟩) := by
              show (A.map node_core ++ (r.nextRef, id, leav.btree) ::
                B.map node_core)[i] = _
              rw [List.getElem_append_left
                (show i < (A.map node_core).length by rw [List.length_map]; exact hlt)]
              exact List.getElem_map _
            have hR2 : (A ++ mkChordNode r.nextRef id r.m :: B).get
                ⟨i, hmid⟩ = A.get ⟨i, hlt⟩ := List.getElem_append_left hlt
            rw [hL, hR2]
          · have hgt : A.length < i := by omega
            have hj : i - A.length - 1 < B.length := by
              rw [length_middle] at hmid
              omega
            have hL : (A.map node_core ++ (r.nextRef, id, leav.btree) ::
                B.map node_core).get ⟨i, h2i⟩ =
                node_core (B.get ⟨i - A.length - 1, hj⟩) := by
              show (A.map node_core ++ (r.nextRef, id, leav.btree) ::
                B.map node_core)[i] = _
              rw [getElem_middle_right _ (by rw [List.length_map]; exact hgt)
                h2i (by rw [List.length_map, List.length_map]; exact hj)]
              exact (get_index_congr (B.map node_core) (by rw [List.length_map])
                (by rw [List.length_map, List.length_map]; exact hj)
                (by rw [List.length_map]; exact hj)).trans (List.getElem_map _)
            have hR2 : (A ++ mkChordNode r.nextRef id r.m :: B).get ⟨i, hmid⟩ =
                B.get ⟨i - A.length - 1, hj⟩ :=
              getElem_middle_right _ hgt hmid hj
            rw [hL, hR2]
        by_cases hi1 : i = A.length
        · subst hi1
          have hvref : ((join_inserted r id).nodes.get ⟨A.length, hiJ⟩).ref =
              r.nextRef := by
            rw [hmkget]
            rfl
          have hvid : ((join_inserted r id).nodes.get ⟨A.length, hiJ⟩).node_id = id := by
            rw [hmkget]
            rfl
          have hvbt : ((join_inserted r id).nodes.get ⟨A.length, hiJ⟩).btree =
              BPlusTree.empty := by
            rw [hmkget]
            rfl
          rw [if_pos hvref]
          rw [if_neg (show ¬ ((join_inserted r id).nodes.get ⟨A.length, hiJ⟩).ref =
            ((join_inserted r id).nodes.get ⟨_, hspos⟩).ref from
            fun hcon => hns (hvref.symm.trans hcon))]
          have hR : (A.map node_core ++ (r.nextRef, id, leav.btree) ::
              B.map node_core).get ⟨A.length, h2i⟩ = (r.nextRef, id, leav.btree) := by
            show (A.map node_core ++ (r.nextRef, id, leav.btree) ::
              B.map node_core)[A.length] = _
            rw [List.getElem_append_right (by simp)]
            exact (get_index_congr ((r.nextRef, id, leav.btree) :: B.map node_core)
              (show A.length - (A.map node_core).length = 0 from by simp)
              (by simp) (by simp)).trans (List.getElem_cons_zero _ _ _)
          rw [hR]
          simp only [node_core, Prod.mk.injEq]
          exact ⟨hvref, hvid, by rw [hlbt, hvbt]; exact hnewstore⟩
        · rw [hRgen hi1]
          by_cases hi2 : i = (A.length + 1) % (join_inserted r id).nodes.length
          · subst hi2
            have hvref : ((join_inserted r id).nodes.get ⟨_, hiJ⟩).ref =
                ((join_inserted r id).nodes.get ⟨_, hspos⟩).ref := rfl
            rw [if_neg (show ¬ ((join_inserted r id).nodes.get ⟨_, hiJ⟩).ref =
              r.nextRef from fun hcon => hrefne hcon)]
            rw [if_pos hvref, if_pos hvref]
            simp only [node_core, Prod.mk.injEq]
            refine ⟨trivial, trivial, ?_⟩
            rw [hlbt]
            show ((((join_inserted r id).nodes.get ⟨_, hspos⟩).btree.deleteAll _).insertAll
              (BPlusTree.mk _).get_all_items) = _
            rw [show (BPlusTree.mk
                (((join_inserted r id).nodes.get ⟨_, hspos⟩).btree.entries.filter
                  (fun e => in_interval e.1 (((update_links_list
                    (join_inserted r id).nodes).get ⟨_, hppos'⟩).node_id)
                    id))).get_all_items =
              (((join_inserted r id).nodes.get ⟨_, hspos⟩).btree.entries.filter
                (fun e => in_interval e.1 (((update_links_list
                  (join_inserted r id).nodes).get ⟨_, hppos'⟩).node_id)
                  id)).flatMap entryItems from rfl]
            exact hrestore
          · have hvref1 : ((join_inserted r id).nodes.get ⟨i, hiJ⟩).ref ≠ r.nextRef := by
              intro hcon
              apply hi1
              apply hrefinj _ _ hiJ hilt
              rw [hcon, hmkget]
              rfl
            have hvref2 : ((join_inserted r id).nodes.get ⟨i, hiJ⟩).ref ≠
                ((join_inserted r id).nodes.get ⟨_, hspos⟩).ref := by
              intro hcon
              exact hi2 (hrefinj _ _ hiJ hspos hcon)
            rw [if_neg hvref1, if_neg hvref2, if_neg hvref2]
            rfl

/-- Joining a fresh id into a maintained ring with at least two nodes
and well-formed stores and then immediately removing it restores the
node list exactly: every node, link, finger and store is as before. -/
theorem join_leave_roundtrip {r : ChordRing} (hwf : WF r) (hlen2 : 2 ≤ r.nodes.length)
    {id : Nat} (hfresh : id ∉ ringIds r)
    (hstores : ∀ nd ∈ r.nodes, BPlusTree.WFStore nd.btree)
    {start1 start2 : Option Ref} {res1 : Ref × Nat × Nat} {r1 : ChordRing}
    (h1 : join_node r id start1 = .ok (res1, r1))
    {res2 : Bool × Nat × Nat} {r2 : ChordRing}
    (h2 : leave_node r1 id start2 = .ok (res2, r2)) :
    r2.nodes = r.nodes ∧ r2.m = r.m := by
  obtain ⟨A, B, leav, sref, hab, hm1, hids, hrefs, hleav, hlref, hlid, hlsucc,
    hAid, hAref, hnsref, hcores⟩ := join_phase hwf hlen2 hfresh hstores h1
  have hfind : r1.nodes.find? (fun nd => nd.node_id == id) = some leav := by
    apply find?_id_at_middle id (A.map ChordNode.node_id) r1.nodes
      (B.map ChordNode.node_id) leav hids
    · intro x hx
      obtain ⟨nd, hnd, hndeq⟩ := List.mem_map.mp hx
      exact hndeq ▸ Nat.ne_of_lt (hAid nd hnd)
    · rw [List.length_map]
      exact hleav
  have hlen1 : r1.nodes.length = A.length + B.length + 1 := by
    have h0 := congrArg List.length hids
    simp at h0
    omega
  have hABlen : A.length + B.length = r.nodes.length := by
    have h0 := congrArg List.length hab
    simp at h0
    omega
  rw [leave_node] at h2
  simp only [hfind] at h2
  rw [if_neg (show ¬ r1.nodes.length = 1 from by rw [hlen1]; omega)] at h2
  split at h2
  · simp at h2
  next th mv rl1 hfold =>
    simp only [Except.ok.injEq, Prod.mk.injEq] at h2
    have hr2 : r2 = fix_all_fingers (update_links
        ({ rl1 with nodes := remove_first_node rl1.nodes leav.ref })) := h2.2.symm
    rw [hlsucc] at hfold
    have hrl1 := leave_fold_effect _ _ _ _ _ _ hfold
    have hfshape := leave_fold_shape _ _ _ _ _ _ hfold
    have hcores1 : rl1.nodes.map node_core =
        A.map node_core ++ (r.nextRef, id, leav.btree) :: B.map node_core := by
      rw [hrl1]
      exact hcores
    have hrefs1 : rl1.nodes.map ChordNode.ref = r1.nodes.map ChordNode.ref := by
      rw [hrl1, List.map_map]
      apply List.map_congr_left
      intro nd _
      by_cases hx : nd.ref = sref <;> simp [Function.comp, hx]
    have hrefs1m : rl1.nodes.map ChordNode.ref =
        A.map ChordNode.ref ++ r.nextRef :: B.map ChordNode.ref := hrefs1.trans hrefs
    have hlenrl1 : rl1.nodes.length = A.length + B.length + 1 := by
      rw [hrl1, List.length_map, hlen1]
    have hmrl1 : rl1.m = r.m := hfshape.1.trans hm1
    have hklt : A.length < rl1.nodes.length := by omega
    have hgetref : ∀ (i : Nat) (hi : i < rl1.nodes.length),
        (rl1.nodes.get ⟨i, hi⟩).ref =
          (A.map ChordNode.ref ++ r.nextRef :: B.map ChordNode.ref).get
            ⟨i, by rw [← hrefs1m, List.length_map]; exact hi⟩ := by
      intro i hi
      have h0 : (rl1.nodes.map ChordNode.ref).get ⟨i, by rw [List.length_map]; exact hi⟩ =
          (rl1.nodes.get ⟨i, hi⟩).ref := List.get_map _
      rw [← h0]
      exact List.get_of_eq hrefs1m _
    have hbefore : ∀ i (hi : i < A.length),
        (rl1.nodes.get ⟨i, Nat.lt_trans hi hklt⟩).ref ≠ leav.ref := by
      intro i hi
      rw [hlref, hgetref i (Nat.lt_trans hi hklt)]
      have hR : (A.map ChordNode.ref ++ r.nextRef :: B.map ChordNode.ref).get
          ⟨i, by rw [← hrefs1m, List.length_map]; exact Nat.lt_trans hi hklt⟩ =
          (A.get ⟨i, hi⟩).ref :=
        (List.getElem_append_left (by rw [List.length_map]; exact hi)).trans
          (List.getElem_map _)
      rw [hR]
      exact hAref _ (List.get_mem A i hi)
    have hat : (rl1.nodes.get ⟨A.length, hklt⟩).ref = leav.ref := by
      rw [hlref, hgetref A.length hklt]
      exact (List.getElem_append_right (by simp)).trans
        ((get_index_congr (r.nextRef :: B.map ChordNode.ref)
          (show A.length - (A.map ChordNode.ref).length = 0 from by simp)
          (by simp) (by simp)).trans (List.getElem_cons_zero _ _ _))
    have hremove : remove_first_node rl1.nodes leav.ref =
        rl1.nodes.take A.length ++ rl1.nodes.drop (A.length + 1) :=
      remove_first_node_take_drop rl1.nodes A.length leav.ref hklt hbefore hat
    have hcores2 : (remove_first_node rl1.nodes leav.ref).map node_core =
        r.nodes.map node_core := by
      rw [hremove, List.map_append, List.map_take, List.map_drop, hcores1, hab,
        List.map_append]
      congr 1
      · rw [show A.length = (A.map node_core).length from (List.length_map _ _).symm,
          List.take_left]
      · rw [show A.map node_core ++ (r.nextRef, id, leav.btree) :: B.map node_core =
          (A.map node_core ++ [(r.nextRef, id, leav.btree)]) ++ B.map node_core from
          by rw [List.append_assoc, List.singleton_append]]
        rw [show A.length + 1 =
          (A.map node_core ++ [(r.nextRef, id, leav.btree)]).length from by simp]
        rw [List.drop_left]
    have hfinal : r2.nodes = r.nodes := by
      rw [hr2]
      show (canonical_maintain
        ({ rl1 with nodes := remove_first_node rl1.nodes leav.ref })).nodes = r.nodes
      rw [canonical_nodes_eq_of_core
        (show ({ rl1 with nodes := remove_first_node rl1.nodes leav.ref } :
          ChordRing).m = r.m from hmrl1)
        (show ({ rl1 with nodes := remove_first_node rl1.nodes leav.ref } :
          ChordRing).nodes.map node_core = r.nodes.map node_core from hcores2)]
      rw [hwf.maintained]
    have hm2 : r2.m = r.m := by
      rw [hr2]
      show ({ rl1 with nodes := remove_first_node rl1.nodes leav.ref } : ChordRing).m = r.m
      exact hmrl1
    exact ⟨hfinal, hm2⟩

/-! ## Routing reads only the node list -/

theorem getNode_congr {a b : ChordRing} (h : a.nodes = b.nodes) (x : Ref) :
    getNode a x = getNode b x := by
  rw [getNode, getNode, h]

theorem cpf_scan_congr {a b : ChordRing} (h : a.nodes = b.nodes) (bid key : Nat) :
    ∀ fs, cpf_scan a bid key fs = cpf_scan b bid key fs := by
  intro fs
  induction fs with
  | nil => rfl
  | cons hd tl ih =>
    cases hd with
    | none =>
      rw [cpf_scan, cpf_scan]
      exact ih
    | some fref =>
      rw [cpf_scan, cpf_scan]
      simp only [getNode_congr h, ih]

theorem closest_preceding_finger_congr {a b : ChordRing} (h : a.nodes = b.nodes)
    (nd : ChordNode) (key : Nat) :
    closest_preceding_finger a nd key = closest_preceding_finger b nd key := by
  rw [closest_preceding_finger, closest_preceding_finger, cpf_scan_congr h]

theorem find_successor_linear_congr {a b : ChordRing} (h : a.nodes = b.nodes)
    (key : Nat) :
    find_successor_linear a key = find_successor_linear b key := by
  rw [find_successor_linear, find_successor_linear, h]

theorem fs_loop_congr {a b : ChordRing} (h : a.nodes = b.nodes) (key ms : Nat) :
    ∀ (fuel : Nat) (curr : Ref) (hops : Nat),
      fs_loop a key ms fuel curr hops = fs_loop b key ms fuel curr hops := by
  intro fuel
  induction fuel with
  | zero => intro curr hops; rfl
  | succ f ih =>
    intro curr hops
    rw [fs_loop, fs_loop]
    simp only [getNode_congr h, closest_preceding_finger_congr h,
      find_successor_linear_congr h, ih]

theorem find_successor_congr {a b : ChordRing} (h : a.nodes = b.nodes)
    (key : Nat) (start : Option Ref) :
    find_successor a key start = find_successor b key start := by
  simp only [find_successor, h, getNode_congr h, fs_loop_congr h]

/-- `lookup` reads only the key-space width and the node list: its
records-and-hops result is unchanged across rings agreeing on both. -/
theorem lookup_congr (hf : String → Nat) {a b : ChordRing} (hm : a.m = b.m)
    (h : a.nodes = b.nodes) (title : String) (start : Option Ref) :
    (ChordRing.lookup hf a title start).map Prod.fst =
    (ChordRing.lookup hf b title start).map Prod.fst := by
  simp only [ChordRing.lookup, chord_hash, hm, find_successor_congr h, getNode_congr h]
  cases find_successor b (hf title % 2 ^ b.m) start with
  | error e => rfl
  | ok p =>
    obtain ⟨nref, hops⟩ := p
    cases hg : getNode b nref <;> simp [hg, Except.map]

/-- **C2**.  For every maintained Chord ring with at least two nodes,
pairwise distinct node ids, distinct live handles, and well-formed
stores, calling `join_node` with a fresh id and then immediately
`leave_node` of that id (no intervening data operations) restores the
node list exactly: hence every previously stored record is retrievable
by `lookup` of its original title with an unchanged result, and the
total number of `(key, record)` items summed over all nodes' stores is
the same before the join and after the leave. -/
theorem C2_join_leave_conservation (hf : String → Nat) {r : ChordRing} (hwf : WF r)
    (hlen2 : 2 ≤ r.nodes.length)
    {id : Nat} (hfresh : id ∉ ringIds r)
    (hstores : ∀ nd ∈ r.nodes, BPlusTree.WFStore nd.btree)
    {start1 start2 : Option Ref} {res1 : Ref × Nat × Nat} {r1 : ChordRing}
    (h1 : join_node r id start1 = .ok (res1, r1))
    {res2 : Bool × Nat × Nat} {r2 : ChordRing}
    (h2 : leave_node r1 id start2 = .ok (res2, r2)) :
    r2.nodes = r.nodes ∧
    (r2.nodes.map (fun nd => nd.btree.itemCount)).sum =
      (r.nodes.map (fun nd => nd.btree.itemCount)).sum ∧
    ∀ (title : String) (start : Option Ref),
      (ChordRing.lookup hf r2 title start).map Prod.fst =
      (ChordRing.lookup hf r title start).map Prod.fst := by
  obtain ⟨hn, hm⟩ := join_leave_roundtrip hwf hlen2 hfresh hstores h1 h2
  exact ⟨hn, by rw [hn], fun title start => lookup_congr hf hm hn title start⟩

/-- A maintained two-node ring (ids 1 and 5, key space `2^3`) holding
one record under key 3 on node 5. -/
def C2ringA : ChordRing :=
  ⟨3, [⟨0, 1, ⟨[]⟩, some 1, some 1, [some 1, some 1, some 1]⟩,
       ⟨1, 5, ⟨[(3, [[("title", "A")]])]⟩, some 0, some 0,
         [some 0, some 0, some 0]⟩], 2⟩

/-- `C2ringA` after `join_node 3`: the record under key 3 moved to the
new node. -/
def C2ring1 : ChordRing :=
  ⟨3, [⟨0, 1, ⟨[]⟩, some 2, some 1, [some 2, some 2, some 1]⟩,
       ⟨2, 3, ⟨[(3, [[("title", "A")]])]⟩, some 1, some 0,
         [some 1, some 1, some 0]⟩,
       ⟨1, 5, ⟨[]⟩, some 0, some 2, [some 0, some 0, some 0]⟩], 3⟩

/-- `C2ring1` after `leave_node 3`: the record is back on node 5 and
the node list is exactly `C2ringA.nodes` again. -/
def C2ring2 : ChordRing :=
  ⟨3, [⟨0, 1, ⟨[]⟩, some 1, some 1, [some 1, some 1, some 1]⟩,
       ⟨1, 5, ⟨[(3, [[("title", "A")]])]⟩, some 0, some 0,
         [some 0, some 0, some 0]⟩], 3⟩

/-- Witness for C2: on the concrete ring the join moves the record to
the new node, the leave moves it back, and the theorem yields the
unchanged node list, item count and lookup result. -/
theorem C2_witness :
    2 ≤ C2ringA.nodes.length ∧ (3 : Nat) ∉ ringIds C2ringA ∧
    join_node C2ringA 3 none = .ok ((2, 1, 1), C2ring1) ∧
    leave_node C2ring1 3 none = .ok ((true, 1, 1), C2ring2) ∧
    C2ring2.nodes = C2ringA.nodes ∧
    (C2ring2.nodes.map (fun nd => nd.btree.itemCount)).sum =
      (C2ringA.nodes.map (fun nd => nd.btree.itemCount)).sum ∧
    (ChordRing.lookup (fun _ => 3) C2ring2 "A" none).map Prod.fst =
      (ChordRing.lookup (fun _ => 3) C2ringA "A" none).map Prod.fst := by
  have h1 : join_node C2ringA 3 none = .ok ((2, 1, 1), C2ring1) := by rfl
  have h2 : leave_node C2ring1 3 none = .ok ((true, 1, 1), C2ring2) := by rfl
  have hst : ∀ nd ∈ C2ringA.nodes, BPlusTree.WFStore nd.btree := by
    simp only [BPlusTree.WFStore]
    decide
  have h := C2_join_leave_conservation (fun _ => 3)
    (⟨by decide, by decide, by decide, by decide⟩ : WF C2ringA)
    (by decide) (by decide) hst h1 h2
  exact ⟨by decide, by decide, h1, h2, h.1, h.2.1, h.2.2 "A" none⟩

end DData
